import Mathlib

/-!
# Snapshot inspect formatter (`command/snapshot/inspect/formatter.go`)

A shallow embedding of the format selector, the two renderers and the
byte-size humaniser, followed by theorems about them.

Conventions of the embedding:

* Go strings are Lean `String`s (sequences of Unicode characters, i.e. valid
  UTF-8 text).
* Go integers are `Int`/`Nat`; the conversion `uint64(x)` is reduction modulo `2^64`.
* A Go result pair `(value, error)` is a Lean pair whose second component is
  `none` for a nil error and `some msg` for an error with message `msg`.
* The float64 values that occur in `ByteSize` are non-negative dyadic rationals;
  they are held exactly as a numerator over a power-of-two denominator.
* Standard-library routines (`strconv.FormatFloat`, `strings.TrimSuffix`,
  `text/tabwriter`, `fmt`) are modelled by the definitions in the sections
  named after their packages; `sort.Slice` and `json.MarshalIndent` are taken
  as parameters. The section on `encoding/json` gives a model of the encoder
  and of the decoder, with which the round trip of the structured output is
  stated.
-/

namespace inspect

/-! ## Package `strings` -/

/-- Go `strings.HasSuffix(s, suffix)`. -/
def HasSuffix (s suffix : String) : Bool :=
  suffix.data.isSuffixOf s.data

/-- Go `strings.TrimSuffix(s, suffix)`: `s` without the trailing `suffix`
when it has it, otherwise `s` unchanged. -/
def TrimSuffix (s suffix : String) : String :=
  if HasSuffix s suffix then
    String.mk (s.data.take (s.data.length - suffix.data.length))
  else s

/-! ## float64 values and package `strconv` -/

/-- A finite non-negative float64 value, held exactly as `num / den`
(`den` is a power of two). -/
structure float64 where
  num : Nat
  den : Nat
deriving DecidableEq, Repr

/-- Go `bits.Len64`: the number of bits needed to represent `n`
(zero for `n = 0`), computed with a fuel that bounds the bit count. -/
def lenAux : Nat → Nat → Nat
  | 0, _ => 0
  | fuel + 1, n => if n = 0 then 0 else lenAux fuel (n / 2) + 1

/-- Bit length of an unsigned 64-bit number. -/
def Len64 (n : Nat) : Nat := lenAux 64 n

/-- The nearest integer to `a / b`, ties to the even integer. -/
def roundHalfEven (a b : Nat) : Nat :=
  let q := a / b
  let r := a % b
  if 2 * r > b ∨ (2 * r = b ∧ q % 2 = 1) then q + 1 else q

/-- Go conversion `float64(bytes)` of a `uint64`: the nearest float64
(53-bit significand), ties to even. The result is an integer. -/
def float64.ofUint64 (bytes : Nat) : float64 :=
  if bytes < 2 ^ 53 then
    { num := bytes, den := 1 }
  else
    let e := Len64 bytes - 53
    { num := roundHalfEven bytes (2 ^ e) * 2 ^ e, den := 1 }

/-- Go float64 division `value / unit` where `unit` is a power of two
(exact: only the exponent changes). -/
def float64.div (value : float64) (unit : Nat) : float64 :=
  { num := value.num, den := value.den * unit }

/-- Go `strconv.FormatFloat(value, 'f', 1, 64)`: the decimal expansion of
the exact value correctly rounded to one digit after the decimal point
(ties to even), integer part, a point, one digit. -/
def FormatFloat (value : float64) : String :=
  let tenths := roundHalfEven (value.num * 10) value.den
  toString (tenths / 10) ++ "." ++ toString (tenths % 10)

/-! ## Format identifiers and the selector -/

def PrettyFormat : String := "pretty"

def JSONFormat : String := "json"

/-- The interface `Formatter`: its two implementations are the (stateless)
struct types `prettyFormatter` and `jsonFormatter`. -/
inductive Formatter where
  | prettyFormatter
  | jsonFormatter
deriving DecidableEq, Repr

def GetSupportedFormats : List String :=
  [PrettyFormat, JSONFormat]

def newPrettyFormatter : Formatter := Formatter.prettyFormatter

def newJSONFormatter : Formatter := Formatter.jsonFormatter

/-- The selector. The first component is the formatter (`none` is Go's nil),
the second the error (`none` is nil, `some msg` an error whose message is
`msg`, built by `fmt.Errorf("Unknown format: %s", format)`). -/
def NewFormatter (format : String) : Option Formatter × Option String :=
  if format = PrettyFormat then (some newPrettyFormatter, none)
  else if format = JSONFormat then (some newJSONFormatter, none)
  else (none, some ("Unknown format: " ++ format))

/-! ## Byte sizes -/

def BYTE : Nat := 1 <<< (10 * 0)

def KILOBYTE : Nat := 1 <<< (10 * 1)

def MEGABYTE : Nat := 1 <<< (10 * 2)

def GIGABYTE : Nat := 1 <<< (10 * 3)

def TERABYTE : Nat := 1 <<< (10 * 4)

/-- The `switch` of `ByteSize`: the unit and the scaled value, or `none`
for the case that returns `"0"` at once. The final branch is the fall
through of the switch when no case matches. -/
def ByteSize.select (bytes : Nat) : Option (String × float64) :=
  let unit := ""
  let value := float64.ofUint64 bytes
  if bytes ≥ TERABYTE then some ("TB", value.div TERABYTE)
  else if bytes ≥ GIGABYTE then some ("GB", value.div GIGABYTE)
  else if bytes ≥ MEGABYTE then some ("MB", value.div MEGABYTE)
  else if bytes ≥ KILOBYTE then some ("KB", value.div KILOBYTE)
  else if bytes ≥ BYTE then some ("B", value)
  else if bytes = 0 then none
  else some (unit, value)

/-- The function `ByteSize` on a `uint64` argument (`bytes < 2^64`). -/
def ByteSize (bytes : Nat) : String :=
  match ByteSize.select bytes with
  | none => "0"
  | some (unit, value) =>
    let result := FormatFloat value
    let result := TrimSuffix result ".0"
    result ++ unit

/-- The unit suffix that `ByteSize` appends for a count. -/
def unitOf (n : Nat) : String :=
  if n ≥ TERABYTE then "TB" else if n ≥ GIGABYTE then "GB"
  else if n ≥ MEGABYTE then "MB" else if n ≥ KILOBYTE then "KB"
  else if n ≥ BYTE then "B" else ""

/-- The byte count of the unit that `ByteSize` divides by for a count. -/
def unitBytes (n : Nat) : Nat :=
  if n ≥ TERABYTE then TERABYTE else if n ≥ GIGABYTE then GIGABYTE
  else if n ≥ MEGABYTE then MEGABYTE else if n ≥ KILOBYTE then KILOBYTE
  else 1

/-- The number that `ByteSize` prints for a count, in tenths. -/
def tenths (n : Nat) : Nat :=
  roundHalfEven ((float64.ofUint64 n).num * 10) (unitBytes n)

/-- The text of a number of tenths with one decimal digit, without a
trailing ".0". -/
def numText (t : Nat) : String :=
  if t % 10 = 0 then toString (t / 10)
  else toString (t / 10) ++ "." ++ toString (t % 10)

/-! ## Package `text/tabwriter`

The writer created by `tabwriter.NewWriter(&b, 8, 8, 6, ' ', 0)`: flags are
zero, so cells are left-aligned, padded with `padchar`, nothing is filtered
or discarded. Text is split into cells at tab and vertical tab, into lines
at newline and form feed; the width of a cell is its number of characters. -/

namespace tabwriter

/-- A buffered line: the texts of its terminated cells, left to right. -/
abbrev Line := List (List Char)

/-- The loop over the cells of one line in `writeLines`: a cell with index
below `len(widths)` is padded to the width of its column, the others are
written as they are. -/
def writeCells (padchar : Char) : List Nat → Line → List Char
  | _, [] => []
  | [], c :: cs => c ++ writeCells padchar [] cs
  | w :: ws, c :: cs =>
    c ++ List.replicate (w - c.length) padchar ++ writeCells padchar ws cs

/-- Maximal runs of consecutive elements on which `p` has the same value,
each tagged with that value. -/
def blocks {α : Type} (p : α → Bool) : List α → List (Bool × List α)
  | [] => []
  | x :: xs =>
    match blocks p xs with
    | [] => [(p x, [x])]
    | (b, seg) :: rest =>
      if b = p x then (b, x :: seg) :: rest else (p x, [x]) :: (b, seg) :: rest

/-- The width of a column block: `minwidth`, or the largest cell width in
the column plus `padding` when that is more. -/
def columnWidth (minwidth padding column : Nat) (block : List Line) : Nat :=
  block.foldl
    (fun width line =>
      let w := (line.getD column []).length + padding
      if w > width then w else width)
    minwidth

/-- The method `format`, on the lines `line0 .. line1` given as a list, with
`widths` the widths of the columns to the left; `column = len(widths)`. The
result lists the text written for each line (without its newline). A line
has a cell in the column when `column < len(line) - 1`; a maximal run of
such lines is a column block, formatted recursively with the width of the
block pushed; the other lines are written with the widths known so far.
The fuel bounds the recursion depth (the number of columns). -/
def formatLines (minwidth padding : Nat) (padchar : Char) :
    Nat → List Nat → List Line → List (List Char)
  | 0, widths, lines => lines.map (writeCells padchar widths)
  | fuel + 1, widths, lines =>
    let column := widths.length
    ((blocks (fun line : Line => decide (column + 1 < line.length)) lines).map
      (fun seg =>
        if seg.1 then
          let width := columnWidth minwidth padding column seg.2
          formatLines minwidth padding padchar fuel (widths ++ [width]) seg.2
        else
          seg.2.map (writeCells padchar widths))).flatten

/-- The written lines with a newline after each one but the last buffered
line, which has no newline yet. -/
def joinLines : List (List Char) → List Char
  | [] => []
  | [l] => l
  | l :: ls => l ++ '\n' :: joinLines ls

/-- The largest number of cells in a line. -/
def maxCells (lines : List Line) : Nat :=
  lines.foldl (fun m line => max m line.length) 0

/-- The state of a `tabwriter.Writer` with flags zero. `output` is the
underlying buffer, `lines ++ [line]` the buffered lines (the slice
`b.lines`, never empty), `cell` the text of the current, unterminated
cell. -/
structure Writer where
  minwidth : Nat
  tabwidth : Nat
  padding : Nat
  padchar : Char
  output : List Char
  lines : List Line
  line : Line
  cell : List Char
deriving DecidableEq, Repr

/-- Go `tabwriter.NewWriter(output, minwidth, tabwidth, padding, padchar, 0)`
on an empty buffer. -/
def NewWriter (minwidth tabwidth padding : Nat) (padchar : Char) : Writer :=
  { minwidth := minwidth, tabwidth := tabwidth, padding := padding,
    padchar := padchar, output := [], lines := [], line := [], cell := [] }

/-- The method `terminateCell`: the current cell joins the last line. -/
def Writer.terminateCell (b : Writer) : Writer :=
  { b with line := b.line ++ [b.cell], cell := [] }

/-- The method `addLine`: a new, empty last line. -/
def Writer.addLine (b : Writer) : Writer :=
  { b with lines := b.lines ++ [b.line], line := [] }

/-- The text written by `b.format(0, 0, len(b.lines))`. -/
def Writer.format (b : Writer) : List Char :=
  let all := b.lines ++ [b.line]
  joinLines (formatLines b.minwidth b.padding b.padchar (maxCells all) [] all)

/-- The method `flushNoDefers`: a non-empty current cell is terminated, the
buffered lines are formatted and written, the writer is reset. -/
def Writer.flushNoDefers (b : Writer) : Writer :=
  let b := if b.cell.length > 0 then b.terminateCell else b
  { b with output := b.output ++ b.format, lines := [], line := [], cell := [] }

/-- One step of the loop of `Write` outside escapes: a tab or vertical tab
ends the cell; a newline or form feed ends the cell and the line, and
flushes when it is a form feed or the line has a single cell; any other
character joins the current cell. -/
def Writer.writeByte (b : Writer) (ch : Char) : Writer :=
  if ch = '\t' ∨ ch = '\x0b' ∨ ch = '\n' ∨ ch = '\x0c' then
    let b := b.terminateCell
    let ncells := b.line.length
    if ch = '\n' ∨ ch = '\x0c' then
      let b := b.addLine
      if ch = '\x0c' ∨ ncells = 1 then b.flushNoDefers else b
    else b
  else
    { b with cell := b.cell ++ [ch] }

/-- The method `Write`. -/
def Writer.Write (b : Writer) (buf : String) : Writer :=
  buf.data.foldl Writer.writeByte b

/-- The method `Flush`. The underlying writer is an in-memory buffer, whose
`Write` returns no error, so the error of `Flush` is nil. -/
def Writer.Flush (b : Writer) : Writer × Option String :=
  (b.flushNoDefers, none)

end tabwriter

/-! ## The report -/

/-- Modelled from the spec: the declaration of `typeStats` is not in the
source file. One statistics entry: record-type name, cumulative size and
count (Go integers, read by the formatter with `%s`, `uint64(..)`, `%d`). -/
structure typeStats where
  Name : String
  Sum : Int
  Count : Int
deriving DecidableEq, Repr

/-- Modelled from the spec: the declaration of `MetadataInfo` is not in the
source file. The identifying fields of the snapshot; the formatter prints
`ID` with `%s` and the others with `%d`. -/
structure MetadataInfo where
  ID : String
  Size : Int
  Index : Int
  Term : Int
  Version : Int
deriving DecidableEq, Repr

/-- Modelled from the spec: the declaration of `OutputFormat` is not in the
source file. `Stats` lists the statistics entries in the order in which
`range info.Stats` yields them. -/
structure OutputFormat where
  Meta : MetadataInfo
  Stats : List typeStats
  Offset : Int
deriving DecidableEq, Repr

/-- Go conversion `uint64(x)` of an integer. -/
def uint64 (x : Int) : Nat := (x % 2 ^ 64).toNat

/-- The type of `sort.Slice` at `[]typeStats`: the slice and the `less`
function (on elements rather than on indices) to the sorted slice. -/
abbrev SortSlice := List typeStats → (typeStats → typeStats → Bool) → List typeStats

/-- The documented behaviour of `sort.Slice` for the comparison `less`: the
result is a rearrangement of the slice in which no element is `less` than
an earlier one. Nothing is promised about elements that compare equal. -/
def SortSlice.Sorts (sortSlice : SortSlice) (less : typeStats → typeStats → Bool) : Prop :=
  ∀ ss : List typeStats,
    (sortSlice ss less).Perm ss ∧
    (sortSlice ss less).Pairwise (fun a b => less b a = false)

/-- The `less` function of `prettyFormatter.Format`: `ss[i].Sum > ss[j].Sum`. -/
def sumGreater (a b : typeStats) : Bool := decide (a.Sum > b.Sum)

/-! ## The renderers -/

/-- The method `(*prettyFormatter).Format`, with `sort.Slice` as a
parameter. Each `fmt.Fprintf(tw, ...)` is a `Write` of the formatted text. -/
def prettyFormatter.Format (sortSlice : SortSlice) (info : OutputFormat) :
    String × Option String :=
  let ss : List typeStats := []
  let ss := info.Stats.foldl (fun ss s => ss ++ [s]) ss
  let ss := sortSlice ss sumGreater
  let tw := tabwriter.NewWriter 8 8 6 ' '
  let tw := tw.Write (" ID\t" ++ info.Meta.ID)
  let tw := tw.Write ("\n Size\t" ++ toString info.Meta.Size)
  let tw := tw.Write ("\n Index\t" ++ toString info.Meta.Index)
  let tw := tw.Write ("\n Term\t" ++ toString info.Meta.Term)
  let tw := tw.Write ("\n Version\t" ++ toString info.Meta.Version)
  let tw := tw.Write "\n"
  let tw := tw.Write ("\n Type\tCount\tSize\t" ++ "\n")
  let tw := tw.Write (" " ++ "----" ++ "\t" ++ "----" ++ "\t" ++ "----" ++ "\t")
  let tw := ss.foldl
    (fun tw s =>
      tw.Write ("\n " ++ s.Name ++ "\t" ++ toString s.Count ++ "\t" ++
        ByteSize (uint64 s.Sum) ++ "\t"))
    tw
  let tw := tw.Write ("\n " ++ "----" ++ "\t" ++ "----" ++ "\t" ++ "----" ++ "\t")
  let tw := tw.Write ("\n Total\t\t" ++ ByteSize (uint64 info.Offset) ++ "\t")
  match tw.Flush with
  | (tw, some err) => (String.mk tw.output, some err)
  | (tw, none) => (String.mk tw.output, none)

/-- The type of `json.MarshalIndent` at `*OutputFormat`: value, prefix and
indent to the encoded text or the message of an error. -/
abbrev MarshalIndent := OutputFormat → String → String → Except String String

/-- The method `(*jsonFormatter).Format`, with `json.MarshalIndent` as a
parameter. -/
def jsonFormatter.Format (marshalIndent : MarshalIndent) (info : OutputFormat) :
    String × Option String :=
  match marshalIndent info "" "   " with
  | Except.error err =>
    ("", some ("Failed to marshal original snapshot stats: " ++ err))
  | Except.ok b => (b, none)

/-- Dynamic dispatch of the interface method `Format` on the concrete type
of the formatter. -/
def Formatter.Format (sortSlice : SortSlice) (marshalIndent : MarshalIndent) :
    Formatter → OutputFormat → String × Option String
  | Formatter.prettyFormatter, info => prettyFormatter.Format sortSlice info
  | Formatter.jsonFormatter, info => jsonFormatter.Format marshalIndent info

/-- Insertion of `x` into a list: `x` goes before the first element that
is not `less` than `x`. -/
def insertBy (less : typeStats → typeStats → Bool) (x : typeStats) :
    List typeStats → List typeStats
  | [] => [x]
  | y :: ys => if less y x then y :: insertBy less x ys else x :: y :: ys

/-- Insertion sort, an instance of `sort.Slice` used to evaluate the
renderer on concrete reports. -/
def insertionSortSlice : SortSlice :=
  fun ss less => ss.foldr (insertBy less) []

/-! ## Notions used to state the properties of the tabular output -/

/-- The state of a writer in which the current line has no cells and the
current cell no text. -/
def tabwriter.Writer.atLineStart (b : tabwriter.Writer) : Prop :=
  b.line = [] ∧ b.cell = []

/-- The formatting parameters of a writer. -/
def tabwriter.Writer.params (b : tabwriter.Writer) : Nat × Nat × Nat × Char :=
  (b.minwidth, b.tabwidth, b.padding, b.padchar)

/-- The characters at which the tabwriter ends a cell or a line: tab,
vertical tab, newline, form feed. -/
def isTerminator (ch : Char) : Bool :=
  decide (ch = '\t' ∨ ch = '\x0b' ∨ ch = '\n' ∨ ch = '\x0c')

/-- A text without tab, vertical tab, newline and form feed. -/
def plain (s : String) : Prop :=
  ∀ ch ∈ s.data, isTerminator ch = false

instance (s : String) : Decidable (plain s) :=
  inferInstanceAs (Decidable (∀ ch ∈ s.data, isTerminator ch = false))

/-- The three cells that the renderer writes for a statistics entry. -/
def rowCells (s : typeStats) : tabwriter.Line :=
  [' ' :: s.Name.data, (toString s.Count).data, (ByteSize (uint64 s.Sum)).data]

/-- The cells of the header line of the table. -/
def headerCells : tabwriter.Line := [" Type".data, "Count".data, "Size".data]

/-- The cells of a separator line of the table. -/
def dashCells : tabwriter.Line := [" ----".data, "----".data, "----".data]

/-- The cells of the last line of the table. -/
def totalCells (offset : Int) : tabwriter.Line :=
  [" Total".data, [], (ByteSize (uint64 offset)).data]

/-- The lines that the writer holds when the renderer flushes it, for the
sorted entries `ss`: header, separator, one line for each entry and the
closing separator, each ended by a newline after its last tab (an empty
fourth cell), and the last line, which ends with its last tab. -/
def tableBuffer (ss : List typeStats) (offset : Int) : List tabwriter.Line :=
  ((headerCells :: dashCells :: ss.map rowCells) ++ [dashCells]).map (fun l => l ++ [[]]) ++
    [totalCells offset]

/-- The lines of a text: the pieces between its newline characters. -/
def splitLines : List Char → List (List Char)
  | [] => [[]]
  | ch :: rest =>
    if ch = '\n' then [] :: splitLines rest
    else
      match splitLines rest with
      | [] => [[ch]]
      | l :: ls => (ch :: l) :: ls

/-- A cell text followed by spaces up to the width of its column. -/
def padCell (width : Nat) (text : List Char) : List Char :=
  text ++ List.replicate (width - text.length) ' '

/-- A line of the table: a space and the first field, the second field and
the third field, each padded with spaces to the width of its column. -/
def tableLine (w0 w1 w2 : Nat) (c0 c1 c2 : String) : List Char :=
  padCell w0 (' ' :: c0.data) ++ padCell w1 c1.data ++ padCell w2 c2.data

/-- The last line of the table: the label, an empty second field, and the
size, which is the end of the text and is not padded. -/
def totalLine (w0 w1 : Nat) (size : String) : List Char :=
  padCell w0 (' ' :: "Total".data) ++ padCell w1 [] ++ size.data

/-- The lines of the table for the sorted entries `ss`, with the widths of
the three columns. -/
def tableLines (w0 w1 w2 : Nat) (ss : List typeStats) (offset : Int) : List (List Char) :=
  [tableLine w0 w1 w2 "Type" "Count" "Size", tableLine w0 w1 w2 "----" "----" "----"] ++
    ss.map (fun s =>
      tableLine w0 w1 w2 s.Name (toString s.Count) (ByteSize (uint64 s.Sum))) ++
    [tableLine w0 w1 w2 "----" "----" "----", totalLine w0 w1 (ByteSize (uint64 offset))]

/-- The widths that the tabwriter gives to the three columns of the table:
the first two columns span all the lines, the third all but the last. -/
def tableWidths (ss : List typeStats) (offset : Int) : Nat × Nat × Nat :=
  (tabwriter.columnWidth 8 6 0 (tableBuffer ss offset),
   tabwriter.columnWidth 8 6 1 (tableBuffer ss offset),
   tabwriter.columnWidth 8 6 2
     (((headerCells :: dashCells :: ss.map rowCells) ++ [dashCells]).map (fun l => l ++ [[]])))

/-- The writer of the tabular renderer just before the flush, for the
metadata, the sorted entries `ss` and the offset of a report: all the
writes of `prettyFormatter.Format`, in order. -/
def written (md : MetadataInfo) (ss : List typeStats) (offset : Int) : tabwriter.Writer :=
  let tw := tabwriter.NewWriter 8 8 6 ' '
  let tw := tw.Write (" ID\t" ++ md.ID)
  let tw := tw.Write ("\n Size\t" ++ toString md.Size)
  let tw := tw.Write ("\n Index\t" ++ toString md.Index)
  let tw := tw.Write ("\n Term\t" ++ toString md.Term)
  let tw := tw.Write ("\n Version\t" ++ toString md.Version)
  let tw := tw.Write "\n"
  let tw := tw.Write ("\n Type\tCount\tSize\t" ++ "\n")
  let tw := tw.Write (" " ++ "----" ++ "\t" ++ "----" ++ "\t" ++ "----" ++ "\t")
  let tw := ss.foldl
    (fun tw s =>
      tw.Write ("\n " ++ s.Name ++ "\t" ++ toString s.Count ++ "\t" ++
        ByteSize (uint64 s.Sum) ++ "\t"))
    tw
  let tw := tw.Write ("\n " ++ "----" ++ "\t" ++ "----" ++ "\t" ++ "----" ++ "\t")
  tw.Write ("\n Total\t\t" ++ ByteSize (uint64 offset) ++ "\t")

/-- The report `reportABC` with its entries in another order. -/
def reportCAB : OutputFormat :=
  { Meta := { ID := "2-12-1603221729747", Size := 5141, Index := 12, Term := 2, Version := 1 },
    Stats := [{ Name := "C", Sum := 200, Count := 2 }, { Name := "A", Sum := 300, Count := 3 },
      { Name := "B", Sum := 100, Count := 1 }],
    Offset := 600 }

/-- The cells of the five lines of the metadata block. -/
def metaCells (md : MetadataInfo) : List tabwriter.Line :=
  [[" ID".data, md.ID.data], [" Size".data, (toString md.Size).data],
   [" Index".data, (toString md.Index).data], [" Term".data, (toString md.Term).data],
   [" Version".data, (toString md.Version).data]]

/-- A line of the metadata block: a space and the label, padded with spaces
to the width 14 of the column of the labels, and the value. -/
def metaLine (label value : String) : List Char :=
  padCell 14 (' ' :: label.data) ++ value.data

/-- The five lines of the metadata block. -/
def metaLines (md : MetadataInfo) : List (List Char) :=
  [metaLine "ID" md.ID, metaLine "Size" (toString md.Size),
   metaLine "Index" (toString md.Index), metaLine "Term" (toString md.Term),
   metaLine "Version" (toString md.Version)]

/-- The length of the longest text in a list of cell texts (zero for no
cells). -/
def longest (cells : List (List Char)) : Nat :=
  cells.foldl (fun m c => max m c.length) 0

/-! ## Example reports -/

/-- A report with the types A (size 300), B (size 100), C (size 200). -/
def reportABC : OutputFormat :=
  { Meta := { ID := "2-12-1603221729747", Size := 5141, Index := 12, Term := 2, Version := 1 },
    Stats := [{ Name := "A", Sum := 300, Count := 3 }, { Name := "B", Sum := 100, Count := 1 },
      { Name := "C", Sum := 200, Count := 2 }],
    Offset := 600 }

/-- A report with one type whose name contains a newline. -/
def reportNewlineName : OutputFormat :=
  { Meta := { ID := "x", Size := 1, Index := 1, Term := 1, Version := 1 },
    Stats := [{ Name := "a\nb", Sum := 1, Count := 1 }],
    Offset := 1 }

/-- A report with one type whose name contains a tab. -/
def reportTabName : OutputFormat :=
  { Meta := { ID := "x", Size := 1, Index := 1, Term := 1, Version := 1 },
    Stats := [{ Name := "a\tb", Sum := 1, Count := 1 }],
    Offset := 1 }

/-- A report in which `Offset` (4096), `Meta.Size` (5141) and the sum of the
sizes of the types (600) differ. -/
def reportDiffer : OutputFormat :=
  { Meta := { ID := "2-12-1603221729747", Size := 5141, Index := 12, Term := 2, Version := 1 },
    Stats := [{ Name := "A", Sum := 300, Count := 3 }, { Name := "B", Sum := 100, Count := 1 },
      { Name := "C", Sum := 200, Count := 2 }],
    Offset := 4096 }

/-- The report `reportDiffer` with another `Meta.Size` and other sizes of the
types, in another order. -/
def reportDifferSums : OutputFormat :=
  { Meta := { ID := "2-12-1603221729747", Size := 77, Index := 12, Term := 2, Version := 1 },
    Stats := [{ Name := "B", Sum := 5000, Count := 1 }, { Name := "A", Sum := 1, Count := 3 },
      { Name := "C", Sum := 70000, Count := 2 }],
    Offset := 4096 }

/-- A report whose identifier contains a form feed (and no tab or newline). -/
def reportFormFeedID : OutputFormat :=
  { Meta := { ID := "a\x0cb", Size := 1, Index := 1, Term := 1, Version := 1 },
    Stats := [{ Name := "A", Sum := 1, Count := 1 }],
    Offset := 1 }

/-- A report whose identifier contains a vertical tab (and no tab or
newline). -/
def reportVerticalTabID : OutputFormat :=
  { Meta := { ID := "a\x0bb", Size := 1, Index := 1, Term := 1, Version := 1 },
    Stats := [{ Name := "A", Sum := 1, Count := 1 }],
    Offset := 1 }

/-- A report whose total is printed with more characters ("1023.9KB") than
the size of any type. -/
def reportLongTotal : OutputFormat :=
  { Meta := { ID := "x", Size := 1, Index := 1, Term := 1, Version := 1 },
    Stats := [{ Name := "A", Sum := 300, Count := 3 }],
    Offset := 1048524 }

/-- A report whose identifier holds characters that the encoder escapes: a
double quote, a backslash, the characters escaped for HTML, a newline, a
control character and a line separator, and a letter outside ASCII. -/
def reportEscapes : OutputFormat :=
  { Meta :=
      { ID := "a\"b\\c<d>&\n\x01\u2028é", Size := -5, Index := 0, Term := 2, Version := 1 },
    Stats := [],
    Offset := 600 }

/-! ## Reading numbers back from their text -/

/-- The value of a run of decimal digits. -/
def decValue (cs : List Char) : Nat :=
  cs.foldl (fun acc c => acc * 10 + (c.toNat - 48)) 0

/-- The number of tenths that a decimal text with at most one digit after
the point denotes: `"12"` is 120 tenths, `"1.5"` is 15 tenths. -/
def readTenths (cs : List Char) : Nat :=
  decValue (cs.takeWhile (fun c => c != '.')) * 10 +
    decValue ((cs.dropWhile (fun c => c != '.')).drop 1)

/-! ## Package `encoding/json` -/

namespace json

/-- The digit table `hex` of the encoder (`"0123456789abcdef"`), indexed by
a number below 16. -/
def hex (n : Nat) : Char := "0123456789abcdef".data.getD n '0'

/-- The table `htmlSafeSet` of the encoder on ASCII characters: the
characters that are written as they are. The others are the control
characters, the double quote, the backslash and the three characters
escaped for HTML. -/
def htmlSafe (c : Char) : Bool :=
  decide (0x20 ≤ c.toNat) && c != '"' && c != '\\' && c != '<' && c != '>' && c != '&'

/-- What the encoder writes for one character of a string (the loop body of
`encodeState.string` with HTML escaping on, as `Marshal` sets it): the
quote and the backslash after a backslash, newline, carriage return and tab
as `\n`, `\r`, `\t`, the other control characters and `<`, `>`, `&` as
`\u00` and two hexadecimal digits, the line and paragraph separators as
`\u2028` and `\u2029`, every other character as it is. (Later releases of
Go write `\b` and `\f` for two of the control characters; the decoder reads
both forms.) -/
def escape (c : Char) : List Char :=
  if c.toNat < 0x80 then
    if htmlSafe c then [c]
    else if c = '\\' ∨ c = '"' then ['\\', c]
    else if c = '\n' then ['\\', 'n']
    else if c = '\r' then ['\\', 'r']
    else if c = '\t' then ['\\', 't']
    else ['\\', 'u', '0', '0', hex (c.toNat / 16), hex (c.toNat % 16)]
  else if c.toNat = 0x2028 ∨ c.toNat = 0x2029 then
    ['\\', 'u', '2', '0', '2', hex (c.toNat % 16)]
  else [c]

/-- The encoding of a Go string: the escaped characters between double
quotes. -/
def quote (s : String) : List Char :=
  '"' :: (s.data.map escape).flatten ++ ['"']

/-- The encoding of a Go integer: its decimal numeral. -/
def encodeInt (n : Int) : List Char := (toString n).data

/-- The line break that `Indent` puts before an element at nesting level
`depth`: a newline, the prefix and `depth` copies of the indent. -/
def newline (pre ind : String) (depth : Nat) : List Char :=
  '\n' :: pre.data ++ (List.replicate depth ind.data).flatten

/-- The texts `items` with `sep` between each two of them. -/
def joinItems (sep : List Char) : List (List Char) → List Char
  | [] => []
  | [x] => x
  | x :: y :: rest => x ++ sep ++ joinItems sep (y :: rest)

/-- An indented object or array at nesting level `depth`: the opening
bracket `lb`, the encoded elements each on a line of its own one level
deeper and separated by commas, and the closing bracket `rb` on a line of
its own. Without elements the two brackets stand together. -/
def encodeList (lb rb : Char) (pre ind : String) (depth : Nat) (items : List (List Char)) :
    List Char :=
  match items with
  | [] => [lb, rb]
  | _ =>
    lb :: newline pre ind (depth + 1) ++
      joinItems (',' :: newline pre ind (depth + 1)) items ++
      newline pre ind depth ++ [rb]

/-- One member of an indented object: the quoted key, a colon, a space and
the encoded value. -/
def encodeMember (key : String) (value : List Char) : List Char :=
  quote key ++ ':' :: ' ' :: value

/-- Modelled from the spec: the declaration of `typeStats` is not in the
source file, the keys are the field names. The encoding of one statistics
entry at nesting level `depth`. -/
def encodeTypeStats (pre ind : String) (depth : Nat) (s : typeStats) : List Char :=
  encodeList '{' '}' pre ind depth
    [encodeMember "Name" (quote s.Name),
     encodeMember "Sum" (encodeInt s.Sum),
     encodeMember "Count" (encodeInt s.Count)]

/-- Modelled from the spec: the declaration of `MetadataInfo` is not in the
source file, the keys are the field names. The encoding of the metadata at
nesting level `depth`. -/
def encodeMetadataInfo (pre ind : String) (depth : Nat) (m : MetadataInfo) : List Char :=
  encodeList '{' '}' pre ind depth
    [encodeMember "ID" (quote m.ID),
     encodeMember "Size" (encodeInt m.Size),
     encodeMember "Index" (encodeInt m.Index),
     encodeMember "Term" (encodeInt m.Term),
     encodeMember "Version" (encodeInt m.Version)]

/-- Go's `<` on strings: the comparison byte by byte, which for Unicode
text is the comparison character by character. -/
def lessString : List Char → List Char → Bool
  | [], [] => false
  | [], _ :: _ => true
  | _ :: _, [] => false
  | a :: as, b :: bs =>
    if a.toNat < b.toNat then true
    else if b.toNat < a.toNat then false
    else lessString as bs

/-- The `less` function of the key sort of the encoder: the members of a
map are written in increasing order of their keys. -/
def keyLess (a b : typeStats) : Bool := lessString a.Name.data b.Name.data

/-- Modelled from the spec: the declaration of `OutputFormat` is not in the
source file; the spec describes `Stats` as a mapping from the name of a
record type to its statistics entry. The encoding of the mapping at nesting
level `depth`: an object with one member for each entry, under the name of
the entry as key, in increasing order of the keys. -/
def encodeStats (pre ind : String) (depth : Nat) (stats : List typeStats) : List Char :=
  encodeList '{' '}' pre ind depth
    ((insertionSortSlice stats keyLess).map
      (fun s => encodeMember s.Name (encodeTypeStats pre ind (depth + 1) s)))

/-- Modelled from the spec: the declaration of `OutputFormat` is not in the
source file, the keys are the field names. The encoding of a report. -/
def encodeOutputFormat (pre ind : String) (info : OutputFormat) : List Char :=
  encodeList '{' '}' pre ind 0
    [encodeMember "Meta" (encodeMetadataInfo pre ind 1 info.Meta),
     encodeMember "Stats" (encodeStats pre ind 1 info.Stats),
     encodeMember "Offset" (encodeInt info.Offset)]

/-- A JSON value as the decoder reads it. Numbers are integers: the report
has no other numeric field. -/
inductive Value where
  | null
  | bool (b : Bool)
  | number (n : Int)
  | string (s : String)
  | array (elems : List Value)
  | object (members : List (String × Value))

/-- JSON white space. -/
def isSpace (c : Char) : Bool := c == ' ' || c == '\t' || c == '\r' || c == '\n'

/-- The text after its leading white space. -/
def skipSpace (cs : List Char) : List Char := cs.dropWhile isSpace

/-- The value of a hexadecimal digit, in either letter case. -/
def hexValue (c : Char) : Option Nat :=
  if 48 ≤ c.toNat ∧ c.toNat ≤ 57 then some (c.toNat - 48)
  else if 97 ≤ c.toNat ∧ c.toNat ≤ 102 then some (c.toNat - 87)
  else if 65 ≤ c.toNat ∧ c.toNat ≤ 70 then some (c.toNat - 55)
  else none

/-- The number written by the four hexadecimal digits that follow `\u`, and
the text after them (`getu4` of the decoder). -/
def getu4 : List Char → Option (Nat × List Char)
  | a :: b :: c :: d :: rest =>
    match hexValue a, hexValue b, hexValue c, hexValue d with
    | some a, some b, some c, some d => some (((a * 16 + b) * 16 + c) * 16 + d, rest)
    | _, _, _, _ => none
  | _ => none

/-- The character that a one-letter escape stands for. -/
def unescape (e : Char) : Option Char :=
  if e = '"' then some '"'
  else if e = '\\' then some '\\'
  else if e = '/' then some '/'
  else if e = 'b' then some (Char.ofNat 8)
  else if e = 'f' then some (Char.ofNat 12)
  else if e = 'n' then some '\n'
  else if e = 'r' then some '\r'
  else if e = 't' then some '\t'
  else none

/-- The low half of a surrogate pair written as a second `\u` escape at the
head of the text: the character of the pair with high half `hi` and the
text after the escape. -/
def lowSurrogate (hi : Nat) (cs : List Char) : Option (Char × List Char) :=
  match cs with
  | b :: u :: cs1 =>
    if b = '\\' ∧ u = 'u' then
      match getu4 cs1 with
      | some (lo, cs2) =>
        if hi < 0xDC00 ∧ 0xDC00 ≤ lo ∧ lo < 0xE000 then
          some (Char.ofNat ((hi - 0xD800) * 0x400 + (lo - 0xDC00) + 0x10000), cs2)
        else none
      | none => none
    else none
  | _ => none

/-- The decoder on the body of a string literal (the text after the
opening quote): the characters of the string and the text after the closing
quote. A control character, an unknown escape or a missing closing quote is
an error. A `\u` escape of a surrogate is read together with the escape of
its other half, and alone it gives the replacement character. -/
def unquote : Nat → List Char → Option (List Char × List Char)
  | 0, _ => none
  | _ + 1, [] => none
  | fuel + 1, c :: cs =>
    if c = '"' then some ([], cs)
    else if c = '\\' then
      match cs with
      | [] => none
      | e :: cs1 =>
        if e = 'u' then
          match getu4 cs1 with
          | none => none
          | some (rr, cs2) =>
            if 0xD800 ≤ rr ∧ rr < 0xE000 then
              match lowSurrogate rr cs2 with
              | some (ch, cs3) => (unquote fuel cs3).map (fun p => (ch :: p.1, p.2))
              | none => (unquote fuel cs2).map (fun p => (Char.ofNat 0xFFFD :: p.1, p.2))
            else (unquote fuel cs2).map (fun p => (Char.ofNat rr :: p.1, p.2))
        else
          match unescape e with
          | none => none
          | some d => (unquote fuel cs1).map (fun p => (d :: p.1, p.2))
    else if c.toNat < 0x20 then none
    else (unquote fuel cs).map (fun p => (c :: p.1, p.2))

/-- The decoder on a number that is to fill an integer field: an optional
minus sign and a run of digits without a superfluous leading zero. A
fraction or an exponent is an error, as it is for `json.Unmarshal` into an
integer. -/
def parseNumber (cs : List Char) : Option (Int × List Char) :=
  let neg := cs.head? = some '-'
  let cs1 := if neg then cs.drop 1 else cs
  let ds := cs1.takeWhile Char.isDigit
  let rest := cs1.dropWhile Char.isDigit
  if ds = [] then none
  else if ds.head? = some '0' ∧ 1 < ds.length then none
  else if rest.head? = some '.' ∨ rest.head? = some 'e' ∨ rest.head? = some 'E' then none
  else some (if neg then -(decValue ds : Int) else (decValue ds : Int), rest)

/-- The elements of an array after its opening bracket, read with `pv` for
a value: values separated by commas up to the closing bracket. -/
def elementsWith (pv : List Char → Option (Value × List Char)) :
    Nat → List Char → Option (List Value × List Char)
  | 0, _ => none
  | fuel + 1, cs =>
    match pv cs with
    | none => none
    | some (v, rest) =>
      match skipSpace rest with
      | [] => none
      | c :: rest1 =>
        if c = ',' then (elementsWith pv fuel rest1).map (fun p => (v :: p.1, p.2))
        else if c = ']' then some ([v], rest1)
        else none

/-- The members of an object after its opening bracket, read with `pv` for
a value: pairs of a string key, a colon and a value, separated by commas up
to the closing bracket. -/
def membersWith (pv : List Char → Option (Value × List Char)) :
    Nat → List Char → Option (List (String × Value) × List Char)
  | 0, _ => none
  | fuel + 1, cs =>
    match skipSpace cs with
    | [] => none
    | q :: cs1 =>
      if q = '"' then
        match unquote cs1.length cs1 with
        | none => none
        | some (key, cs2) =>
          match skipSpace cs2 with
          | [] => none
          | d :: cs3 =>
            if d = ':' then
              match pv cs3 with
              | none => none
              | some (v, rest) =>
                match skipSpace rest with
                | [] => none
                | c :: rest1 =>
                  if c = ',' then
                    (membersWith pv fuel rest1).map (fun p => ((String.mk key, v) :: p.1, p.2))
                  else if c = '}' then some ([(String.mk key, v)], rest1)
                  else none
            else none
      else none

/-- The decoder on a value: leading white space, then an object, an array,
a string, a number or one of the three literals. The first argument bounds
the nesting of arrays and objects. The result is the value and the text
after it. -/
def parseValue : Nat → List Char → Option (Value × List Char)
  | 0, _ => none
  | depth + 1, cs =>
    match skipSpace cs with
    | [] => none
    | c :: cs1 =>
      if c = '{' then
        if (skipSpace cs1).head? = some '}' then some (Value.object [], (skipSpace cs1).drop 1)
        else (membersWith (parseValue depth) cs1.length cs1).map
          (fun p => (Value.object p.1, p.2))
      else if c = '[' then
        if (skipSpace cs1).head? = some ']' then some (Value.array [], (skipSpace cs1).drop 1)
        else (elementsWith (parseValue depth) cs1.length cs1).map
          (fun p => (Value.array p.1, p.2))
      else if c = '"' then
        (unquote cs1.length cs1).map (fun p => (Value.string (String.mk p.1), p.2))
      else if c = '-' ∨ c.isDigit = true then
        (parseNumber (c :: cs1)).map (fun p => (Value.number p.1, p.2))
      else if (c :: cs1).take 4 = "null".data then some (Value.null, (c :: cs1).drop 4)
      else if (c :: cs1).take 4 = "true".data then some (Value.bool true, (c :: cs1).drop 4)
      else if (c :: cs1).take 5 = "false".data then some (Value.bool false, (c :: cs1).drop 5)
      else none

/-- The value of the last member with key `key`, if there is one: of two
members with the same key the decoder keeps the later. -/
def lookup (key : String) (members : List (String × Value)) : Option Value :=
  members.foldl (fun found m => if m.1 = key then some m.2 else found) none

/-- Decoding into an integer field: an absent member and `null` leave the
zero value, a number fills the field, anything else is an error. -/
def decodeInt : Option Value → Option Int
  | none => some 0
  | some Value.null => some 0
  | some (Value.number n) => some n
  | some _ => none

/-- Decoding into a string field: an absent member and `null` leave the
empty string, a string fills the field, anything else is an error. -/
def decodeString : Option Value → Option String
  | none => some ""
  | some Value.null => some ""
  | some (Value.string s) => some s
  | some _ => none

/-- Modelled from the spec: the declaration of `typeStats` is not in the
source file. Decoding into a statistics entry, field by field through the
keys named after the fields. -/
def decodeTypeStats : Value → Option typeStats
  | Value.null => some { Name := "", Sum := 0, Count := 0 }
  | Value.object ms =>
    match decodeString (lookup "Name" ms), decodeInt (lookup "Sum" ms),
      decodeInt (lookup "Count" ms) with
    | some name, some sum, some count => some { Name := name, Sum := sum, Count := count }
    | _, _, _ => none
  | _ => none

/-- Storing an entry in a map under a key: the entry replaces the one that
is stored under the key, or is added to the map. -/
def store (key : String) (s : typeStats) :
    List (String × typeStats) → List (String × typeStats)
  | [] => [(key, s)]
  | kt :: rest => if kt.1 = key then (key, s) :: rest else kt :: store key s rest

/-- Decoding the members of an object into the map `acc`: each value is
decoded into a fresh entry, which is stored under the key of the member. -/
def decodeMembers : List (String × Value) → List (String × typeStats) →
    Option (List (String × typeStats))
  | [], acc => some acc
  | m :: ms, acc =>
    match decodeTypeStats m.2 with
    | some s => decodeMembers ms (store m.1 s acc)
    | none => none

/-- Modelled from the spec: the declaration of `OutputFormat` is not in the
source file; `Stats` is a mapping from names to entries. Decoding into the
mapping: an absent member and `null` leave it without entries, an object
fills it. The result lists the entries of the map. -/
def decodeStats : Option Value → Option (List typeStats)
  | none => some []
  | some Value.null => some []
  | some (Value.object ms) => (decodeMembers ms []).map (fun kts => kts.map Prod.snd)
  | some _ => none

/-- Modelled from the spec: the declaration of `MetadataInfo` is not in the
source file. Decoding into the metadata. -/
def decodeMetadataInfo : Option Value → Option MetadataInfo
  | none => some { ID := "", Size := 0, Index := 0, Term := 0, Version := 0 }
  | some Value.null => some { ID := "", Size := 0, Index := 0, Term := 0, Version := 0 }
  | some (Value.object ms) =>
    match decodeString (lookup "ID" ms), decodeInt (lookup "Size" ms),
      decodeInt (lookup "Index" ms), decodeInt (lookup "Term" ms),
      decodeInt (lookup "Version" ms) with
    | some id, some size, some index, some term, some version =>
      some { ID := id, Size := size, Index := index, Term := term, Version := version }
    | _, _, _, _, _ => none
  | some _ => none

/-- Modelled from the spec: the declaration of `OutputFormat` is not in the
source file. Decoding into a report. -/
def decodeOutputFormat : Value → Option OutputFormat
  | Value.object ms =>
    match decodeMetadataInfo (lookup "Meta" ms), decodeStats (lookup "Stats" ms),
      decodeInt (lookup "Offset" ms) with
    | some m, some ss, some offset => some { Meta := m, Stats := ss, Offset := offset }
    | _, _, _ => none
  | _ => none

/-- The decoder `json.Unmarshal` into a fresh `OutputFormat`: the text is
one JSON value, nested at most 10000 deep, with nothing but white space
after it; `none` is an error. -/
def Unmarshal (data : String) : Option OutputFormat :=
  match parseValue 10000 data.data with
  | none => none
  | some (v, rest) => if skipSpace rest = [] then decodeOutputFormat v else none

end json

/-- The encoder `json.MarshalIndent` at `*OutputFormat`, for a report
without nil pointers: the encoding of the report, indented. Every field of
a report has an encodable type, so the error is nil. -/
def json.MarshalIndent : MarshalIndent :=
  fun info pre ind => Except.ok (String.mk (json.encodeOutputFormat pre ind info))

/-! ## Notions used to state the round trip of the structured output -/

namespace json

/-- Whether a number can end before the text `rest`: the text is empty or
starts with a character that cannot continue a number. -/
def endsNumber (rest : List Char) : Bool :=
  match rest.head? with
  | none => true
  | some c => !(c.isDigit || c == '.' || c == 'e' || c == 'E')

/-- The reader `pv` reads the text `txt` as the value `v`: after any white
space, and before any text that cannot continue a number, it returns `v`
and the text after `txt`. -/
def Reads (pv : List Char → Option (Value × List Char)) (txt : List Char) (v : Value) : Prop :=
  ∀ ws rest : List Char, (∀ c ∈ ws, isSpace c = true) → endsNumber rest = true →
    pv (ws ++ txt ++ rest) = some (v, rest)

/-- The JSON value of a statistics entry. -/
def valueOfTypeStats (s : typeStats) : Value :=
  Value.object [("Name", Value.string s.Name), ("Sum", Value.number s.Sum),
    ("Count", Value.number s.Count)]

/-- The JSON value of the metadata. -/
def valueOfMetadataInfo (m : MetadataInfo) : Value :=
  Value.object [("ID", Value.string m.ID), ("Size", Value.number m.Size),
    ("Index", Value.number m.Index), ("Term", Value.number m.Term),
    ("Version", Value.number m.Version)]

/-- The JSON value of a report. -/
def valueOfOutputFormat (info : OutputFormat) : Value :=
  Value.object [("Meta", valueOfMetadataInfo info.Meta),
    ("Stats", Value.object ((insertionSortSlice info.Stats keyLess).map
      (fun s => (s.Name, valueOfTypeStats s)))),
    ("Offset", Value.number info.Offset)]

end json

/-! ## Decimal numerals -/

theorem digitChar_isDigit (d : Nat) (h : d < 10) : (Nat.digitChar d).isDigit = true := by
  interval_cases d <;> decide

theorem digitChar_eq_zero (d : Nat) (h : d < 10) : Nat.digitChar d = '0' ↔ d = 0 := by
  interval_cases d <;> decide

theorem toDigitsCore_isDigit (fuel : Nat) : ∀ (n : Nat) (ds : List Char),
    (∀ c ∈ ds, c.isDigit = true) →
    ∀ c ∈ Nat.toDigitsCore 10 fuel n ds, c.isDigit = true := by
  induction fuel with
  | zero => intro n ds h; simpa [Nat.toDigitsCore] using h
  | succ f ih =>
    intro n ds h
    have hd : (Nat.digitChar (n % 10)).isDigit = true :=
      digitChar_isDigit _ (Nat.mod_lt _ (by decide))
    simp only [Nat.toDigitsCore]
    split
    · intro c hc
      rcases List.mem_cons.1 hc with rfl | hc
      · exact hd
      · exact h c hc
    · apply ih
      intro c hc
      rcases List.mem_cons.1 hc with rfl | hc
      · exact hd
      · exact h c hc

theorem toDigitsCore_ne_nil (fuel : Nat) : ∀ (n : Nat) (ds : List Char),
    ds ≠ [] → Nat.toDigitsCore 10 fuel n ds ≠ [] := by
  induction fuel with
  | zero => intro n ds h; simpa [Nat.toDigitsCore] using h
  | succ f ih =>
    intro n ds h
    simp only [Nat.toDigitsCore]
    split
    · simp
    · exact ih _ _ (by simp)

theorem repr_data (n : Nat) : (toString n).data = Nat.toDigits 10 n := by
  simp [toString, Nat.repr, List.asString]

theorem repr_isDigit (n : Nat) : ∀ c ∈ (toString n).data, c.isDigit = true := by
  rw [repr_data]
  exact toDigitsCore_isDigit _ _ _ (by simp)

theorem repr_ne_nil (n : Nat) : (toString n).data ≠ [] := by
  rw [repr_data]
  unfold Nat.toDigits
  simp only [Nat.toDigitsCore]
  split
  · simp
  · exact toDigitsCore_ne_nil _ _ _ (by simp)

theorem repr_digit (d : Nat) (h : d < 10) : (toString d).data = [Nat.digitChar d] := by
  interval_cases d <;> decide

theorem TrimSuffix_point (a : String) (d : Nat) (h : d < 10) :
    TrimSuffix (a ++ "." ++ toString d) ".0" =
      if d = 0 then a else a ++ "." ++ toString d := by
  have hd := repr_digit d h
  unfold TrimSuffix HasSuffix
  have e : (a ++ "." ++ toString d).data = a.data ++ ['.', Nat.digitChar d] := by
    simp [String.data_append, hd]
  rw [e]
  by_cases h0 : d = 0
  · subst h0
    have : Nat.digitChar 0 = '0' := by decide
    simp [List.isSuffixOf, List.reverse_append, this]
  · have : Nat.digitChar d ≠ '0' := fun hh => h0 ((digitChar_eq_zero d h).1 hh)
    simp [List.isSuffixOf, List.reverse_append, h0, this]
    intro hh
    exact absurd hh.symm this

theorem ofUint64_den (n : Nat) : (float64.ofUint64 n).den = 1 := by
  unfold float64.ofUint64
  split <;> rfl

theorem FormatFloat_trim (v : float64) :
    TrimSuffix (FormatFloat v) ".0" = numText (roundHalfEven (v.num * 10) v.den) := by
  unfold FormatFloat numText
  simp only []
  rw [TrimSuffix_point _ _ (Nat.mod_lt _ (by decide))]

theorem ByteSize_eq (n : Nat) (hn : n ≠ 0) :
    ByteSize n = numText (tenths n) ++ unitOf n := by
  have hB : BYTE = 1 := by decide
  have h1 : n ≥ BYTE := by rw [hB]; omega
  unfold ByteSize ByteSize.select tenths unitOf unitBytes
  simp only []
  split_ifs <;>
    simp [FormatFloat_trim, float64.div, ofUint64_den]

theorem BYTE_eq : BYTE = 1 := by decide
theorem KILOBYTE_eq : KILOBYTE = 1024 := by decide
theorem MEGABYTE_eq : MEGABYTE = 1024 ^ 2 := by decide
theorem GIGABYTE_eq : GIGABYTE = 1024 ^ 3 := by decide
theorem TERABYTE_eq : TERABYTE = 1024 ^ 4 := by decide

theorem roundHalfEven_mul (k b : Nat) (hb : 0 < b) : roundHalfEven (k * b) b = k := by
  unfold roundHalfEven
  have h1 : k * b / b = k := Nat.mul_div_cancel _ hb
  have h2 : k * b % b = 0 := Nat.mul_mod_left _ _
  simp only [h1, h2]
  rw [if_neg]
  omega

theorem lenAux_le (fuel : Nat) : ∀ n, lenAux fuel n ≤ fuel := by
  induction fuel with
  | zero => intro n; simp [lenAux]
  | succ f ih =>
    intro n
    simp only [lenAux]
    split
    · omega
    · have := ih (n / 2); omega

/-- The conversion to float64 is exact on a multiple of `2 ^ 11`. -/
theorem ofUint64_exact (n : Nat) (h : 2 ^ 11 ∣ n) : (float64.ofUint64 n).num = n := by
  unfold float64.ofUint64
  split
  · rfl
  · simp only []
    have he : Len64 n - 53 ≤ 11 := by
      have := lenAux_le 64 n
      unfold Len64; omega
    have hd : 2 ^ (Len64 n - 53) ∣ n := Dvd.dvd.trans (Nat.pow_dvd_pow 2 he) h
    obtain ⟨m, hm⟩ := hd
    have hpos : 0 < 2 ^ (Len64 n - 53) := Nat.pow_pos (by decide)
    have : roundHalfEven n (2 ^ (Len64 n - 53)) = m := by
      conv => lhs; arg 1; rw [hm, Nat.mul_comm]
      exact roundHalfEven_mul _ _ hpos
    rw [this, Nat.mul_comm]; exact hm.symm

theorem ofUint64_small (n : Nat) (h : n < 2 ^ 53) : (float64.ofUint64 n).num = n := by
  unfold float64.ofUint64
  rw [if_pos h]

theorem numText_whole (k : Nat) : numText (k * 10) = toString k := by
  unfold numText
  simp

/-- The text of a number of tenths ends with a digit. -/
theorem numText_last (t : Nat) :
    ∃ (body : List Char) (d : Char), d.isDigit = true ∧
      (∀ c ∈ body, c.isDigit = true ∨ c = '.') ∧ (numText t).data = body ++ [d] := by
  unfold numText
  split
  · have hne := repr_ne_nil (t / 10)
    have hdig := repr_isDigit (t / 10)
    refine ⟨(toString (t / 10)).data.dropLast, (toString (t / 10)).data.getLast hne,
      hdig _ (List.getLast_mem hne), ?_, (List.dropLast_append_getLast hne).symm⟩
    intro c hc
    exact Or.inl (hdig c (List.mem_of_mem_dropLast hc))
  · refine ⟨(toString (t / 10)).data ++ ['.'], Nat.digitChar (t % 10),
      digitChar_isDigit _ (Nat.mod_lt _ (by decide)), ?_, ?_⟩
    · intro c hc
      rcases List.mem_append.1 hc with h | h
      · exact Or.inl (repr_isDigit _ c h)
      · right; simpa using h
    · simp [String.data_append, repr_digit _ (Nat.mod_lt t (by decide : 0 < 10))]

theorem ByteSize_data (n : Nat) (hn : n ≠ 0) :
    ∃ (body : List Char) (d : Char), d.isDigit = true ∧
      (∀ c ∈ body, c.isDigit = true ∨ c = '.') ∧
      (ByteSize n).data = body ++ d :: (unitOf n).data := by
  obtain ⟨body, d, hd, hb, e⟩ := numText_last (tenths n)
  refine ⟨body, d, hd, hb, ?_⟩
  rw [ByteSize_eq n hn, String.data_append, e]
  simp

theorem isDigit_ne (d x : Char) (hd : d.isDigit = true) (hx : x.isDigit = false) : d ≠ x := by
  intro h; subst h; rw [hd] at hx; exact Bool.noConfusion hx

/-- Whether a text that ends with `x` then `B` has the two-letter suffix `yB`. -/
theorem HasSuffix_two (s : String) (pre : List Char) (x y : Char)
    (h : s.data = pre ++ [x, 'B']) :
    HasSuffix s (String.mk [y, 'B']) = decide (y = x) := by
  unfold HasSuffix
  rw [h]
  simp [List.isSuffixOf, List.reverse_append, List.isPrefixOf]
  by_cases hyx : y = x <;> simp [hyx]

theorem HasSuffix_B (s : String) (pre : List Char) (h : s.data = pre ++ ['B']) :
    HasSuffix s "B" = true := by
  unfold HasSuffix
  rw [h]
  simp [List.isSuffixOf, List.reverse_append, List.isPrefixOf]

theorem bare_iff (s : String) (body : List Char) (x : Char)
    (h : s.data = body ++ [x, 'B']) :
    (∃ (pre : List Char) (d : Char), d.isDigit = true ∧ s.data = pre ++ [d, 'B']) ↔
      x.isDigit = true := by
  constructor
  · rintro ⟨pre, d, hd, e⟩
    rw [h] at e
    have := List.append_inj_right' e (by simp)
    simp at this
    rw [this]; exact hd
  · intro hx
    exact ⟨body, x, hx, h⟩

theorem suffix_facts (s : String) (pre : List Char) (x : Char)
    (h : s.data = pre ++ [x, 'B']) :
    (HasSuffix s "TB" = true ↔ x = 'T') ∧ (HasSuffix s "GB" = true ↔ x = 'G') ∧
    (HasSuffix s "MB" = true ↔ x = 'M') ∧ (HasSuffix s "KB" = true ↔ x = 'K') ∧
    ((∃ (pre : List Char) (d : Char), d.isDigit = true ∧ s.data = pre ++ [d, 'B']) ↔
      x.isDigit = true) := by
  have key := fun y => HasSuffix_two s pre x y h
  have hT : HasSuffix s "TB" = decide ('T' = x) := key 'T'
  have hG : HasSuffix s "GB" = decide ('G' = x) := key 'G'
  have hM : HasSuffix s "MB" = decide ('M' = x) := key 'M'
  have hK : HasSuffix s "KB" = decide ('K' = x) := key 'K'
  rw [hT, hG, hM, hK]
  refine ⟨?_, ?_, ?_, ?_, bare_iff s pre x h⟩ <;> simp [eq_comm]

/-- The last letter before the final `B` of `ByteSize n`, for `n > 0`: the
unit letter of the band of `n`, or a digit in the bytes band. -/
theorem ByteSize_band (n : Nat) (h0 : n ≠ 0) :
    ∃ (pre : List Char) (x : Char), (ByteSize n).data = pre ++ [x, 'B'] ∧
      ((x = 'T' ∧ 1024 ^ 4 ≤ n) ∨ (x = 'G' ∧ 1024 ^ 3 ≤ n ∧ n < 1024 ^ 4) ∨
       (x = 'M' ∧ 1024 ^ 2 ≤ n ∧ n < 1024 ^ 3) ∨ (x = 'K' ∧ 1024 ≤ n ∧ n < 1024 ^ 2) ∨
       (x.isDigit = true ∧ 1 ≤ n ∧ n < 1024)) := by
  obtain ⟨body, d, hd, -, e⟩ := ByteSize_data n h0
  have hpos : 1 ≤ n := Nat.pos_of_ne_zero h0
  unfold unitOf at e
  rw [TERABYTE_eq, GIGABYTE_eq, MEGABYTE_eq, KILOBYTE_eq, BYTE_eq] at e
  split_ifs at e with h4 h3 h2 h1
  · exact ⟨body ++ [d], 'T', by simp [e], Or.inl ⟨rfl, h4⟩⟩
  · exact ⟨body ++ [d], 'G', by simp [e], Or.inr (Or.inl ⟨rfl, h3, by omega⟩)⟩
  · exact ⟨body ++ [d], 'M', by simp [e], Or.inr (Or.inr (Or.inl ⟨rfl, h2, by omega⟩))⟩
  · exact ⟨body ++ [d], 'K', by simp [e],
      Or.inr (Or.inr (Or.inr (Or.inl ⟨rfl, h1, by omega⟩)))⟩
  · exact ⟨body, d, by simp [e], Or.inr (Or.inr (Or.inr (Or.inr ⟨hd, hpos, by omega⟩)))⟩

/-- Claim C5. `ByteSize` selects the largest binary unit whose threshold the
count reaches: for every unsigned 64-bit `n` the result ends with "TB" iff
`n >= 1024^4`, with "GB" iff `1024^3 <= n < 1024^4`, with "MB" iff
`1024^2 <= n < 1024^3`, with "KB" iff `1024 <= n < 1024^2`, and with a "B"
preceded by a digit iff `1 <= n < 1024`; the values one below a threshold
stay in the lower unit. -/
theorem ByteSize_unit_bands (n : Nat) (hn : n < 2 ^ 64) :
    (HasSuffix (ByteSize n) "TB" = true ↔ 1024 ^ 4 ≤ n) ∧
    (HasSuffix (ByteSize n) "GB" = true ↔ 1024 ^ 3 ≤ n ∧ n < 1024 ^ 4) ∧
    (HasSuffix (ByteSize n) "MB" = true ↔ 1024 ^ 2 ≤ n ∧ n < 1024 ^ 3) ∧
    (HasSuffix (ByteSize n) "KB" = true ↔ 1024 ≤ n ∧ n < 1024 ^ 2) ∧
    ((∃ (pre : List Char) (d : Char), d.isDigit = true ∧
        (ByteSize n).data = pre ++ [d, 'B']) ↔ 1 ≤ n ∧ n < 1024) ∧
    ByteSize 1023 = "1023B" ∧ ByteSize 1048575 = "1024KB" ∧
    ByteSize 1073741823 = "1024MB" ∧ ByteSize 1099511627775 = "1024GB" := by
  have main : (HasSuffix (ByteSize n) "TB" = true ↔ 1024 ^ 4 ≤ n) ∧
      (HasSuffix (ByteSize n) "GB" = true ↔ 1024 ^ 3 ≤ n ∧ n < 1024 ^ 4) ∧
      (HasSuffix (ByteSize n) "MB" = true ↔ 1024 ^ 2 ≤ n ∧ n < 1024 ^ 3) ∧
      (HasSuffix (ByteSize n) "KB" = true ↔ 1024 ≤ n ∧ n < 1024 ^ 2) ∧
      ((∃ (pre : List Char) (d : Char), d.isDigit = true ∧
          (ByteSize n).data = pre ++ [d, 'B']) ↔ 1 ≤ n ∧ n < 1024) := by
    by_cases h0 : n = 0
    · subst h0
      refine ⟨?_, ?_, ?_, ?_, ?_⟩
      · constructor
        · intro h; revert h; decide
        · intro h; omega
      · constructor
        · intro h; revert h; decide
        · intro h; omega
      · constructor
        · intro h; revert h; decide
        · intro h; omega
      · constructor
        · intro h; revert h; decide
        · intro h; omega
      · constructor
        · rintro ⟨pre, d, hd, e⟩
          have e2 : [('0' : Char)] = pre ++ [d, 'B'] := e
          have := congrArg List.length e2
          simp at this
        · intro h; omega
    · obtain ⟨pre, x, e, hx⟩ := ByteSize_band n h0
      obtain ⟨fT, fG, fM, fK, fB⟩ := suffix_facts _ pre x e
      rw [fT, fG, fM, fK, fB]
      rcases hx with ⟨rfl, h⟩ | ⟨rfl, h⟩ | ⟨rfl, h⟩ | ⟨rfl, h⟩ | ⟨hd, h⟩
      · simp; omega
      · simp; omega
      · simp; omega
      · simp; omega
      · have hT := isDigit_ne x 'T' hd (by decide)
        have hG := isDigit_ne x 'G' hd (by decide)
        have hM := isDigit_ne x 'M' hd (by decide)
        have hK := isDigit_ne x 'K' hd (by decide)
        simp [hT, hG, hM, hK, hd]; omega
  obtain ⟨a, b, c, d, e⟩ := main
  exact ⟨a, b, c, d, e, by decide, by decide, by decide, by decide⟩

/-! ## The format selector -/

/-- Claim C1. For every string `f`, `NewFormatter(f)` returns a non-nil
formatter and a nil error if and only if `f` is in the list returned by
`GetSupportedFormats()`; for every other `f` it returns a nil formatter and
a non-nil error. -/
theorem NewFormatter_succeeds_iff_supported (f : String) :
    (((NewFormatter f).1 ≠ none ∧ (NewFormatter f).2 = none) ↔
      f ∈ GetSupportedFormats) ∧
    (f ∉ GetSupportedFormats →
      (NewFormatter f).1 = none ∧ (NewFormatter f).2 ≠ none) := by
  have hne : JSONFormat ≠ PrettyFormat := by decide
  unfold NewFormatter GetSupportedFormats
  by_cases h1 : f = PrettyFormat
  · simp [h1]
  · by_cases h2 : f = JSONFormat
    · simp [h2, hne]
    · simp [h1, h2]

theorem NewFormatter_succeeds_iff_supported_witness :
    "xml" ∉ GetSupportedFormats ∧
      ((NewFormatter "xml").1 = none ∧ (NewFormatter "xml").2 ≠ none) :=
  ⟨by decide, (NewFormatter_succeeds_iff_supported "xml").2 (by decide)⟩

/-- Claim C2. For every string `f` that is not a supported identifier, the
error returned by `NewFormatter(f)` has the message "Unknown format: "
followed by `f`, so the message contains `f` verbatim. -/
theorem NewFormatter_error_names_format (f : String) (h : f ∉ GetSupportedFormats) :
    (NewFormatter f).2 = some ("Unknown format: " ++ f) ∧
    (∃ pre post : String, (NewFormatter f).2 = some (pre ++ f ++ post)) := by
  have e : (NewFormatter f).2 = some ("Unknown format: " ++ f) := by
    unfold NewFormatter
    unfold GetSupportedFormats at h
    have h1 : f ≠ PrettyFormat := fun hh => h (by simp [hh])
    have h2 : f ≠ JSONFormat := fun hh => h (by simp [hh])
    simp [h1, h2]
  refine ⟨e, "Unknown format: ", "", ?_⟩
  rw [e]
  simp

theorem NewFormatter_error_names_format_witness :
    "xml" ∉ GetSupportedFormats ∧
      (NewFormatter "xml").2 = some "Unknown format: xml" :=
  ⟨by decide, (NewFormatter_error_names_format "xml" (by decide)).1⟩

/-- Claim C3. `GetSupportedFormats()` returns exactly two identifiers with no
duplicates, in the fixed order tabular first then structured:
`["pretty", "json"]`. -/
theorem GetSupportedFormats_eq :
    GetSupportedFormats = ["pretty", "json"] ∧
    GetSupportedFormats.length = 2 ∧ GetSupportedFormats.Nodup := by
  refine ⟨rfl, rfl, ?_⟩
  decide

/-- Claim C4. `NewFormatter` returns the renderer bound to the identifier it
was given: for every report, the formatter returned for "pretty" produces
the output of the tabular renderer and the formatter returned for "json"
produces the output of the JSON renderer; the two formatters are
different. -/
theorem NewFormatter_binds_renderer (sortSlice : SortSlice)
    (marshalIndent : MarshalIndent) (r : OutputFormat) :
    ∃ fp fj : Formatter,
      NewFormatter "pretty" = (some fp, none) ∧
      NewFormatter "json" = (some fj, none) ∧
      fp.Format sortSlice marshalIndent r = prettyFormatter.Format sortSlice r ∧
      fj.Format sortSlice marshalIndent r = jsonFormatter.Format marshalIndent r ∧
      fp ≠ fj :=
  ⟨Formatter.prettyFormatter, Formatter.jsonFormatter, by decide, by decide, rfl, rfl,
    by decide⟩

/-! ## Byte sizes: the claims -/

theorem unitOf_mem (n : Nat) (h0 : n ≠ 0) : unitOf n ∈ ["B", "KB", "MB", "GB", "TB"] := by
  have hpos : n ≥ BYTE := by rw [BYTE_eq]; exact Nat.pos_of_ne_zero h0
  unfold unitOf
  split_ifs <;> simp

/-- Claim C6. `ByteSize(0)` is the literal string "0" with no unit suffix, and
0 is the only input with no suffix: for every `n > 0` the result is a
number text followed by one of the suffixes "B", "KB", "MB", "GB", "TB". -/
theorem ByteSize_zero_only_without_suffix :
    ByteSize 0 = "0" ∧
    ∀ n : Nat, n < 2 ^ 64 → 0 < n →
      HasSuffix (ByteSize n) "B" = true ∧
      ∃ num u : String, ByteSize n = num ++ u ∧ u ∈ ["B", "KB", "MB", "GB", "TB"] ∧
        num.data ≠ [] ∧ ∀ c ∈ num.data, c.isDigit = true ∨ c = '.' := by
  refine ⟨by decide, ?_⟩
  intro n _ hpos
  have h0 : n ≠ 0 := Nat.pos_iff_ne_zero.1 hpos
  constructor
  · obtain ⟨pre, x, e, -⟩ := ByteSize_band n h0
    exact HasSuffix_B _ (pre ++ [x]) (by simp [e])
  · obtain ⟨body, d, hd, hb, e⟩ := numText_last (tenths n)
    refine ⟨numText (tenths n), unitOf n, ByteSize_eq n h0, unitOf_mem n h0, ?_, ?_⟩
    · rw [e]; simp
    · rw [e]
      intro c hc
      rcases List.mem_append.1 hc with h | h
      · exact hb c h
      · left
        have : c = d := by simpa using h
        rw [this]; exact hd

theorem ByteSize_zero_only_without_suffix_witness :
    (512 : Nat) < 2 ^ 64 ∧ 0 < 512 ∧ HasSuffix (ByteSize 512) "B" = true :=
  ⟨by decide, by decide,
    (ByteSize_zero_only_without_suffix.2 512 (by decide) (by decide)).1⟩

/-- Claim C7. In the bytes band the count is printed as a plain number: for
every `n` with `1 <= n <= 1023`, `ByteSize(n)` is the decimal representation
of `n` followed by "B", with no decimal point. -/
theorem ByteSize_bytes_band (n : Nat) (h1 : 1 ≤ n) (h2 : n ≤ 1023) :
    ByteSize n = toString n ++ "B" ∧ '.' ∉ (ByteSize n).data := by
  have h0 : n ≠ 0 := by omega
  have hu : unitOf n = "B" := by
    unfold unitOf
    rw [TERABYTE_eq, GIGABYTE_eq, MEGABYTE_eq, KILOBYTE_eq, BYTE_eq]
    rw [if_neg (by omega), if_neg (by omega), if_neg (by omega), if_neg (by omega),
      if_pos (by omega)]
  have hb : unitBytes n = 1 := by
    unfold unitBytes
    rw [TERABYTE_eq, GIGABYTE_eq, MEGABYTE_eq, KILOBYTE_eq]
    rw [if_neg (by omega), if_neg (by omega), if_neg (by omega), if_neg (by omega)]
  have ht : tenths n = n * 10 := by
    unfold tenths
    rw [hb, ofUint64_small n (by omega)]
    have := roundHalfEven_mul (n * 10) 1 (by decide)
    simpa using this
  have e : ByteSize n = toString n ++ "B" := by
    rw [ByteSize_eq n h0, hu, ht, numText_whole]
  refine ⟨e, ?_⟩
  rw [e, String.data_append]
  intro hc
  rcases List.mem_append.1 hc with h | h
  · have := repr_isDigit n _ h
    revert this; decide
  · revert h; decide

theorem ByteSize_bytes_band_witness :
    1 ≤ 512 ∧ 512 ≤ 1023 ∧ ByteSize 512 = toString 512 ++ "B" ∧
      ByteSize 1023 = "1023B" :=
  ⟨by decide, by decide, (ByteSize_bytes_band 512 (by decide) (by decide)).1,
    (ByteSize_bytes_band 1023 (by decide) (by decide)).1⟩

/-- A whole multiple `k * U` of a unit whose band it lies in, converted to
float64 without rounding, is printed as `k` and the suffix. -/
theorem ByteSize_multiple (k U : Nat) (u : String) (hk : 1 ≤ k) (hU : 0 < U)
    (hu : unitOf (k * U) = u) (hb : unitBytes (k * U) = U)
    (hx : (float64.ofUint64 (k * U)).num = k * U) :
    ByteSize (k * U) = toString k ++ u := by
  have h0 : k * U ≠ 0 := Nat.mul_ne_zero (by omega) (by omega)
  have ht : tenths (k * U) = k * 10 := by
    unfold tenths
    rw [hb, hx]
    have : k * U * 10 = k * 10 * U := by ring
    rw [this]
    exact roundHalfEven_mul _ _ hU
  rw [ByteSize_eq _ h0, hu, ht, numText_whole]

/-- Claim C8. A whole multiple of a unit is printed without a decimal part:
for every `k >= 1`, if `k < 1024` then `ByteSize` of `k` times 1024,
`1024^2`, `1024^3` is the decimal representation of `k` followed by "KB",
"MB", "GB", and if `k * 1024^4 < 2^64` then `ByteSize(k * 1024^4)` is the
decimal representation of `k` followed by "TB". -/
theorem ByteSize_whole_multiple (k : Nat) (hk : 1 ≤ k) :
    (k < 1024 →
      ByteSize (k * 1024) = toString k ++ "KB" ∧
      ByteSize (k * 1024 ^ 2) = toString k ++ "MB" ∧
      ByteSize (k * 1024 ^ 3) = toString k ++ "GB") ∧
    (k * 1024 ^ 4 < 2 ^ 64 → ByteSize (k * 1024 ^ 4) = toString k ++ "TB") := by
  constructor
  · intro hlt
    refine ⟨?_, ?_, ?_⟩
    · apply ByteSize_multiple k 1024 "KB" hk (by decide)
      · unfold unitOf
        rw [TERABYTE_eq, GIGABYTE_eq, MEGABYTE_eq, KILOBYTE_eq]
        rw [if_neg (by omega), if_neg (by omega), if_neg (by omega), if_pos (by omega)]
      · unfold unitBytes
        rw [TERABYTE_eq, GIGABYTE_eq, MEGABYTE_eq, KILOBYTE_eq]
        rw [if_neg (by omega), if_neg (by omega), if_neg (by omega), if_pos (by omega)]
      · exact ofUint64_small _ (by omega)
    · apply ByteSize_multiple k (1024 ^ 2) "MB" hk (by decide)
      · unfold unitOf
        rw [TERABYTE_eq, GIGABYTE_eq, MEGABYTE_eq]
        rw [if_neg (by omega), if_neg (by omega), if_pos (by omega)]
      · unfold unitBytes
        rw [TERABYTE_eq, GIGABYTE_eq, MEGABYTE_eq]
        rw [if_neg (by omega), if_neg (by omega), if_pos (by omega)]
      · exact ofUint64_small _ (by omega)
    · apply ByteSize_multiple k (1024 ^ 3) "GB" hk (by decide)
      · unfold unitOf
        rw [TERABYTE_eq, GIGABYTE_eq]
        rw [if_neg (by omega), if_pos (by omega)]
      · unfold unitBytes
        rw [TERABYTE_eq, GIGABYTE_eq]
        rw [if_neg (by omega), if_pos (by omega)]
      · exact ofUint64_small _ (by omega)
  · intro _
    apply ByteSize_multiple k (1024 ^ 4) "TB" hk (by decide)
    · unfold unitOf
      rw [TERABYTE_eq, if_pos (by omega)]
    · unfold unitBytes
      rw [TERABYTE_eq, if_pos (by omega)]
    · apply ofUint64_exact
      exact Dvd.dvd.mul_left (by decide) k

theorem ByteSize_whole_multiple_witness :
    1 ≤ 1 ∧ 1 < 1024 ∧ ByteSize 1024 = "1KB" ∧ ByteSize 1048576 = "1MB" ∧
      ByteSize 1073741824 = "1GB" ∧ ByteSize 1099511627776 = "1TB" :=
  ⟨by decide, by decide,
    ((ByteSize_whole_multiple 1 (by decide)).1 (by decide)).1,
    ((ByteSize_whole_multiple 1 (by decide)).1 (by decide)).2.1,
    ((ByteSize_whole_multiple 1 (by decide)).1 (by decide)).2.2,
    (ByteSize_whole_multiple 1 (by decide)).2 (by decide)⟩

/-- Claim C9. A humanized size has at most one decimal digit and never a
trailing ".0": for every unsigned 64-bit `n`, `ByteSize(n)` is one or more
decimal digits, then optionally a point followed by exactly one digit in
1..9, then the unit suffix, which is empty only for `n = 0`. -/
theorem ByteSize_shape (n : Nat) (hn : n < 2 ^ 64) :
    ∃ ip frac u : String,
      ByteSize n = ip ++ frac ++ u ∧
      ip.data ≠ [] ∧ (∀ c ∈ ip.data, c.isDigit = true) ∧
      (frac = "" ∨ ∃ d : Char, d.isDigit = true ∧ d ≠ '0' ∧ frac = String.mk ['.', d]) ∧
      u ∈ ["", "B", "KB", "MB", "GB", "TB"] ∧ (u = "" ↔ n = 0) := by
  by_cases h0 : n = 0
  · subst h0
    exact ⟨"0", "", "", by decide, by decide, by decide, Or.inl rfl, by decide, by decide⟩
  · have hu := unitOf_mem n h0
    have hu1 : unitOf n ∈ ["", "B", "KB", "MB", "GB", "TB"] := List.mem_cons_of_mem _ hu
    have hu2 : unitOf n ≠ "" := by
      intro h; rw [h] at hu; revert hu; decide
    by_cases ht : tenths n % 10 = 0
    · refine ⟨toString (tenths n / 10), "", unitOf n, ?_, repr_ne_nil _, repr_isDigit _,
        Or.inl rfl, hu1, ?_⟩
      · rw [ByteSize_eq n h0]; unfold numText; rw [if_pos ht]; simp
      · simp [hu2, h0]
    · have hlt : tenths n % 10 < 10 := Nat.mod_lt _ (by decide)
      refine ⟨toString (tenths n / 10), String.mk ['.', Nat.digitChar (tenths n % 10)],
        unitOf n, ?_, repr_ne_nil _, repr_isDigit _, Or.inr ⟨_, digitChar_isDigit _ hlt,
          fun h => ht ((digitChar_eq_zero _ hlt).1 h), rfl⟩, hu1, ?_⟩
      · rw [ByteSize_eq n h0]; unfold numText; rw [if_neg ht]
        apply String.ext
        simp [String.data_append, repr_digit _ hlt]
      · simp [hu2, h0]

theorem ByteSize_shape_witness :
    (1536 : Nat) < 2 ^ 64 ∧ ByteSize 1536 = "1.5KB" ∧
      ∃ ip frac u : String,
        ByteSize 1536 = ip ++ frac ++ u ∧
        ip.data ≠ [] ∧ (∀ c ∈ ip.data, c.isDigit = true) ∧
        (frac = "" ∨ ∃ d : Char, d.isDigit = true ∧ d ≠ '0' ∧ frac = String.mk ['.', d]) ∧
        u ∈ ["", "B", "KB", "MB", "GB", "TB"] ∧ (u = "" ↔ 1536 = 0) :=
  ⟨by decide, by decide, ByteSize_shape 1536 (by decide)⟩

theorem ByteSize_unit_bands_witness :
    (1536 : Nat) < 2 ^ 64 ∧
      (HasSuffix (ByteSize 1536) "KB" = true ↔ 1024 ≤ 1536 ∧ 1536 < 1024 ^ 2) ∧
      (HasSuffix (ByteSize 1536) "MB" = true ↔ 1024 ^ 2 ≤ 1536 ∧ 1536 < 1024 ^ 3) :=
  ⟨by decide, (ByteSize_unit_bands 1536 (by decide)).2.2.2.1,
    (ByteSize_unit_bands 1536 (by decide)).2.2.1⟩

/-! ## The tabwriter: writing -/

namespace tabwriter

/-- Writing a sequence of characters, one `writeByte` each. -/
theorem Write_data (b : Writer) (s : String) : b.Write s = s.data.foldl Writer.writeByte b :=
  rfl

theorem writeByte_plain (b : Writer) (ch : Char) (h : isTerminator ch = false) :
    b.writeByte ch = { b with cell := b.cell ++ [ch] } := by
  unfold Writer.writeByte
  unfold isTerminator at h
  rw [if_neg (by simpa using h)]

theorem foldl_writeByte_plain (cs : List Char) :
    ∀ b : Writer, (∀ ch ∈ cs, isTerminator ch = false) →
      cs.foldl Writer.writeByte b = { b with cell := b.cell ++ cs } := by
  induction cs with
  | nil => intro b _; simp
  | cons c cs ih =>
    intro b h
    rw [List.foldl_cons, writeByte_plain b c (h c (List.mem_cons_self _ _)), ih]
    · simp
    · intro ch hch
      exact h ch (List.mem_cons_of_mem _ hch)

theorem writeByte_tab (b : Writer) :
    b.writeByte '\t' = { b with line := b.line ++ [b.cell], cell := [] } := by
  unfold Writer.writeByte Writer.terminateCell
  simp

/-- A newline after a line that has two or more cells with the current one
ends the line without flushing. -/
theorem writeByte_newline (b : Writer) (h : b.line.length + 1 ≠ 1) :
    b.writeByte '\n' =
      { b with lines := b.lines ++ [b.line ++ [b.cell]], line := [], cell := [] } := by
  unfold Writer.writeByte Writer.terminateCell Writer.addLine
  simp
  intro h2
  rw [h2] at h
  simp at h

theorem flushNoDefers_atLineStart (b : Writer) : b.flushNoDefers.atLineStart := by
  unfold Writer.flushNoDefers Writer.atLineStart
  simp

theorem writeByte_newline_atLineStart (b : Writer) : (b.writeByte '\n').atLineStart := by
  unfold Writer.writeByte
  simp only [true_or, or_true, if_true]
  split
  · exact flushNoDefers_atLineStart _
  · simp [Writer.atLineStart, Writer.addLine, Writer.terminateCell]

theorem flushNoDefers_params (b : Writer) : b.flushNoDefers.params = b.params := by
  unfold Writer.flushNoDefers Writer.params Writer.terminateCell
  split <;> rfl

theorem writeByte_params (b : Writer) (ch : Char) : (b.writeByte ch).params = b.params := by
  unfold Writer.writeByte
  split
  · simp only []
    split
    · split
      · rw [flushNoDefers_params]; rfl
      · rfl
    · rfl
  · rfl

theorem foldl_writeByte_params (cs : List Char) :
    ∀ b : Writer, (cs.foldl Writer.writeByte b).params = b.params := by
  induction cs with
  | nil => intro b; rfl
  | cons c cs ih => intro b; rw [List.foldl_cons, ih, writeByte_params]

end tabwriter

/-! ## The tabwriter: formatting -/

namespace tabwriter

theorem blocks_cons {α : Type} (p : α → Bool) (x : α) (xs : List α) :
    blocks p (x :: xs) =
      match blocks p xs with
      | [] => [(p x, [x])]
      | (b, seg) :: rest =>
        if b = p x then (b, x :: seg) :: rest else (p x, [x]) :: (b, seg) :: rest :=
  rfl

theorem joinLines_cons_cons (a b : List Char) (r : List (List Char)) :
    joinLines (a :: b :: r) = a ++ '\n' :: joinLines (b :: r) :=
  rfl

theorem blocks_all {α : Type} (p : α → Bool) (b : Bool) :
    ∀ l : List α, l ≠ [] → (∀ x ∈ l, p x = b) → blocks p l = [(b, l)] := by
  intro l
  induction l with
  | nil => intro h; exact absurd rfl h
  | cons x xs ih =>
    intro _ h
    have hx : p x = b := h x (List.mem_cons_self _ _)
    cases xs with
    | nil => simp [blocks, hx]
    | cons y ys =>
      have := ih (by simp) (fun z hz => h z (List.mem_cons_of_mem _ hz))
      simp only [blocks] at this ⊢
      rw [this]
      simp [hx]

theorem blocks_append_singleton {α : Type} (p : α → Bool) (t : α) (ht : p t = false) :
    ∀ l : List α, l ≠ [] → (∀ x ∈ l, p x = true) →
      blocks p (l ++ [t]) = [(true, l), (false, [t])] := by
  intro l
  induction l with
  | nil => intro h; exact absurd rfl h
  | cons x xs ih =>
    intro _ h
    have hx : p x = true := h x (List.mem_cons_self _ _)
    cases xs with
    | nil => simp [blocks, hx, ht]
    | cons y ys =>
      have := ih (by simp) (fun z hz => h z (List.mem_cons_of_mem _ hz))
      simp only [List.cons_append, blocks] at this ⊢
      rw [this]
      simp [hx]

theorem blocks_flatten {α : Type} (p : α → Bool) :
    ∀ l : List α, ((blocks p l).map Prod.snd).flatten = l := by
  intro l
  induction l with
  | nil => simp [blocks]
  | cons x xs ih =>
    simp only [blocks]
    split
    · rename_i h
      rw [h] at ih
      simp at ih
      simp [← ih]
    · rename_i b seg rest h
      rw [h] at ih
      split
      · simp at ih ⊢
        exact ih
      · simp at ih ⊢
        exact ih

/-- A last element on which `p` is false ends the last block, a block of
elements on which `p` is false. -/
theorem blocks_concat_false {α : Type} (p : α → Bool) (t : α) (ht : p t = false) :
    ∀ l : List α, ∃ (bs : List (Bool × List α)) (seg : List α),
      blocks p (l ++ [t]) = bs ++ [(false, seg ++ [t])] := by
  intro l
  induction l with
  | nil => exact ⟨[], [], by simp [blocks, ht]⟩
  | cons x xs ih =>
    obtain ⟨bs, seg, e⟩ := ih
    rw [List.cons_append, blocks_cons, e]
    cases bs with
    | nil =>
      simp only [List.nil_append]
      by_cases hx : false = p x
      · exact ⟨[], x :: seg, by simp [hx]⟩
      · exact ⟨[(p x, [x])], seg, by simp [hx]⟩
    | cons b0 bs' =>
      obtain ⟨b, s⟩ := b0
      simp only [List.cons_append]
      by_cases hx : b = p x
      · exact ⟨(b, x :: s) :: bs', seg, by simp [hx]⟩
      · exact ⟨(p x, [x]) :: (b, s) :: bs', seg, by simp [hx]⟩

theorem length_flatten_map {α β : Type} (f : Bool × List α → List β) :
    ∀ bs : List (Bool × List α), (∀ seg ∈ bs, (f seg).length = seg.2.length) →
      ((bs.map f).flatten).length = ((bs.map Prod.snd).flatten).length := by
  intro bs
  induction bs with
  | nil => intro _; rfl
  | cons b bs ih =>
    intro h
    simp only [List.map_cons, List.flatten_cons, List.length_append]
    rw [ih (fun seg hs => h seg (List.mem_cons_of_mem _ hs)), h b (List.mem_cons_self _ _)]

/-- One written line for each buffered line. -/
theorem formatLines_length (minwidth padding : Nat) (padchar : Char) (fuel : Nat) :
    ∀ (widths : List Nat) (lines : List Line),
      (formatLines minwidth padding padchar fuel widths lines).length = lines.length := by
  induction fuel with
  | zero => intro widths lines; simp [formatLines]
  | succ f ih =>
    intro widths lines
    simp only [formatLines]
    rw [length_flatten_map, blocks_flatten]
    intro seg _
    split
    · exact ih _ _
    · simp

/-- A last buffered line without cells is written as an empty line. -/
theorem formatLines_concat_nil (minwidth padding : Nat) (padchar : Char) (fuel : Nat)
    (widths : List Nat) (lines : List Line) :
    ∃ ys : List (List Char),
      formatLines minwidth padding padchar fuel widths (lines ++ [[]]) = ys ++ [[]] := by
  cases fuel with
  | zero => exact ⟨lines.map (writeCells padchar widths), by simp [formatLines, writeCells]⟩
  | succ f =>
    simp only [formatLines]
    obtain ⟨bs, seg, e⟩ := blocks_concat_false
      (fun line : Line => decide (widths.length + 1 < line.length)) [] (by simp) lines
    rw [e]
    refine ⟨(bs.map (fun seg : Bool × List Line =>
        if seg.1 then
          formatLines minwidth padding padchar f
            (widths ++ [columnWidth minwidth padding widths.length seg.2]) seg.2
        else seg.2.map (writeCells padchar widths))).flatten ++
      seg.map (writeCells padchar widths), ?_⟩
    simp only [List.map_append, List.flatten_append, List.map_cons, List.map_nil,
      List.flatten_cons, List.flatten_nil, List.append_nil]
    simp only [Bool.false_eq_true, if_false, List.map_append, List.map_cons, List.map_nil,
      writeCells, ← List.append_assoc]

theorem joinLines_concat_nil :
    ∀ ys : List (List Char), ys ≠ [] → joinLines (ys ++ [[]]) = joinLines ys ++ ['\n'] := by
  intro ys
  induction ys with
  | nil => intro h; exact absurd rfl h
  | cons a ys ih =>
    intro _
    cases ys with
    | nil => simp [joinLines]
    | cons b r =>
      have := ih (by simp)
      rw [List.cons_append] at this
      rw [List.cons_append, List.cons_append, joinLines_cons_cons, this, joinLines_cons_cons]
      simp

end tabwriter

namespace tabwriter

/-- Flushing at the start of a line, with lines buffered: the text written
ends with a newline, and the writer is reset. -/
theorem flushNoDefers_atLineStart_eq (b : Writer) (h : b.atLineStart) (hl : b.lines ≠ []) :
    ∃ X : List Char, b.flushNoDefers =
      { b with output := X ++ ['\n'], lines := [], line := [], cell := [] } := by
  obtain ⟨h1, h2⟩ := h
  obtain ⟨ys, e⟩ := formatLines_concat_nil b.minwidth b.padding b.padchar
    (maxCells (b.lines ++ [[]])) [] b.lines
  have hlen := formatLines_length b.minwidth b.padding b.padchar
    (maxCells (b.lines ++ [[]])) [] (b.lines ++ [[]])
  rw [e] at hlen
  have hys : ys ≠ [] := by
    intro h0
    rw [h0] at hlen
    simp at hlen
    exact hl hlen
  refine ⟨b.output ++ joinLines ys, ?_⟩
  unfold Writer.flushNoDefers Writer.format
  simp only [h2, List.length_nil, gt_iff_lt, Nat.lt_irrefl, if_false, h1]
  rw [e, joinLines_concat_nil ys hys]
  simp

/-- A newline at the start of a line (a blank line) flushes the writer. -/
theorem writeByte_newline_blank (b : Writer) (h : b.atLineStart) :
    ∃ X : List Char, b.writeByte '\n' =
      { b with output := X ++ ['\n'], lines := [], line := [], cell := [] } := by
  obtain ⟨h1, h2⟩ := h
  have hb : b.writeByte '\n' =
      Writer.flushNoDefers { b with lines := b.lines ++ [[[]]], line := [], cell := [] } := by
    unfold Writer.writeByte Writer.terminateCell Writer.addLine
    simp [h1, h2]
  obtain ⟨X, e⟩ := flushNoDefers_atLineStart_eq
    { b with lines := b.lines ++ [[[]]], line := [], cell := [] } ⟨rfl, rfl⟩ (by simp)
  exact ⟨X, by rw [hb, e]⟩

/-- Three tab-terminated cells without terminators inside them join the
current line. -/
theorem write_cells3 (b : Writer) (c0 c1 c2 : List Char)
    (h0 : ∀ ch ∈ c0, isTerminator ch = false) (h1 : ∀ ch ∈ c1, isTerminator ch = false)
    (h2 : ∀ ch ∈ c2, isTerminator ch = false) :
    (c0 ++ '\t' :: (c1 ++ '\t' :: (c2 ++ ['\t']))).foldl Writer.writeByte b =
      { b with line := b.line ++ [b.cell ++ c0, c1, c2], cell := [] } := by
  rw [List.foldl_append, foldl_writeByte_plain c0 b h0, List.foldl_cons, writeByte_tab,
    List.foldl_append, foldl_writeByte_plain c1 _ h1, List.foldl_cons, writeByte_tab,
    List.foldl_append, foldl_writeByte_plain c2 _ h2, List.foldl_cons, writeByte_tab]
  simp

/-- A newline and three tab-terminated cells after a line with cells: the
line is ended with an empty last cell, the three cells start the next line. -/
theorem write_row (b : Writer) (c0 c1 c2 : List Char) (hl : b.line ≠ []) (hc : b.cell = [])
    (h0 : ∀ ch ∈ c0, isTerminator ch = false) (h1 : ∀ ch ∈ c1, isTerminator ch = false)
    (h2 : ∀ ch ∈ c2, isTerminator ch = false) :
    ('\n' :: (c0 ++ '\t' :: (c1 ++ '\t' :: (c2 ++ ['\t'])))).foldl Writer.writeByte b =
      { b with lines := b.lines ++ [b.line ++ [[]]], line := [c0, c1, c2], cell := [] } := by
  have hne : b.line.length + 1 ≠ 1 := by
    cases hb : b.line with
    | nil => exact absurd hb hl
    | cons x xs => simp
  rw [List.foldl_cons, writeByte_newline b hne, write_cells3 _ c0 c1 c2 h0 h1 h2, hc]
  simp

end tabwriter

/-! ## Texts without terminators -/

theorem isTerminator_of_isDigit (ch : Char) (h : ch.isDigit = true) :
    isTerminator ch = false := by
  cases ht : isTerminator ch with
  | false => rfl
  | true =>
    exfalso
    unfold isTerminator at ht
    simp only [decide_eq_true_eq] at ht
    rcases ht with rfl | rfl | rfl | rfl <;> revert h <;> decide

theorem plain_toString_nat (n : Nat) : ∀ ch ∈ (toString n).data, isTerminator ch = false :=
  fun ch h => isTerminator_of_isDigit ch (repr_isDigit n ch h)

theorem plain_toString_int (i : Int) : ∀ ch ∈ (toString i).data, isTerminator ch = false := by
  cases i with
  | ofNat m => exact plain_toString_nat m
  | negSucc m =>
    intro ch h
    have e : (toString (Int.negSucc m)).data = '-' :: (toString (m + 1)).data := rfl
    rw [e] at h
    rcases List.mem_cons.1 h with rfl | h
    · decide
    · exact plain_toString_nat _ ch h

theorem plain_units :
    ∀ u ∈ ["B", "KB", "MB", "GB", "TB"], ∀ ch ∈ u.data, isTerminator ch = false := by
  decide

theorem plain_ByteSize (n : Nat) : ∀ ch ∈ (ByteSize n).data, isTerminator ch = false := by
  by_cases h0 : n = 0
  · subst h0; decide
  · obtain ⟨body, d, hd, hb, e⟩ := ByteSize_data n h0
    rw [e]
    intro ch h
    rcases List.mem_append.1 h with h | h
    · rcases hb ch h with h | rfl
      · exact isTerminator_of_isDigit ch h
      · decide
    · rcases List.mem_cons.1 h with rfl | h
      · exact isTerminator_of_isDigit _ hd
      · exact plain_units _ (unitOf_mem n h0) ch h

theorem plain_rowCells (s : typeStats) (h : plain s.Name) :
    ∀ c ∈ rowCells s, ∀ ch ∈ c, isTerminator ch = false := by
  intro c hc
  unfold rowCells at hc
  simp only [List.mem_cons, List.mem_singleton, List.not_mem_nil, or_false] at hc
  rcases hc with rfl | rfl | rfl
  · intro ch hch
    rcases List.mem_cons.1 hch with rfl | hch
    · decide
    · exact h ch hch
  · exact plain_toString_int _
  · exact plain_ByteSize _

/-! ## What the renderer writes -/

theorem dropLast_append_getLastD {α : Type} :
    ∀ (rest : List α) (c : α), (c :: rest).dropLast ++ [rest.getLastD c] = c :: rest := by
  intro rest
  induction rest with
  | nil => intro c; rfl
  | cons x xs ih =>
    intro c
    rw [List.dropLast_cons₂, List.getLastD_cons, List.cons_append, ih]

theorem rowString_data (s : typeStats) :
    ("\n " ++ s.Name ++ "\t" ++ toString s.Count ++ "\t" ++
        ByteSize (uint64 s.Sum) ++ "\t").data =
      '\n' :: ((' ' :: s.Name.data) ++ '\t' :: ((toString s.Count).data ++
        '\t' :: ((ByteSize (uint64 s.Sum)).data ++ ['\t']))) := by
  have e1 : ("\n " : String).data = ['\n', ' '] := rfl
  have e2 : ("\t" : String).data = ['\t'] := rfl
  simp [String.data_append, e1, e2]

/-- Writing the lines of the entries after a line with cells. -/
theorem rows_fold (ss : List typeStats) (hplain : ∀ s ∈ ss, plain s.Name) :
    ∀ b : tabwriter.Writer, b.line ≠ [] → b.cell = [] →
      ss.foldl
          (fun tw s =>
            tw.Write ("\n " ++ s.Name ++ "\t" ++ toString s.Count ++ "\t" ++
              ByteSize (uint64 s.Sum) ++ "\t"))
          b =
        { b with
          lines := b.lines ++ ((b.line :: ss.map rowCells).dropLast).map (fun l => l ++ [[]]),
          line := (ss.map rowCells).getLastD b.line,
          cell := [] } := by
  induction ss with
  | nil =>
    intro b _ hc
    simp [← hc]
  | cons s ss ih =>
    intro b hl hc
    have hs : plain s.Name := hplain s (List.mem_cons_self _ _)
    have hr := plain_rowCells s hs
    have step : b.Write ("\n " ++ s.Name ++ "\t" ++ toString s.Count ++ "\t" ++
          ByteSize (uint64 s.Sum) ++ "\t") =
        { b with lines := b.lines ++ [b.line ++ [[]]], line := rowCells s, cell := [] } := by
      rw [tabwriter.Write_data, rowString_data]
      exact tabwriter.write_row b _ _ _ hl hc
        (hr _ (by simp [rowCells])) (hr _ (by simp [rowCells])) (hr _ (by simp [rowCells]))
    rw [List.foldl_cons, step,
      ih (fun t ht => hplain t (List.mem_cons_of_mem _ ht)) _ (by simp [rowCells]) rfl]
    simp only [List.map_cons, List.getLastD_cons, List.dropLast_cons₂, List.append_assoc,
      List.singleton_append]

theorem getLastD_mem_cons {α : Type} :
    ∀ (rest : List α) (c : α), rest.getLastD c ∈ c :: rest := by
  intro rest
  induction rest with
  | nil => intro c; simp
  | cons x xs ih =>
    intro c
    rw [List.getLastD_cons]
    exact List.mem_cons_of_mem _ (ih x)

theorem headerString_data :
    ("\n Type\tCount\tSize\t" ++ "\n").data =
      '\n' :: ((" Type".data ++ '\t' :: ("Count".data ++ '\t' :: ("Size".data ++ ['\t']))) ++
        ['\n']) := by
  decide

theorem dashString_data :
    (" " ++ "----" ++ "\t" ++ "----" ++ "\t" ++ "----" ++ "\t").data =
      " ----".data ++ '\t' :: ("----".data ++ '\t' :: ("----".data ++ ['\t'])) := by
  decide

theorem dashRowString_data :
    ("\n " ++ "----" ++ "\t" ++ "----" ++ "\t" ++ "----" ++ "\t").data =
      '\n' :: (" ----".data ++ '\t' :: ("----".data ++ '\t' :: ("----".data ++ ['\t']))) := by
  decide

theorem totalString_data (offset : Int) :
    ("\n Total\t\t" ++ ByteSize (uint64 offset) ++ "\t").data =
      '\n' :: (" Total".data ++ '\t' :: ([] ++ '\t' ::
        ((ByteSize (uint64 offset)).data ++ ['\t']))) := by
  have e1 : ("\n Total\t\t" : String).data =
      '\n' :: (" Total".data ++ ['\t', '\t']) := rfl
  have e2 : ("\t" : String).data = ['\t'] := rfl
  simp [String.data_append, e1, e2]

theorem plain_literals :
    (∀ ch ∈ " Type".data, isTerminator ch = false) ∧
    (∀ ch ∈ "Count".data, isTerminator ch = false) ∧
    (∀ ch ∈ "Size".data, isTerminator ch = false) ∧
    (∀ ch ∈ " ----".data, isTerminator ch = false) ∧
    (∀ ch ∈ "----".data, isTerminator ch = false) ∧
    (∀ ch ∈ " Total".data, isTerminator ch = false) := by
  decide

/-- The table part of the renderer, from a writer whose blank line flushes
the text `X` and a newline: the final flush adds the formatted lines of the
table. -/
theorem table_written_from (b : tabwriter.Writer) (X : List Char)
    (hX : b.writeByte '\n' = ⟨8, 8, 6, ' ', X ++ ['\n'], [], [], []⟩)
    (ss : List typeStats) (hplain : ∀ s ∈ ss, plain s.Name) (offset : Int) :
    ((((ss.foldl
        (fun tw s =>
          tw.Write ("\n " ++ s.Name ++ "\t" ++ toString s.Count ++ "\t" ++
            ByteSize (uint64 s.Sum) ++ "\t"))
        ((b.Write ("\n Type\tCount\tSize\t" ++ "\n")).Write
          (" " ++ "----" ++ "\t" ++ "----" ++ "\t" ++ "----" ++ "\t"))).Write
      ("\n " ++ "----" ++ "\t" ++ "----" ++ "\t" ++ "----" ++ "\t")).Write
      ("\n Total\t\t" ++ ByteSize (uint64 offset) ++ "\t")).flushNoDefers).output =
    X ++ '\n' :: tabwriter.joinLines
      (tabwriter.formatLines 8 6 ' ' (tabwriter.maxCells (tableBuffer ss offset)) []
        (tableBuffer ss offset)) := by
  obtain ⟨pT, pC, pS, pD0, pD, pTot⟩ := plain_literals
  -- the header line
  have h1 : b.Write ("\n Type\tCount\tSize\t" ++ "\n") =
      ⟨8, 8, 6, ' ', X ++ ['\n'], [headerCells ++ [[]]], [], []⟩ := by
    rw [tabwriter.Write_data, headerString_data, List.foldl_cons, hX, List.foldl_append,
      tabwriter.write_cells3 _ _ _ _ pT pC pS, List.foldl_cons, List.foldl_nil,
      tabwriter.writeByte_newline _ (by simp)]
    simp [headerCells]
  -- the separator line
  have h2 : tabwriter.Writer.Write ⟨8, 8, 6, ' ', X ++ ['\n'], [headerCells ++ [[]]], [], []⟩
        (" " ++ "----" ++ "\t" ++ "----" ++ "\t" ++ "----" ++ "\t") =
      ⟨8, 8, 6, ' ', X ++ ['\n'], [headerCells ++ [[]]], dashCells, []⟩ := by
    rw [tabwriter.Write_data, dashString_data, tabwriter.write_cells3 _ _ _ _ pD0 pD pD]
    simp [dashCells]
  have h3 := rows_fold ss hplain
    ⟨8, 8, 6, ' ', X ++ ['\n'], [headerCells ++ [[]]], dashCells, []⟩ (by simp [dashCells]) rfl
  simp only [] at h3
  rw [h1, h2, h3]
  -- the closing separator line
  have hne : (ss.map rowCells).getLastD dashCells ≠ [] := by
    have hm := getLastD_mem_cons (ss.map rowCells) dashCells
    rcases List.mem_cons.1 hm with h | h
    · rw [h]; simp [dashCells]
    · obtain ⟨s, -, e⟩ := List.mem_map.1 h
      rw [← e]; simp [rowCells]
  have h4 : ∀ (L : List tabwriter.Line) (l : tabwriter.Line), l ≠ [] →
      tabwriter.Writer.Write ⟨8, 8, 6, ' ', X ++ ['\n'], L, l, []⟩
        ("\n " ++ "----" ++ "\t" ++ "----" ++ "\t" ++ "----" ++ "\t") =
      ⟨8, 8, 6, ' ', X ++ ['\n'], L ++ [l ++ [[]]], dashCells, []⟩ := by
    intro L l hl
    rw [tabwriter.Write_data, dashRowString_data,
      tabwriter.write_row _ _ _ _ hl rfl pD0 pD pD]
    simp [dashCells]
  -- the last line
  have h5 : ∀ (L : List tabwriter.Line) (l : tabwriter.Line), l ≠ [] →
      tabwriter.Writer.Write ⟨8, 8, 6, ' ', X ++ ['\n'], L, l, []⟩
        ("\n Total\t\t" ++ ByteSize (uint64 offset) ++ "\t") =
      ⟨8, 8, 6, ' ', X ++ ['\n'], L ++ [l ++ [[]]], totalCells offset, []⟩ := by
    intro L l hl
    rw [tabwriter.Write_data, totalString_data,
      tabwriter.write_row _ _ _ _ hl rfl pTot (by simp) (plain_ByteSize _)]
    simp [totalCells]
  rw [h4 _ _ hne, h5 _ _ (by simp [dashCells])]
  -- the flush
  unfold tabwriter.Writer.flushNoDefers tabwriter.Writer.format
  simp only [List.length_nil, gt_iff_lt, Nat.lt_irrefl, if_false]
  have hall : ([headerCells ++ [[]]] ++
        ((dashCells :: ss.map rowCells).dropLast).map (fun l => l ++ [[]]) ++
        [(ss.map rowCells).getLastD dashCells ++ [[]]] ++
        [dashCells ++ [[]]]) ++
        [totalCells offset] = tableBuffer ss offset := by
    unfold tableBuffer
    have := congrArg (List.map (fun l : tabwriter.Line => l ++ [[]]))
      (dropLast_append_getLastD (ss.map rowCells) dashCells)
    simp only [List.map_append, List.map_cons, List.map_nil] at this
    simp only [List.map_append, List.map_cons, List.map_nil, List.cons_append,
      List.nil_append, List.append_assoc]
    rw [List.append_cons _ _ [dashCells ++ [[]], totalCells offset], this]
    rfl
  rw [hall]
  simp

/-- The table part of the renderer, from a writer at the start of a line:
the blank line flushes what was written before, and the final flush writes
the formatted lines of the table. -/
theorem table_written (b : tabwriter.Writer) (hs : b.atLineStart)
    (hp : b.params = (8, 8, 6, ' ')) (ss : List typeStats)
    (hplain : ∀ s ∈ ss, plain s.Name) (offset : Int) :
    ∃ X : List Char,
      ((((ss.foldl
          (fun tw s =>
            tw.Write ("\n " ++ s.Name ++ "\t" ++ toString s.Count ++ "\t" ++
              ByteSize (uint64 s.Sum) ++ "\t"))
          ((b.Write ("\n Type\tCount\tSize\t" ++ "\n")).Write
            (" " ++ "----" ++ "\t" ++ "----" ++ "\t" ++ "----" ++ "\t"))).Write
        ("\n " ++ "----" ++ "\t" ++ "----" ++ "\t" ++ "----" ++ "\t")).Write
        ("\n Total\t\t" ++ ByteSize (uint64 offset) ++ "\t")).flushNoDefers).output =
      X ++ '\n' :: tabwriter.joinLines
        (tabwriter.formatLines 8 6 ' ' (tabwriter.maxCells (tableBuffer ss offset)) []
          (tableBuffer ss offset)) := by
  obtain ⟨X, hX⟩ := tabwriter.writeByte_newline_blank b hs
  obtain ⟨mw, tw, pd, pc, out, lines, line, cell⟩ := b
  simp only [tabwriter.Writer.params, Prod.mk.injEq] at hp
  obtain ⟨rfl, rfl, rfl, rfl⟩ := hp
  exact ⟨X, table_written_from _ X hX ss hplain offset⟩

/-! ## Formatting the table -/

namespace tabwriter

/-- When every line has a cell in the column, the lines are one column
block. -/
theorem formatLines_block (minwidth padding : Nat) (padchar : Char) (fuel : Nat)
    (widths : List Nat) (lines : List Line) (hl : lines ≠ [])
    (h : ∀ line ∈ lines, widths.length + 1 < line.length) :
    formatLines minwidth padding padchar (fuel + 1) widths lines =
      formatLines minwidth padding padchar fuel
        (widths ++ [columnWidth minwidth padding widths.length lines]) lines := by
  rw [formatLines]
  simp only []
  rw [blocks_all _ true lines hl (fun x hx => by simpa using h x hx)]
  simp

/-- When no line has a cell in the column, the lines are written with the
widths known so far. -/
theorem formatLines_none (minwidth padding : Nat) (padchar : Char) (fuel : Nat)
    (widths : List Nat) (lines : List Line)
    (h : ∀ line ∈ lines, ¬ widths.length + 1 < line.length) :
    formatLines minwidth padding padchar fuel widths lines =
      lines.map (writeCells padchar widths) := by
  cases fuel with
  | zero => rfl
  | succ f =>
    rw [formatLines]
    simp only []
    by_cases hl : lines = []
    · subst hl; rfl
    · rw [blocks_all _ false lines hl (fun x hx => by simpa using h x hx)]
      simp

/-- A column block followed by a last line without a cell in the column. -/
theorem formatLines_block_last (minwidth padding : Nat) (padchar : Char) (fuel : Nat)
    (widths : List Nat) (A : List Line) (t : Line) (hl : A ≠ [])
    (hA : ∀ line ∈ A, widths.length + 1 < line.length)
    (ht : ¬ widths.length + 1 < t.length) :
    formatLines minwidth padding padchar (fuel + 1) widths (A ++ [t]) =
      formatLines minwidth padding padchar fuel
        (widths ++ [columnWidth minwidth padding widths.length A]) A ++
        [writeCells padchar widths t] := by
  rw [formatLines]
  simp only []
  rw [blocks_append_singleton _ t (by simpa using ht) A hl (fun x hx => by simpa using hA x hx)]
  simp

theorem foldl_max_eq (n : Nat) :
    ∀ (l : List Line) (m : Nat), (∀ x ∈ l, x.length ≤ n) → m ≤ n →
      (m = n ∨ ∃ x ∈ l, x.length = n) →
      l.foldl (fun m line => max m line.length) m = n := by
  intro l
  induction l with
  | nil =>
    intro m _ _ h
    rcases h with h | ⟨x, hx, -⟩
    · exact h
    · exact absurd hx (List.not_mem_nil x)
  | cons x xs ih =>
    intro m hle hm h
    rw [List.foldl_cons]
    have hx : x.length ≤ n := hle x (List.mem_cons_self _ _)
    apply ih _ (fun y hy => hle y (List.mem_cons_of_mem _ hy)) (by omega)
    rcases h with h | ⟨y, hy, e⟩
    · left; omega
    · rcases List.mem_cons.1 hy with rfl | hy
      · left; omega
      · right; exact ⟨y, hy, e⟩

/-- The written lines of a table of three-cell lines, each ended by a
newline after its last tab, and a last three-cell line that ends with its
last tab: the third cell of the last line is outside the third column. -/
theorem formatLines_table (A : List Line) (t : Line) (hne : A ≠ [])
    (hA : ∀ a ∈ A, a.length = 3) (ht : t.length = 3) :
    formatLines 8 6 ' ' (maxCells (A.map (fun l => l ++ [[]]) ++ [t])) []
        (A.map (fun l => l ++ [[]]) ++ [t]) =
      A.map (fun a => writeCells ' '
          [columnWidth 8 6 0 (A.map (fun l => l ++ [[]]) ++ [t]),
           columnWidth 8 6 1 (A.map (fun l => l ++ [[]]) ++ [t]),
           columnWidth 8 6 2 (A.map (fun l => l ++ [[]]))] (a ++ [[]])) ++
        [writeCells ' '
          [columnWidth 8 6 0 (A.map (fun l => l ++ [[]]) ++ [t]),
           columnWidth 8 6 1 (A.map (fun l => l ++ [[]]) ++ [t])] t] := by
  have hS : ∀ line ∈ A.map (fun l : Line => l ++ [[]]), line.length = 4 := by
    intro line hline
    obtain ⟨a, ha, rfl⟩ := List.mem_map.1 hline
    simp [hA a ha]
  have hSne : A.map (fun l : Line => l ++ [[]]) ≠ [] := by simpa using hne
  have hall : ∀ line ∈ A.map (fun l : Line => l ++ [[]]) ++ [t], 3 ≤ line.length := by
    intro line hline
    rcases List.mem_append.1 hline with h | h
    · rw [hS line h]; omega
    · simp at h; rw [h, ht]
  have hfuel : maxCells (A.map (fun l : Line => l ++ [[]]) ++ [t]) = 3 + 1 := by
    unfold maxCells
    apply foldl_max_eq
    · intro x hx
      rcases List.mem_append.1 hx with h | h
      · rw [hS x h]
      · simp at h; rw [h, ht]; omega
    · omega
    · right
      cases hAe : A with
      | nil => exact absurd hAe hne
      | cons a as =>
        refine ⟨a ++ [[]], by simp, ?_⟩
        have := hA a (by rw [hAe]; exact List.mem_cons_self _ _)
        simp [this]
  rw [hfuel]
  rw [formatLines_block 8 6 ' ' 3 [] _ (by simp) (fun l hl => by
    have := hall l hl; simp; omega)]
  rw [formatLines_block 8 6 ' ' 2 _ _ (by simp) (fun l hl => by
    have := hall l hl; simp; omega)]
  rw [formatLines_block_last 8 6 ' ' 1 _ _ t hSne (fun l hl => by
    rw [hS l hl]; simp) (by rw [ht]; simp)]
  rw [formatLines_none 8 6 ' ' 1 _ _ (fun l hl => by rw [hS l hl]; simp)]
  simp [List.map_map, Function.comp]

end tabwriter

/-! ## The output of the tabular renderer -/

theorem writeCells_row (w0 w1 w2 : Nat) (c0 c1 c2 : List Char) :
    tabwriter.writeCells ' ' [w0, w1, w2] ([c0, c1, c2] ++ [[]]) =
      padCell w0 c0 ++ padCell w1 c1 ++ padCell w2 c2 := by
  simp [tabwriter.writeCells, padCell]

theorem writeCells_table (w0 w1 w2 : Nat) (ss : List typeStats) (offset : Int) :
    ((headerCells :: dashCells :: ss.map rowCells) ++ [dashCells]).map
        (fun a => tabwriter.writeCells ' ' [w0, w1, w2] (a ++ [[]])) ++
      [tabwriter.writeCells ' ' [w0, w1] (totalCells offset)] =
    tableLines w0 w1 w2 ss offset := by
  have e1 : " Type".data = ' ' :: "Type".data := rfl
  have e2 : " ----".data = ' ' :: "----".data := rfl
  have e3 : " Total".data = ' ' :: "Total".data := rfl
  have hh : tabwriter.writeCells ' ' [w0, w1, w2] (headerCells ++ [[]]) =
      tableLine w0 w1 w2 "Type" "Count" "Size" := by
    unfold headerCells tableLine
    rw [writeCells_row, e1]
  have hd : tabwriter.writeCells ' ' [w0, w1, w2] (dashCells ++ [[]]) =
      tableLine w0 w1 w2 "----" "----" "----" := by
    unfold dashCells tableLine
    rw [writeCells_row, e2]
  have hr : ∀ s : typeStats, tabwriter.writeCells ' ' [w0, w1, w2] (rowCells s ++ [[]]) =
      tableLine w0 w1 w2 s.Name (toString s.Count) (ByteSize (uint64 s.Sum)) := by
    intro s
    unfold rowCells tableLine
    rw [writeCells_row]
  have ht : tabwriter.writeCells ' ' [w0, w1] (totalCells offset) =
      totalLine w0 w1 (ByteSize (uint64 offset)) := by
    unfold totalCells totalLine
    rw [e3]
    simp only [tabwriter.writeCells, padCell, List.append_nil, List.append_assoc]
  unfold tableLines
  have hm : List.map ((fun a => tabwriter.writeCells ' ' [w0, w1, w2] (a ++ [[]])) ∘ rowCells) ss =
      List.map (fun s => tableLine w0 w1 w2 s.Name (toString s.Count)
        (ByteSize (uint64 s.Sum))) ss :=
    List.map_congr_left (fun s _ => hr s)
  simp only [List.cons_append, List.map_cons, List.map_append, List.map_map, List.map_nil,
    hh, hd, ht, hm, List.nil_append, List.append_assoc]

/-- The tabular renderer, for sorted entries whose names have no tab or
line break: some text that ends with a newline (the metadata block and the
blank line), then the lines of the table; the error is nil. -/
theorem Format_output (sortSlice : SortSlice) (info : OutputFormat)
    (hplain : ∀ s ∈ sortSlice info.Stats sumGreater, plain s.Name) :
    ∃ X : List Char,
      prettyFormatter.Format sortSlice info =
        (String.mk (X ++ '\n' :: tabwriter.joinLines
          (tableLines (tableWidths (sortSlice info.Stats sumGreater) info.Offset).1
            (tableWidths (sortSlice info.Stats sumGreater) info.Offset).2.1
            (tableWidths (sortSlice info.Stats sumGreater) info.Offset).2.2
            (sortSlice info.Stats sumGreater) info.Offset)), none) := by
  have hfold : ∀ (l acc : List typeStats),
      l.foldl (fun ss s => ss ++ [s]) acc = acc ++ l := by
    intro l
    induction l with
    | nil => intro acc; simp
    | cons x xs ih => intro acc; rw [List.foldl_cons, ih]; simp
  unfold prettyFormatter.Format
  simp only [tabwriter.Writer.Flush, hfold, List.nil_append]
  generalize hb5 : (((((tabwriter.NewWriter 8 8 6 ' ').Write (" ID\t" ++ info.Meta.ID)).Write
    ("\n Size\t" ++ toString info.Meta.Size)).Write
    ("\n Index\t" ++ toString info.Meta.Index)).Write
    ("\n Term\t" ++ toString info.Meta.Term)).Write
    ("\n Version\t" ++ toString info.Meta.Version) = b5
  have hp5 : b5.params = (8, 8, 6, ' ') := by
    rw [← hb5]
    simp only [tabwriter.Write_data, tabwriter.foldl_writeByte_params]
    rfl
  have hb6 : b5.Write "\n" = b5.writeByte '\n' := rfl
  obtain ⟨X, hX⟩ := table_written (b5.Write "\n")
    (by rw [hb6]; exact tabwriter.writeByte_newline_atLineStart b5)
    (by rw [hb6, tabwriter.writeByte_params, hp5])
    (sortSlice info.Stats sumGreater) hplain info.Offset
  refine ⟨X, ?_⟩
  rw [hX]
  have hfmt := tabwriter.formatLines_table
    ((headerCells :: dashCells :: (sortSlice info.Stats sumGreater).map rowCells) ++ [dashCells])
    (totalCells info.Offset) (by simp)
    (by
      intro a ha
      simp only [List.cons_append, List.mem_cons, List.mem_append, List.mem_map,
        List.mem_singleton, List.not_mem_nil, or_false] at ha
      rcases ha with rfl | rfl | ⟨s, -, rfl⟩ | rfl <;> rfl)
    rfl
  unfold tableWidths tableBuffer
  rw [hfmt, writeCells_table]

/-! ## Sorting -/

theorem sumGreater_false_iff (a b : typeStats) : sumGreater b a = false ↔ a.Sum ≥ b.Sum := by
  unfold sumGreater
  simp

theorem insertBy_perm (less : typeStats → typeStats → Bool) (x : typeStats) :
    ∀ l : List typeStats, (insertBy less x l).Perm (x :: l) := by
  intro l
  induction l with
  | nil => exact List.Perm.refl _
  | cons y ys ih =>
    unfold insertBy
    split
    · exact (List.Perm.cons y ih).trans (List.Perm.swap x y ys)
    · exact List.Perm.refl _

theorem insertBy_sorted (x : typeStats) :
    ∀ l : List typeStats, l.Pairwise (fun a b => sumGreater b a = false) →
      (insertBy sumGreater x l).Pairwise (fun a b => sumGreater b a = false) := by
  intro l
  induction l with
  | nil => intro _; simp [insertBy]
  | cons y ys ih =>
    intro h
    rw [List.pairwise_cons] at h
    obtain ⟨hy, hys⟩ := h
    unfold insertBy
    split
    · rename_i hlt
      rw [List.pairwise_cons]
      refine ⟨?_, ih hys⟩
      intro z hz
      rcases List.mem_cons.1 ((insertBy_perm sumGreater x ys).subset hz) with rfl | hz
      · unfold sumGreater at hlt ⊢
        simp only [decide_eq_true_eq, decide_eq_false_iff_not] at hlt ⊢
        omega
      · exact hy z hz
    · rename_i hge
      rw [List.pairwise_cons]
      refine ⟨?_, List.pairwise_cons.2 ⟨hy, hys⟩⟩
      intro z hz
      have hxy : sumGreater y x = false := by simpa using hge
      rcases List.mem_cons.1 hz with rfl | hz
      · exact hxy
      · have := hy z hz
        rw [sumGreater_false_iff] at this hxy ⊢
        omega

/-- Insertion sort meets the contract of `sort.Slice` for the comparison of
the renderer. -/
theorem insertionSortSlice_sorts : insertionSortSlice.Sorts sumGreater := by
  intro ss
  unfold insertionSortSlice
  induction ss with
  | nil => exact ⟨List.Perm.refl _, List.Pairwise.nil⟩
  | cons x xs ih =>
    obtain ⟨hp, hs⟩ := ih
    rw [List.foldr_cons]
    exact ⟨(insertBy_perm _ x _).trans (List.Perm.cons x hp), insertBy_sorted x _ hs⟩

/-- Two arrangements of the same entries, one in descending order of size
and one in strictly descending order, are equal. -/
theorem sorted_perm_unique (l1 l2 : List typeStats) (hp : l1.Perm l2)
    (h1 : l1.Pairwise (fun a b => a.Sum ≥ b.Sum))
    (h2 : l2.Pairwise (fun a b => a.Sum > b.Sum)) : l1 = l2 := by
  have hne2 : l2.Pairwise (fun a b => a.Sum ≠ b.Sum) :=
    h2.imp (fun h => by omega)
  have hne1 : l1.Pairwise (fun a b => a.Sum ≠ b.Sum) :=
    (hp.pairwise_iff (fun {a b} (h : a.Sum ≠ b.Sum) => h.symm)).2 hne2
  have hgt1 : l1.Pairwise (fun a b => a.Sum > b.Sum) :=
    (h1.and hne1).imp (fun h => by
      obtain ⟨ha, hb⟩ := h
      omega)
  haveI : IsAntisymm typeStats (fun a b => a.Sum > b.Sum) :=
    ⟨fun a b hab hba => by exfalso; omega⟩
  exact List.eq_of_perm_of_sorted hp hgt1 h2

/-! ## Lines of a text -/

theorem splitLines_ne_nil : ∀ cs : List Char, splitLines cs ≠ [] := by
  intro cs
  cases cs with
  | nil => simp [splitLines]
  | cons c cs =>
    unfold splitLines
    split
    · simp
    · split <;> simp

theorem splitLines_append_newline (rest : List Char) :
    ∀ pre : List Char,
      splitLines (pre ++ '\n' :: rest) = splitLines pre ++ splitLines rest := by
  intro pre
  induction pre with
  | nil => simp [splitLines]
  | cons c cs ih =>
    rw [List.cons_append, splitLines, splitLines]
    by_cases hc : c = '\n'
    · simp [hc, ih]
    · rw [if_neg hc, if_neg hc, ih]
      cases h : splitLines cs with
      | nil => exact absurd h (splitLines_ne_nil cs)
      | cons l ls => rfl

theorem splitLines_line : ∀ l : List Char, '\n' ∉ l → splitLines l = [l] := by
  intro l
  induction l with
  | nil => intro _; rfl
  | cons c cs ih =>
    intro h
    have hc : c ≠ '\n' := fun e => h (by simp [e])
    have hcs : '\n' ∉ cs := fun e => h (List.mem_cons_of_mem _ e)
    rw [splitLines, if_neg hc, ih hcs]

/-- The lines of a text made of lines joined by newlines. -/
theorem splitLines_joinLines :
    ∀ ls : List (List Char), ls ≠ [] → (∀ l ∈ ls, '\n' ∉ l) →
      splitLines (tabwriter.joinLines ls) = ls := by
  intro ls
  induction ls with
  | nil => intro h; exact absurd rfl h
  | cons a ls ih =>
    intro _ h
    cases ls with
    | nil => exact splitLines_line a (h a (List.mem_cons_self _ _))
    | cons b r =>
      rw [tabwriter.joinLines_cons_cons, splitLines_append_newline,
        splitLines_line a (h a (List.mem_cons_self _ _)),
        ih (by simp) (fun l hl => h l (List.mem_cons_of_mem _ hl))]
      rfl

/-! ## The rows of the table -/

theorem mem_padCell (w : Nat) (text : List Char) (ch : Char) (h : ch ∈ padCell w text) :
    ch ∈ text ∨ ch = ' ' := by
  unfold padCell at h
  rcases List.mem_append.1 h with h | h
  · exact Or.inl h
  · exact Or.inr (List.eq_of_mem_replicate h)

theorem newline_not_mem_tableLine (w0 w1 w2 : Nat) (c0 c1 c2 : String)
    (h0 : plain c0) (h1 : plain c1) (h2 : plain c2) : '\n' ∉ tableLine w0 w1 w2 c0 c1 c2 := by
  have hsp : ('\n' : Char) ≠ ' ' := by decide
  have hpl : ∀ c : String, plain c → '\n' ∉ c.data := by
    intro c hc hmem
    have := hc _ hmem
    revert this; decide
  intro h
  unfold tableLine at h
  rcases List.mem_append.1 h with h | h
  · rcases List.mem_append.1 h with h | h
    · rcases mem_padCell _ _ _ h with h | h
      · rcases List.mem_cons.1 h with h | h
        · exact hsp h
        · exact hpl c0 h0 h
      · exact hsp h
    · rcases mem_padCell _ _ _ h with h | h
      · exact hpl c1 h1 h
      · exact hsp h
  · rcases mem_padCell _ _ _ h with h | h
    · exact hpl c2 h2 h
    · exact hsp h

theorem newline_not_mem_totalLine (w0 w1 : Nat) (size : String) (h : plain size) :
    '\n' ∉ totalLine w0 w1 size := by
  have hsp : ('\n' : Char) ≠ ' ' := by decide
  intro hm
  unfold totalLine at hm
  rcases List.mem_append.1 hm with hm | hm
  · rcases List.mem_append.1 hm with hm | hm
    · rcases mem_padCell _ _ _ hm with hm | hm
      · revert hm; decide
      · exact hsp hm
    · rcases mem_padCell _ _ _ hm with hm | hm
      · exact absurd hm (List.not_mem_nil _)
      · exact hsp hm
  · have := h _ hm
    revert this; decide

/-- No line of the table contains a newline when the names have no tab or
line break. -/
theorem newline_not_mem_tableLines (w0 w1 w2 : Nat) (ss : List typeStats) (offset : Int)
    (hplain : ∀ s ∈ ss, plain s.Name) :
    ∀ l ∈ tableLines w0 w1 w2 ss offset, '\n' ∉ l := by
  have hd : '\n' ∉ tableLine w0 w1 w2 "----" "----" "----" :=
    newline_not_mem_tableLine _ _ _ _ _ _ (by decide) (by decide) (by decide)
  intro l hl
  unfold tableLines at hl
  simp only [List.cons_append, List.nil_append, List.mem_cons, List.mem_append, List.mem_map,
    List.mem_singleton, List.not_mem_nil, or_false] at hl
  rcases hl with rfl | rfl | ⟨s, hs, rfl⟩ | rfl | rfl
  · exact newline_not_mem_tableLine _ _ _ _ _ _ (by decide) (by decide) (by decide)
  · exact hd
  · exact newline_not_mem_tableLine _ _ _ _ _ _ (hplain s hs) (plain_toString_int _)
      (plain_ByteSize _)
  · exact hd
  · exact newline_not_mem_totalLine _ _ _ (plain_ByteSize _)

/-- The lines of the output of the tabular renderer, for sorted entries
whose names have no tab or line break: the lines of what precedes the
table, then the lines of the table. -/
theorem Format_lines (sortSlice : SortSlice) (info : OutputFormat)
    (hplain : ∀ s ∈ sortSlice info.Stats sumGreater, plain s.Name) :
    ∃ head : List (List Char),
      splitLines (prettyFormatter.Format sortSlice info).1.data =
        head ++ tableLines (tableWidths (sortSlice info.Stats sumGreater) info.Offset).1
          (tableWidths (sortSlice info.Stats sumGreater) info.Offset).2.1
          (tableWidths (sortSlice info.Stats sumGreater) info.Offset).2.2
          (sortSlice info.Stats sumGreater) info.Offset := by
  obtain ⟨X, e⟩ := Format_output sortSlice info hplain
  refine ⟨splitLines X, ?_⟩
  rw [e]
  simp only []
  rw [splitLines_append_newline, splitLines_joinLines _ (by simp [tableLines])
    (newline_not_mem_tableLines _ _ _ _ _ hplain)]

theorem splitLines_no_newline : ∀ (cs : List Char), ∀ l ∈ splitLines cs, '\n' ∉ l := by
  intro cs
  induction cs with
  | nil => intro l hl; simp [splitLines] at hl; simp [hl]
  | cons c cs ih =>
    intro l hl
    rw [splitLines] at hl
    by_cases hc : c = '\n'
    · rw [if_pos hc] at hl
      rcases List.mem_cons.1 hl with rfl | hl
      · simp
      · exact ih l hl
    · rw [if_neg hc] at hl
      cases h : splitLines cs with
      | nil => exact absurd h (splitLines_ne_nil cs)
      | cons l0 ls =>
        rw [h] at hl ih
        rcases List.mem_cons.1 hl with rfl | hl
        · intro hm
          rcases List.mem_cons.1 hm with hm | hm
          · exact hc hm.symm
          · exact ih l0 (List.mem_cons_self _ _) hm
        · exact ih l (List.mem_cons_of_mem _ hl)

namespace tabwriter

theorem mem_of_mem_blocks {α : Type} (p : α → Bool) (l : List α) (seg : Bool × List α)
    (hseg : seg ∈ blocks p l) : ∀ x ∈ seg.2, x ∈ l := by
  intro x hx
  have h := blocks_flatten p l
  rw [← h]
  exact List.mem_flatten.2 ⟨seg.2, List.mem_map.2 ⟨seg, hseg, rfl⟩, hx⟩

/-- More fuel than the number of columns does not change the result: the
recursion of `format` ends when no line has a cell in the column. -/
theorem formatLines_fuel_succ (minwidth padding : Nat) (padchar : Char) (fuel : Nat) :
    ∀ (widths : List Nat) (lines : List Line),
      (∀ l ∈ lines, l.length ≤ widths.length + fuel + 1) →
      formatLines minwidth padding padchar (fuel + 1) widths lines =
        formatLines minwidth padding padchar fuel widths lines := by
  induction fuel with
  | zero =>
    intro widths lines h
    rw [formatLines_none _ _ _ 1 widths lines (fun l hl => by have := h l hl; omega)]
    rfl
  | succ f ih =>
    intro widths lines h
    rw [formatLines, formatLines]
    simp only []
    congr 1
    apply List.map_congr_left
    intro seg hseg
    split
    · apply ih
      intro l hl
      have := h l (mem_of_mem_blocks _ _ seg hseg l hl)
      simp only [List.length_append, List.length_singleton]
      omega
    · rfl

theorem le_foldl_max :
    ∀ (lines : List Line) (m : Nat),
      m ≤ lines.foldl (fun m line => max m line.length) m ∧
      ∀ l ∈ lines, l.length ≤ lines.foldl (fun m line => max m line.length) m := by
  intro lines
  induction lines with
  | nil => intro m; simp
  | cons x xs ih =>
    intro m
    rw [List.foldl_cons]
    obtain ⟨h1, h2⟩ := ih (max m x.length)
    refine ⟨by omega, ?_⟩
    intro l hl
    rcases List.mem_cons.1 hl with rfl | hl
    · omega
    · exact h2 l hl

/-- The fuel that `Writer.format` gives to `formatLines`, the largest number
of cells in a line, is enough: any larger fuel gives the same text. -/
theorem formatLines_fuel (minwidth padding : Nat) (padchar : Char) (lines : List Line)
    (k : Nat) :
    formatLines minwidth padding padchar (maxCells lines + k) [] lines =
      formatLines minwidth padding padchar (maxCells lines) [] lines := by
  induction k with
  | zero => rfl
  | succ k ih =>
    rw [← Nat.add_assoc, formatLines_fuel_succ, ih]
    intro l hl
    have := (le_foldl_max lines 0).2 l hl
    unfold maxCells
    simp only [List.length_nil]
    omega

end tabwriter

/-! ## Reading the printed number -/

theorem digitChar_value (d : Nat) (h : d < 10) : (Nat.digitChar d).toNat - 48 = d := by
  interval_cases d <;> decide

theorem foldl_toDigitsCore (fuel : Nat) : ∀ (n : Nat) (ds : List Char), n < fuel →
    (Nat.toDigitsCore 10 fuel n ds).foldl (fun acc c => acc * 10 + (c.toNat - 48)) 0 =
      ds.foldl (fun acc c => acc * 10 + (c.toNat - 48)) n := by
  induction fuel with
  | zero => intro n ds h; exact absurd h (Nat.not_lt_zero _)
  | succ f ih =>
    intro n ds hn
    have hd := digitChar_value (n % 10) (Nat.mod_lt _ (by decide))
    simp only [Nat.toDigitsCore]
    split
    · rename_i h0
      have hlt : n < 10 := by omega
      rw [List.foldl_cons, hd, Nat.mod_eq_of_lt hlt]
      simp
    · rename_i h0
      rw [ih (n / 10) _ (by omega), List.foldl_cons, hd]
      congr 1
      omega

/-- Reading the decimal text of a natural number gives the number. -/
theorem decValue_toString (n : Nat) : decValue (toString n).data = n := by
  rw [repr_data]
  unfold decValue Nat.toDigits
  rw [foldl_toDigitsCore (n + 1) n [] (by omega)]
  rfl

theorem takeWhile_digits (ds rest : List Char) (h : ∀ c ∈ ds, c.isDigit = true) :
    (ds ++ '.' :: rest).takeWhile (fun c => c != '.') = ds := by
  induction ds with
  | nil => simp
  | cons d ds ih =>
    have hd : d ≠ '.' := isDigit_ne d '.' (h d (List.mem_cons_self _ _)) (by decide)
    rw [List.cons_append, List.takeWhile_cons_of_pos (by simpa using hd),
      ih (fun c hc => h c (List.mem_cons_of_mem _ hc))]

theorem dropWhile_digits (ds rest : List Char) (h : ∀ c ∈ ds, c.isDigit = true) :
    (ds ++ '.' :: rest).dropWhile (fun c => c != '.') = '.' :: rest := by
  induction ds with
  | nil => simp
  | cons d ds ih =>
    have hd : d ≠ '.' := isDigit_ne d '.' (h d (List.mem_cons_self _ _)) (by decide)
    rw [List.cons_append, List.dropWhile_cons_of_pos (by simpa using hd),
      ih (fun c hc => h c (List.mem_cons_of_mem _ hc))]

theorem takeWhile_all_digits (ds : List Char) (h : ∀ c ∈ ds, c.isDigit = true) :
    ds.takeWhile (fun c => c != '.') = ds ∧ ds.dropWhile (fun c => c != '.') = [] := by
  induction ds with
  | nil => simp
  | cons d ds ih =>
    have hd : d ≠ '.' := isDigit_ne d '.' (h d (List.mem_cons_self _ _)) (by decide)
    obtain ⟨h1, h2⟩ := ih (fun c hc => h c (List.mem_cons_of_mem _ hc))
    rw [List.takeWhile_cons_of_pos (by simpa using hd),
      List.dropWhile_cons_of_pos (by simpa using hd), h1, h2]
    exact ⟨rfl, rfl⟩

/-- Reading the text of a number of tenths gives the number of tenths. -/
theorem readTenths_numText (t : Nat) : readTenths (numText t).data = t := by
  unfold numText readTenths
  split
  · obtain ⟨h1, h2⟩ := takeWhile_all_digits _ (repr_isDigit (t / 10))
    rw [h1, h2, decValue_toString]
    simp only [List.drop_nil, decValue, List.foldl_nil]
    omega
  · have e : (toString (t / 10) ++ "." ++ toString (t % 10)).data =
        (toString (t / 10)).data ++ '.' :: (toString (t % 10)).data := by
      simp [String.data_append]
    rw [e, takeWhile_digits _ _ (repr_isDigit _), dropWhile_digits _ _ (repr_isDigit _)]
    simp only [List.drop_succ_cons, List.drop_zero, decValue_toString]
    omega

/-! ## Rounding to tenths -/

/-- Rounding `a / b` to the nearest integer, ties to even: the result is
within one half of the quotient, and is even when the quotient is exactly
halfway between two integers. -/
theorem roundHalfEven_spec (a b : Nat) (hb : 0 < b) :
    2 * a ≤ 2 * (b * roundHalfEven a b) + b ∧
    2 * (b * roundHalfEven a b) ≤ 2 * a + b ∧
    ((2 * (b * roundHalfEven a b) + b = 2 * a ∨ 2 * (b * roundHalfEven a b) = 2 * a + b) →
      roundHalfEven a b % 2 = 0) := by
  have hdm := Nat.div_add_mod a b
  have hr : a % b < b := Nat.mod_lt _ hb
  unfold roundHalfEven
  simp only []
  generalize hq : a / b = q at hdm
  generalize a % b = r at hdm hr
  split
  · rename_i hup
    have hm : b * (q + 1) = b * q + b := Nat.mul_succ b q
    rw [hm]
    refine ⟨by omega, by omega, ?_⟩
    intro htie
    rcases hup with hup | ⟨h1, h2⟩
    · omega
    · omega
  · rename_i hup
    have h1 : ¬ 2 * r > b := fun h => hup (Or.inl h)
    have h2 : ¬ (2 * r = b ∧ q % 2 = 1) := fun h => hup (Or.inr h)
    refine ⟨by omega, by omega, ?_⟩
    intro htie
    have : 2 * r = b := by omega
    by_contra hodd
    exact h2 ⟨this, by omega⟩

/-- A number of tenths within one twentieth of a quotient is the nearest
number of tenths to it. -/
theorem nearest_of_within_half (U n t : Nat)
    (h1 : 20 * n ≤ 2 * (U * t) + U) (h2 : 2 * (U * t) ≤ 20 * n + U) (s : Nat) :
    |((U * t : Nat) : Int) - 10 * n| ≤ |((U * s : Nat) : Int) - 10 * n| := by
  rcases Nat.lt_trichotomy s t with hlt | heq | hgt
  · have hs : U * s + U ≤ U * t := by
      have := Nat.mul_le_mul_left U (Nat.succ_le_of_lt hlt)
      rw [Nat.mul_succ] at this
      exact this
    rw [abs_le]
    have key : ((U * t : Nat) : Int) - 10 * n ≤ -(((U * s : Nat) : Int) - 10 * n) := by
      push_cast at *
      omega
    have hle := neg_le_abs (((U * s : Nat) : Int) - 10 * n)
    constructor
    · push_cast at *
      omega
    · exact le_trans key hle
  · rw [heq]
  · have hs : U * t + U ≤ U * s := by
      have := Nat.mul_le_mul_left U (Nat.succ_le_of_lt hgt)
      rw [Nat.mul_succ] at this
      exact this
    rw [abs_le]
    have hle := le_abs_self (((U * s : Nat) : Int) - 10 * n)
    constructor
    · push_cast at *
      omega
    · push_cast at *
      omega

theorem unit_pairs (n : Nat) (h : 1024 ≤ n) :
    (unitOf n = "KB" ∧ unitBytes n = 1024 ∧ n < 1024 ^ 2) ∨
    (unitOf n = "MB" ∧ unitBytes n = 1024 ^ 2 ∧ 1024 ^ 2 ≤ n ∧ n < 1024 ^ 3) ∨
    (unitOf n = "GB" ∧ unitBytes n = 1024 ^ 3 ∧ 1024 ^ 3 ≤ n ∧ n < 1024 ^ 4) ∨
    (unitOf n = "TB" ∧ unitBytes n = 1024 ^ 4 ∧ 1024 ^ 4 ≤ n) := by
  unfold unitOf unitBytes
  rw [TERABYTE_eq, GIGABYTE_eq, MEGABYTE_eq, KILOBYTE_eq, BYTE_eq]
  by_cases h4 : 1024 ^ 4 ≤ n
  · right; right; right
    rw [if_pos h4, if_pos h4]
    exact ⟨rfl, rfl, h4⟩
  · by_cases h3 : 1024 ^ 3 ≤ n
    · right; right; left
      rw [if_neg h4, if_neg h4, if_pos h3, if_pos h3]
      exact ⟨rfl, rfl, h3, by omega⟩
    · by_cases h2 : 1024 ^ 2 ≤ n
      · right; left
        rw [if_neg h4, if_neg h4, if_neg h3, if_neg h3, if_pos h2, if_pos h2]
        exact ⟨rfl, rfl, h2, by omega⟩
      · left
        rw [if_neg h4, if_neg h4, if_neg h3, if_neg h3, if_neg h2, if_neg h2, if_pos h,
          if_pos h]
        exact ⟨rfl, rfl, by omega⟩

/-- Claim C17. The number `ByteSize` prints is the exact quotient rounded to
the nearest tenth, ties to the even digit: for every `n` with
`1024 <= n < 2^53`, with `U` the byte count of the selected unit and `t` the
printed number read in tenths, `t/10` differs from `n/U` by at most `1/20`,
no number of tenths is nearer to `n/U`, and `t` is even when `n/U` is exactly
halfway between two tenths; 1280 gives "1.2KB", 1792 gives "1.8KB" and 1536
gives "1.5KB". -/
theorem ByteSize_rounds_half_even (n : Nat) (h1 : 1024 ≤ n) (h2 : n < 2 ^ 53) :
    ∃ (num : String) (U t : Nat),
      ByteSize n = num ++ unitOf n ∧ U = unitBytes n ∧ t = readTenths num.data ∧
      ((unitOf n, U) = ("KB", 1024) ∨ (unitOf n, U) = ("MB", 1024 ^ 2) ∨
        (unitOf n, U) = ("GB", 1024 ^ 3) ∨ (unitOf n, U) = ("TB", 1024 ^ 4)) ∧
      20 * n ≤ 2 * (U * t) + U ∧ 2 * (U * t) ≤ 20 * n + U ∧
      (∀ s : Nat, |((U * t : Nat) : Int) - 10 * n| ≤ |((U * s : Nat) : Int) - 10 * n|) ∧
      ((2 * (U * t) + U = 20 * n ∨ 2 * (U * t) = 20 * n + U) → t % 2 = 0) ∧
      ByteSize 1280 = "1.2KB" ∧ ByteSize 1792 = "1.8KB" ∧ ByteSize 1536 = "1.5KB" := by
  have h0 : n ≠ 0 := by omega
  have hU : 0 < unitBytes n := by
    rcases unit_pairs n h1 with h | h | h | h <;> rw [h.2.1] <;> decide
  have ht : tenths n = roundHalfEven (n * 10) (unitBytes n) := by
    unfold tenths
    rw [ofUint64_small n h2]
  obtain ⟨r1, r2, r3⟩ := roundHalfEven_spec (n * 10) (unitBytes n) hU
  rw [← ht] at r1 r2 r3
  have r1' : 20 * n ≤ 2 * (unitBytes n * tenths n) + unitBytes n := by omega
  have r2' : 2 * (unitBytes n * tenths n) ≤ 20 * n + unitBytes n := by omega
  refine ⟨numText (tenths n), unitBytes n, tenths n, ByteSize_eq n h0, rfl,
    (readTenths_numText _).symm, ?_, r1', r2', nearest_of_within_half _ _ _ r1' r2', ?_,
    by decide, by decide, by decide⟩
  · rcases unit_pairs n h1 with h | h | h | h
    · left; rw [h.1, h.2.1]
    · right; left; rw [h.1, h.2.1]
    · right; right; left; rw [h.1, h.2.1]
    · right; right; right; rw [h.1, h.2.1]
  · intro htie
    apply r3
    omega

theorem ByteSize_rounds_half_even_witness :
    1024 ≤ 1280 ∧ 1280 < 2 ^ 53 ∧
    ∃ (num : String) (U t : Nat),
      ByteSize 1280 = num ++ unitOf 1280 ∧ U = unitBytes 1280 ∧ t = readTenths num.data ∧
      ((unitOf 1280, U) = ("KB", 1024) ∨ (unitOf 1280, U) = ("MB", 1024 ^ 2) ∨
        (unitOf 1280, U) = ("GB", 1024 ^ 3) ∨ (unitOf 1280, U) = ("TB", 1024 ^ 4)) ∧
      20 * 1280 ≤ 2 * (U * t) + U ∧ 2 * (U * t) ≤ 20 * 1280 + U ∧
      (∀ s : Nat,
        |((U * t : Nat) : Int) - 10 * (1280 : Nat)| ≤
          |((U * s : Nat) : Int) - 10 * (1280 : Nat)|) ∧
      ((2 * (U * t) + U = 20 * 1280 ∨ 2 * (U * t) = 20 * 1280 + U) → t % 2 = 0) ∧
      ByteSize 1280 = "1.2KB" ∧ ByteSize 1792 = "1.8KB" ∧ ByteSize 1536 = "1.5KB" :=
  ⟨by decide, by decide, ByteSize_rounds_half_even 1280 (by decide) (by decide)⟩

/-- Claim C18. Rounding can carry the printed number up to 1024 without
promoting the unit: for every `n` with `1048525 <= n <= 1048575`,
`ByteSize(n)` is "1024KB", while `ByteSize(1048524)` is "1023.9KB" and
`ByteSize(1048576)` is "1MB"; "1024KB" and "1MB" denote the same
magnitude. -/
theorem ByteSize_carry_keeps_unit (n : Nat) (h1 : 1048525 ≤ n) (h2 : n ≤ 1048575) :
    ByteSize n = "1024KB" ∧ ByteSize n ≠ "1MB" ∧
    ByteSize 1048524 = "1023.9KB" ∧ ByteSize 1048576 = "1MB" ∧
    1024 * KILOBYTE = 1 * MEGABYTE := by
  have h0 : n ≠ 0 := by omega
  have hu : unitOf n = "KB" ∧ unitBytes n = 1024 := by
    rcases unit_pairs n (by omega) with h | h | h | h
    · exact ⟨h.1, h.2.1⟩
    · omega
    · omega
    · omega
  have ht : tenths n = 10240 := by
    unfold tenths roundHalfEven
    rw [hu.2, ofUint64_small n (by omega)]
    have hq : n * 10 / 1024 = 10239 := by omega
    have hr : 2 * (n * 10 % 1024) > 1024 := by omega
    simp only [hq]
    rw [if_pos (Or.inl hr)]
  have e : ByteSize n = "1024KB" := by
    rw [ByteSize_eq n h0, ht, hu.1]
    decide
  refine ⟨e, ?_, by decide, by decide, by decide⟩
  rw [e]
  decide

theorem ByteSize_carry_keeps_unit_witness :
    1048525 ≤ 1048575 ∧ 1048575 ≤ 1048575 ∧ ByteSize 1048575 = "1024KB" ∧
      ByteSize 1048525 = "1024KB" :=
  ⟨by decide, by decide, (ByteSize_carry_keeps_unit 1048575 (by decide) (by decide)).1,
    (ByteSize_carry_keeps_unit 1048525 (by decide) (by decide)).1⟩

/-! ## Independence from the order of the entries -/

theorem foldl_append_singleton (l : List typeStats) :
    ∀ acc : List typeStats, l.foldl (fun ss s => ss ++ [s]) acc = acc ++ l := by
  induction l with
  | nil => intro acc; simp
  | cons x xs ih => intro acc; rw [List.foldl_cons, ih]; simp

/-- The tabular renderer returns the text of the flushed writer and no
error; the report enters only through its metadata, its sorted entries and
its offset. -/
theorem Format_eq_written (sortSlice : SortSlice) (info : OutputFormat) :
    prettyFormatter.Format sortSlice info =
      (String.mk
        (written info.Meta (sortSlice info.Stats sumGreater) info.Offset).flushNoDefers.output,
        none) := by
  unfold prettyFormatter.Format written
  simp only [tabwriter.Writer.Flush, foldl_append_singleton, List.nil_append]

/-- With pairwise distinct sizes, `sort.Slice` returns the same slice for
every order of the entries. -/
theorem sortSlice_perm (sortSlice : SortSlice) (hs : sortSlice.Sorts sumGreater)
    (l1 l2 : List typeStats) (hp : l1.Perm l2)
    (hd : l2.Pairwise (fun a b => a.Sum ≠ b.Sum)) :
    sortSlice l1 sumGreater = sortSlice l2 sumGreater := by
  obtain ⟨p1, s1⟩ := hs l1
  obtain ⟨p2, s2⟩ := hs l2
  have hge1 : (sortSlice l1 sumGreater).Pairwise (fun a b => a.Sum ≥ b.Sum) :=
    s1.imp (fun {a b} h => (sumGreater_false_iff a b).1 h)
  have hge2 : (sortSlice l2 sumGreater).Pairwise (fun a b => a.Sum ≥ b.Sum) :=
    s2.imp (fun {a b} h => (sumGreater_false_iff a b).1 h)
  have hne2 : (sortSlice l2 sumGreater).Pairwise (fun a b => a.Sum ≠ b.Sum) :=
    (p2.pairwise_iff (fun {a b} (h : a.Sum ≠ b.Sum) => h.symm)).2 hd
  have hgt2 : (sortSlice l2 sumGreater).Pairwise (fun a b => a.Sum > b.Sum) :=
    (hge2.and hne2).imp (fun h => by
      obtain ⟨ha, hb⟩ := h
      omega)
  exact sorted_perm_unique _ _ (p1.trans (hp.trans p2.symm)) hge1 hgt2

/-- Claim C15. The tabular output does not depend on the order in which the
`Stats` container yields its entries: for any two reports that agree on
`Meta` and `Offset` and whose `Stats` entries are permutations of each
other, with pairwise distinct `Sum`s, `prettyFormatter.Format` returns the
same string (and the same nil error), for every `sort.Slice` that meets its
contract; and two calls on the same report return the same string. -/
theorem Format_order_independent (sortSlice : SortSlice) (hs : sortSlice.Sorts sumGreater)
    (info info' : OutputFormat) (hMeta : info'.Meta = info.Meta)
    (hOffset : info'.Offset = info.Offset) (hperm : info'.Stats.Perm info.Stats)
    (hdistinct : info.Stats.Pairwise (fun a b => a.Sum ≠ b.Sum)) :
    prettyFormatter.Format sortSlice info' = prettyFormatter.Format sortSlice info ∧
    (prettyFormatter.Format sortSlice info').1 = (prettyFormatter.Format sortSlice info).1 ∧
    (prettyFormatter.Format sortSlice info).1 = (prettyFormatter.Format sortSlice info).1 := by
  have e : prettyFormatter.Format sortSlice info' = prettyFormatter.Format sortSlice info := by
    rw [Format_eq_written, Format_eq_written, hMeta, hOffset,
      sortSlice_perm sortSlice hs _ _ hperm hdistinct]
  exact ⟨e, by rw [e], rfl⟩

set_option maxRecDepth 100000 in
theorem Format_order_independent_witness :
    insertionSortSlice.Sorts sumGreater ∧ reportCAB.Meta = reportABC.Meta ∧
    reportCAB.Offset = reportABC.Offset ∧ reportCAB.Stats.Perm reportABC.Stats ∧
    reportABC.Stats.Pairwise (fun a b => a.Sum ≠ b.Sum) ∧
    reportCAB.Stats ≠ reportABC.Stats ∧
    (prettyFormatter.Format insertionSortSlice reportCAB).1 =
      (prettyFormatter.Format insertionSortSlice reportABC).1 :=
  ⟨insertionSortSlice_sorts, rfl, rfl, by decide, by decide, by decide,
    (Format_order_independent insertionSortSlice insertionSortSlice_sorts reportABC reportCAB
      rfl rfl (by decide) (by decide)).2.1⟩

/-! ## The last line of the output -/

namespace tabwriter

/-- Two last elements on which `p` is true end the last block. -/
theorem blocks_concat_true_true {α : Type} (p : α → Bool) (d t : α)
    (hd : p d = true) (ht : p t = true) :
    ∀ l : List α, ∃ (bs : List (Bool × List α)) (seg : List α),
      blocks p (l ++ [d, t]) = bs ++ [(true, seg ++ [d, t])] := by
  intro l
  induction l with
  | nil => exact ⟨[], [], by simp [blocks, hd, ht]⟩
  | cons x xs ih =>
    obtain ⟨bs, seg, e⟩ := ih
    rw [List.cons_append, blocks_cons, e]
    cases bs with
    | nil =>
      simp only [List.nil_append]
      by_cases hx : true = p x
      · exact ⟨[], x :: seg, by simp [hx]⟩
      · exact ⟨[(p x, [x])], seg, by simp [hx]⟩
    | cons b0 bs' =>
      obtain ⟨b, s⟩ := b0
      simp only [List.cons_append]
      by_cases hx : b = p x
      · exact ⟨(b, x :: s) :: bs', seg, by simp [hx]⟩
      · exact ⟨(p x, [x]) :: (b, s) :: bs', seg, by simp [hx]⟩

/-- A last element on which `p` is false, after one on which it is true, is
a block of its own. -/
theorem blocks_concat_true_false {α : Type} (p : α → Bool) (d t : α)
    (hd : p d = true) (ht : p t = false) :
    ∀ l : List α, ∃ (bs : List (Bool × List α)) (seg : List α),
      blocks p (l ++ [d, t]) = bs ++ [(true, seg ++ [d]), (false, [t])] := by
  intro l
  induction l with
  | nil => exact ⟨[], [], by simp [blocks, hd, ht]⟩
  | cons x xs ih =>
    obtain ⟨bs, seg, e⟩ := ih
    rw [List.cons_append, blocks_cons, e]
    cases bs with
    | nil =>
      simp only [List.nil_append]
      by_cases hx : true = p x
      · exact ⟨[], x :: seg, by simp [hx]⟩
      · exact ⟨[(p x, [x])], seg, by simp [hx]⟩
    | cons b0 bs' =>
      obtain ⟨b, s⟩ := b0
      simp only [List.cons_append]
      by_cases hx : b = p x
      · exact ⟨(b, x :: s) :: bs', seg, by simp [hx]⟩
      · exact ⟨(p x, [x]) :: (b, s) :: bs', seg, by simp [hx]⟩

/-- When the last two lines have a cell in the column, the text ends with
the text of the column block that they end. -/
theorem formatLines_descend (minwidth padding : Nat) (padchar : Char) (fuel : Nat)
    (widths : List Nat) (L : List Line) (d t : Line)
    (hd : widths.length + 1 < d.length) (ht : widths.length + 1 < t.length) :
    ∃ (ys : List (List Char)) (seg : List Line) (w : Nat),
      formatLines minwidth padding padchar (fuel + 1) widths (L ++ [d, t]) =
        ys ++ formatLines minwidth padding padchar fuel (widths ++ [w]) (seg ++ [d, t]) := by
  obtain ⟨bs, seg, e⟩ := blocks_concat_true_true
    (fun line : Line => decide (widths.length + 1 < line.length)) d t
    (by simpa using hd) (by simpa using ht) L
  rw [formatLines]
  simp only []
  rw [e]
  refine ⟨(bs.map (fun seg : Bool × List Line =>
      if seg.1 then
        formatLines minwidth padding padchar fuel
          (widths ++ [columnWidth minwidth padding widths.length seg.2]) seg.2
      else seg.2.map (writeCells padchar widths))).flatten,
    seg, columnWidth minwidth padding widths.length (seg ++ [d, t]), ?_⟩
  simp only [List.map_append, List.flatten_append, List.map_cons, List.map_nil,
    List.flatten_cons, List.flatten_nil, List.append_nil, if_true]

/-- When the last line has no cell in the column and the line before it has
one, the last line is written with the widths known so far. -/
theorem formatLines_last (minwidth padding : Nat) (padchar : Char) (fuel : Nat)
    (widths : List Nat) (L : List Line) (d t : Line)
    (hd : widths.length + 1 < d.length) (ht : ¬ widths.length + 1 < t.length) :
    ∃ ys : List (List Char),
      formatLines minwidth padding padchar fuel widths (L ++ [d, t]) =
        ys ++ [writeCells padchar widths t] := by
  cases fuel with
  | zero =>
    refine ⟨(L ++ [d]).map (writeCells padchar widths), ?_⟩
    simp [formatLines]
  | succ f =>
    obtain ⟨bs, seg, e⟩ := blocks_concat_true_false
      (fun line : Line => decide (widths.length + 1 < line.length)) d t
      (by simpa using hd) (by simpa using ht) L
    rw [formatLines]
    simp only []
    rw [e]
    refine ⟨(bs.map (fun seg : Bool × List Line =>
        if seg.1 then
          formatLines minwidth padding padchar f
            (widths ++ [columnWidth minwidth padding widths.length seg.2]) seg.2
        else seg.2.map (writeCells padchar widths))).flatten ++
      formatLines minwidth padding padchar f
        (widths ++ [columnWidth minwidth padding widths.length (seg ++ [d])]) (seg ++ [d]), ?_⟩
    simp only [List.map_append, List.flatten_append, List.map_cons, List.map_nil,
      List.flatten_cons, List.flatten_nil, List.append_nil, if_true, Bool.false_eq_true,
      if_false, List.append_assoc]

/-- The text written for buffered lines that end with a four-cell line and a
three-cell line: the last line is written with the widths of two columns. -/
theorem formatLines_last_three (minwidth padding : Nat) (padchar : Char)
    (L : List Line) (d t : Line) (hd : d.length = 4) (ht : t.length = 3) :
    ∃ (ys : List (List Char)) (w0 w1 : Nat), ys ≠ [] ∧
      formatLines minwidth padding padchar (maxCells (L ++ [d, t])) [] (L ++ [d, t]) =
        ys ++ [writeCells padchar [w0, w1] t] := by
  have hfuel : 4 ≤ maxCells (L ++ [d, t]) := by
    have := (le_foldl_max (L ++ [d, t]) 0).2 d (by simp)
    unfold maxCells
    omega
  obtain ⟨k, hk⟩ : ∃ k, maxCells (L ++ [d, t]) = k + 1 + 1 := ⟨maxCells (L ++ [d, t]) - 2, by omega⟩
  rw [hk]
  obtain ⟨ys0, seg0, w0, e0⟩ := formatLines_descend minwidth padding padchar (k + 1) [] L d t
    (by simp [hd]) (by simp [ht])
  obtain ⟨ys1, seg1, w1, e1⟩ := formatLines_descend minwidth padding padchar k [w0] seg0 d t
    (by simp [hd]) (by simp [ht])
  obtain ⟨ys2, e2⟩ := formatLines_last minwidth padding padchar k [w0, w1] seg1 d t
    (by simp [hd]) (by simp [ht])
  have e1' : formatLines minwidth padding padchar (k + 1) ([] ++ [w0]) (seg0 ++ [d, t]) =
      ys1 ++ (ys2 ++ [writeCells padchar [w0, w1] t]) := by
    rw [← e2]; exact e1
  refine ⟨ys0 ++ (ys1 ++ ys2), w0, w1, ?_, ?_⟩
  · intro h
    have hlen := formatLines_length minwidth padding padchar (k + 1 + 1) [] (L ++ [d, t])
    rw [e0, e1'] at hlen
    simp only [List.append_eq_nil] at h
    rw [h.1, h.2.1, h.2.2] at hlen
    simp at hlen
  · rw [e0, e1']
    simp

theorem joinLines_concat (t : List Char) :
    ∀ ys : List (List Char), ys ≠ [] → joinLines (ys ++ [t]) = joinLines ys ++ '\n' :: t := by
  intro ys
  induction ys with
  | nil => intro h; exact absurd rfl h
  | cons a ys ih =>
    intro _
    cases ys with
    | nil => simp [joinLines]
    | cons b r =>
      have := ih (by simp)
      rw [List.cons_append] at this
      rw [List.cons_append, List.cons_append, joinLines_cons_cons, this, joinLines_cons_cons]
      simp

end tabwriter

theorem Write_params (b : tabwriter.Writer) (s : String) : (b.Write s).params = b.params := by
  rw [tabwriter.Write_data, tabwriter.foldl_writeByte_params]

theorem foldl_Write_params {α : Type} (f : α → String) (l : List α) :
    ∀ b : tabwriter.Writer, (l.foldl (fun tw s => tw.Write (f s)) b).params = b.params := by
  induction l with
  | nil => intro b; rfl
  | cons x xs ih => intro b; rw [List.foldl_cons, ih, Write_params]

/-- Whatever was written before, the closing separator line and the Total
line are the last two buffered lines at the flush, and the text written by
the flush ends with the Total line, its size field not padded. -/
theorem closing_written (b : tabwriter.Writer) (hp : b.params = (8, 8, 6, ' '))
    (offset : Int) :
    ∃ (P : List Char) (w0 w1 : Nat),
      ((b.Write ("\n " ++ "----" ++ "\t" ++ "----" ++ "\t" ++ "----" ++ "\t")).Write
        ("\n Total\t\t" ++ ByteSize (uint64 offset) ++ "\t")).flushNoDefers.output =
      P ++ '\n' :: totalLine w0 w1 (ByteSize (uint64 offset)) := by
  obtain ⟨pT, pC, pS, pD0, pD, pTot⟩ := plain_literals
  have hs1 := tabwriter.writeByte_newline_atLineStart b
  have hp1 : (b.writeByte '\n').params = (8, 8, 6, ' ') := by
    rw [tabwriter.writeByte_params, hp]
  have h1 : b.Write ("\n " ++ "----" ++ "\t" ++ "----" ++ "\t" ++ "----" ++ "\t") =
      { b.writeByte '\n' with line := dashCells, cell := [] } := by
    rw [tabwriter.Write_data, dashRowString_data, List.foldl_cons,
      tabwriter.write_cells3 _ _ _ _ pD0 pD pD, hs1.1, hs1.2]
    rfl
  rw [h1]
  generalize b.writeByte '\n' = b1 at hs1 hp1
  obtain ⟨mw, tw, pd, pc, out, lines, line, cell⟩ := b1
  simp only [tabwriter.Writer.params, Prod.mk.injEq] at hp1
  obtain ⟨rfl, rfl, rfl, rfl⟩ := hp1
  have h2 : tabwriter.Writer.Write ⟨8, 8, 6, ' ', out, lines, dashCells, []⟩
        ("\n Total\t\t" ++ ByteSize (uint64 offset) ++ "\t") =
      ⟨8, 8, 6, ' ', out, lines ++ [dashCells ++ [[]]], totalCells offset, []⟩ := by
    rw [tabwriter.Write_data, totalString_data,
      tabwriter.write_row _ _ _ _ (by simp [dashCells]) rfl pTot (by simp) (plain_ByteSize _)]
    simp [totalCells]
  rw [h2]
  unfold tabwriter.Writer.flushNoDefers tabwriter.Writer.format
  simp only [List.length_nil, gt_iff_lt, Nat.lt_irrefl, if_false]
  obtain ⟨ys, w0, w1, hys, e⟩ := tabwriter.formatLines_last_three 8 6 ' ' lines
    (dashCells ++ [[]]) (totalCells offset) (by simp [dashCells]) (by simp [totalCells])
  have hall : lines ++ [dashCells ++ [[]]] ++ [totalCells offset] =
      lines ++ [dashCells ++ [[]], totalCells offset] := by simp
  rw [hall, e, tabwriter.joinLines_concat _ ys hys]
  refine ⟨out ++ tabwriter.joinLines ys, w0, w1, ?_⟩
  have ht : tabwriter.writeCells ' ' [w0, w1] (totalCells offset) =
      totalLine w0 w1 (ByteSize (uint64 offset)) := by
    have e3 : " Total".data = ' ' :: "Total".data := rfl
    unfold totalCells totalLine
    rw [e3]
    simp only [tabwriter.writeCells, padCell, List.append_nil, List.append_assoc]
  rw [ht]
  simp

/-- The text of the tabular renderer ends, for every report, with a newline
and the Total line. -/
theorem Format_last_line (sortSlice : SortSlice) (info : OutputFormat) :
    ∃ (P : List Char) (w0 w1 : Nat),
      (prettyFormatter.Format sortSlice info).1.data =
        P ++ '\n' :: totalLine w0 w1 (ByteSize (uint64 info.Offset)) := by
  rw [Format_eq_written]
  unfold written
  simp only []
  apply closing_written
  rw [foldl_Write_params, Write_params, Write_params, Write_params, Write_params, Write_params,
    Write_params, Write_params, Write_params]
  rfl

/-- The lines of the text of the tabular renderer end, for every report,
with the Total line. -/
theorem Format_lines_last (sortSlice : SortSlice) (info : OutputFormat) :
    ∃ (head : List (List Char)) (w0 w1 : Nat),
      splitLines (prettyFormatter.Format sortSlice info).1.data =
        head ++ [totalLine w0 w1 (ByteSize (uint64 info.Offset))] := by
  obtain ⟨P, w0, w1, e⟩ := Format_last_line sortSlice info
  refine ⟨splitLines P, w0, w1, ?_⟩
  rw [e, splitLines_append_newline,
    splitLines_line _ (newline_not_mem_totalLine _ _ _ (plain_ByteSize _))]

/-! ## The widths of the columns -/

theorem foldl_max_ge {α : Type} (cells : List (List α)) :
    ∀ m : Nat, m ≤ cells.foldl (fun m c => max m c.length) m := by
  induction cells with
  | nil => intro m; exact Nat.le_refl _
  | cons c cs ih =>
    intro m
    rw [List.foldl_cons]
    exact Nat.le_trans (Nat.le_max_left _ _) (ih _)

/-- The width that the tabwriter computes for a column block, as a maximum:
`minwidth`, or `padding` plus the length of the longest cell of the column. -/
theorem columnWidth_foldl (padding column : Nat) (lines : List tabwriter.Line) :
    ∀ w m : Nat, padding + m ≤ w →
      lines.foldl
          (fun width line =>
            let w := (line.getD column []).length + padding
            if w > width then w else width)
          w =
        max w (padding + (lines.map (fun l => l.getD column [])).foldl
          (fun m c => max m c.length) m) := by
  induction lines with
  | nil =>
    intro w m h
    simp only [List.foldl_nil, List.map_nil]
    omega
  | cons l ls ih =>
    intro w m h
    simp only [List.foldl_cons, List.map_cons]
    have hge := foldl_max_ge (ls.map (fun l => l.getD column [])) (max m (l.getD column []).length)
    split
    · rename_i hgt
      rw [ih _ (max m (l.getD column []).length) (by omega)]
      omega
    · rename_i hgt
      rw [ih _ (max m (l.getD column []).length) (by omega)]

theorem columnWidth_eq (column : Nat) (lines : List tabwriter.Line) :
    tabwriter.columnWidth 8 6 column lines =
      max 8 (6 + longest (lines.map (fun l => l.getD column []))) := by
  unfold tabwriter.columnWidth longest
  exact columnWidth_foldl 6 column lines 8 0 (by decide)

/-- The widths of the three columns of the table: eight, or six more than
the longest cell of the column; the third column does not count the size of
the Total line. -/
theorem tableWidths_eq (ss : List typeStats) (offset : Int) :
    tableWidths ss offset =
      (max 8 (6 + longest (" Type".data :: " ----".data ::
          (ss.map (fun s => ' ' :: s.Name.data) ++ [" ----".data, " Total".data]))),
       max 8 (6 + longest ("Count".data :: "----".data ::
          (ss.map (fun s => (toString s.Count).data) ++ ["----".data, []]))),
       max 8 (6 + longest ("Size".data :: "----".data ::
          (ss.map (fun s => (ByteSize (uint64 s.Sum)).data) ++ ["----".data])))) := by
  unfold tableWidths tableBuffer
  rw [columnWidth_eq, columnWidth_eq, columnWidth_eq]
  simp [headerCells, dashCells, rowCells, totalCells, List.map_map, Function.comp_def]

theorem longest_perm (l1 l2 : List (List Char)) (h : l1.Perm l2) : longest l1 = longest l2 := by
  unfold longest
  apply List.Perm.foldl_eq' h
  intro x _ y _ z
  omega

/-! ## The renderer does not fail; the Total line -/

theorem totalLine_eq (w0 w1 : Nat) (size : String) :
    totalLine w0 w1 size =
      " Total".data ++ List.replicate (w0 - 6 + w1) ' ' ++ size.data := by
  have e3 : " Total".data = ' ' :: "Total".data := rfl
  have e6 : (' ' :: "Total".data).length = 6 := rfl
  unfold totalLine padCell
  rw [e3, e6]
  simp only [List.replicate_add, List.nil_append, List.length_nil, Nat.sub_zero,
    List.append_assoc]

theorem getLast?_append_two {α : Type} (a b : α) :
    ∀ xs : List α, (xs ++ [a, b]).getLast? = some b := by
  intro xs
  rw [List.append_cons, List.getLast?_concat]

theorem getLast?_tableLines (w0 w1 w2 : Nat) (ss : List typeStats) (offset : Int)
    (head : List (List Char)) :
    (head ++ tableLines w0 w1 w2 ss offset).getLast? =
      some (totalLine w0 w1 (ByteSize (uint64 offset))) := by
  unfold tableLines
  rw [← List.append_assoc]
  exact getLast?_append_two _ _ _

/-- The widths of the first two columns of the table depend only on the
names and the counts of the entries, not on their order or their sizes. -/
theorem tableWidths_perm (ss ss' : List typeStats) (offset offset' : Int)
    (h : (ss'.map (fun s => (s.Name, s.Count))).Perm (ss.map (fun s => (s.Name, s.Count)))) :
    (tableWidths ss' offset').1 = (tableWidths ss offset).1 ∧
    (tableWidths ss' offset').2.1 = (tableWidths ss offset).2.1 := by
  rw [tableWidths_eq, tableWidths_eq]
  simp only []
  have hn : (ss'.map (fun s => ' ' :: s.Name.data)).Perm (ss.map (fun s => ' ' :: s.Name.data)) := by
    have := h.map (fun p : String × Int => ' ' :: p.1.data)
    simpa [List.map_map, Function.comp_def] using this
  have hc : (ss'.map (fun s => (toString s.Count).data)).Perm
      (ss.map (fun s => (toString s.Count).data)) := by
    have := h.map (fun p : String × Int => (toString p.2).data)
    simpa [List.map_map, Function.comp_def] using this
  constructor
  · rw [longest_perm _ _ (((hn.append_right _).cons _).cons _)]
  · rw [longest_perm _ _ (((hc.append_right _).cons _).cons _)]

theorem meta_literals :
    " ID".data = [' ', 'I', 'D'] ∧ " Size".data = [' ', 'S', 'i', 'z', 'e'] ∧
    " Index".data = [' ', 'I', 'n', 'd', 'e', 'x'] ∧ " Term".data = [' ', 'T', 'e', 'r', 'm'] ∧
    " Version".data = [' ', 'V', 'e', 'r', 's', 'i', 'o', 'n'] ∧
    "ID".data = ['I', 'D'] ∧ "Size".data = ['S', 'i', 'z', 'e'] ∧
    "Index".data = ['I', 'n', 'd', 'e', 'x'] ∧ "Term".data = ['T', 'e', 'r', 'm'] ∧
    "Version".data = ['V', 'e', 'r', 's', 'i', 'o', 'n'] :=
  ⟨rfl, rfl, rfl, rfl, rfl, rfl, rfl, rfl, rfl, rfl⟩

/-- The text written for the metadata block and the blank line: the labels
are a column of width 14, the values are not padded, the blank line and the
new last line are empty. -/
theorem formatLines_meta (md : MetadataInfo) :
    tabwriter.formatLines 8 6 ' ' (tabwriter.maxCells (metaCells md ++ [[[]], []])) []
        (metaCells md ++ [[[]], []]) =
      metaLines md ++ [[], []] := by
  obtain ⟨e1, e2, e3, e4, e5, f1, f2, f3, f4, f5⟩ := meta_literals
  have hfuel : tabwriter.maxCells (metaCells md ++ [[[]], []]) = 1 + 1 := by
    simp [tabwriter.maxCells, metaCells]
  rw [hfuel]
  unfold metaCells metaLines metaLine padCell
  rw [e1, e2, e3, e4, e5, f1, f2, f3, f4, f5]
  simp [tabwriter.formatLines, tabwriter.blocks, tabwriter.columnWidth, tabwriter.writeCells]

namespace tabwriter

/-- A newline, a label, a tab and a value after a line with cells: the line
is ended with the current cell, the label starts the next line and the
value is its current cell. -/
theorem write_label_value (b : Writer) (label value : List Char) (hl : b.line ≠ [])
    (h0 : ∀ ch ∈ label, isTerminator ch = false)
    (h1 : ∀ ch ∈ value, isTerminator ch = false) :
    ('\n' :: (label ++ '\t' :: value)).foldl Writer.writeByte b =
      { b with lines := b.lines ++ [b.line ++ [b.cell]], line := [label], cell := value } := by
  have hne : b.line.length + 1 ≠ 1 := by
    cases hb : b.line with
    | nil => exact absurd hb hl
    | cons x xs => simp
  rw [List.foldl_cons, writeByte_newline b hne, List.foldl_append,
    foldl_writeByte_plain label _ h0, List.foldl_cons, writeByte_tab,
    foldl_writeByte_plain value _ h1]
  simp

theorem joinLines_append :
    ∀ (xs ys : List (List Char)), xs ≠ [] → ys ≠ [] →
      joinLines (xs ++ ys) = joinLines xs ++ '\n' :: joinLines ys := by
  intro xs
  induction xs with
  | nil => intro ys h; exact absurd rfl h
  | cons a xs ih =>
    intro ys _ hys
    cases xs with
    | nil =>
      cases ys with
      | nil => exact absurd rfl hys
      | cons y ys => rfl
    | cons b r =>
      have := ih ys (by simp) hys
      rw [List.cons_append] at this
      rw [List.cons_append, List.cons_append, joinLines_cons_cons, this, joinLines_cons_cons]
      simp

end tabwriter

theorem metaString_data (label : String) (value : String) :
    ("\n" ++ label ++ "\t" ++ value).data = '\n' :: (label.data ++ '\t' :: value.data) := by
  have e1 : ("\n" : String).data = ['\n'] := rfl
  have e2 : ("\t" : String).data = ['\t'] := rfl
  simp [String.data_append, e1, e2]

theorem plain_labels :
    (∀ ch ∈ " ID".data, isTerminator ch = false) ∧
    (∀ ch ∈ " Size".data, isTerminator ch = false) ∧
    (∀ ch ∈ " Index".data, isTerminator ch = false) ∧
    (∀ ch ∈ " Term".data, isTerminator ch = false) ∧
    (∀ ch ∈ " Version".data, isTerminator ch = false) := by
  decide

/-- The writer after the metadata block and the newline that ends it, for
an identifier without tab or line break: the five lines are buffered. -/
theorem meta_written (md : MetadataInfo) (hID : plain md.ID) :
    ((((((tabwriter.NewWriter 8 8 6 ' ').Write (" ID\t" ++ md.ID)).Write
        ("\n Size\t" ++ toString md.Size)).Write
        ("\n Index\t" ++ toString md.Index)).Write
        ("\n Term\t" ++ toString md.Term)).Write
        ("\n Version\t" ++ toString md.Version)).Write "\n" =
      ⟨8, 8, 6, ' ', [], metaCells md, [], []⟩ := by
  obtain ⟨p1, p2, p3, p4, p5⟩ := plain_labels
  have w1 : (tabwriter.NewWriter 8 8 6 ' ').Write (" ID\t" ++ md.ID) =
      ⟨8, 8, 6, ' ', [], [], [" ID".data], md.ID.data⟩ := by
    have e : (" ID\t" ++ md.ID).data = " ID".data ++ '\t' :: md.ID.data := by
      have e1 : (" ID\t" : String).data = " ID".data ++ ['\t'] := rfl
      simp [String.data_append, e1]
    rw [tabwriter.Write_data, e, List.foldl_append, tabwriter.foldl_writeByte_plain _ _ p1,
      List.foldl_cons, tabwriter.writeByte_tab, tabwriter.foldl_writeByte_plain _ _ hID]
    rfl
  have step : ∀ (L : List tabwriter.Line) (l : tabwriter.Line) (c : List Char)
      (label value : String), l ≠ [] →
      (∀ ch ∈ label.data, isTerminator ch = false) →
      (∀ ch ∈ value.data, isTerminator ch = false) →
      tabwriter.Writer.Write ⟨8, 8, 6, ' ', [], L, l, c⟩ ("\n" ++ label ++ "\t" ++ value) =
        ⟨8, 8, 6, ' ', [], L ++ [l ++ [c]], [label.data], value.data⟩ := by
    intro L l c label value hl h0 h1
    rw [tabwriter.Write_data, metaString_data,
      tabwriter.write_label_value _ _ _ hl h0 h1]
  have s2 : ("\n Size\t" ++ toString md.Size) = "\n" ++ " Size" ++ "\t" ++ toString md.Size := by
    apply String.ext; simp [String.data_append]
  have s3 : ("\n Index\t" ++ toString md.Index) =
      "\n" ++ " Index" ++ "\t" ++ toString md.Index := by
    apply String.ext; simp [String.data_append]
  have s4 : ("\n Term\t" ++ toString md.Term) = "\n" ++ " Term" ++ "\t" ++ toString md.Term := by
    apply String.ext; simp [String.data_append]
  have s5 : ("\n Version\t" ++ toString md.Version) =
      "\n" ++ " Version" ++ "\t" ++ toString md.Version := by
    apply String.ext; simp [String.data_append]
  rw [w1, s2, s3, s4, s5,
    step _ _ _ " Size" _ (by simp) p2 (plain_toString_int _),
    step _ _ _ " Index" _ (by simp) p3 (plain_toString_int _),
    step _ _ _ " Term" _ (by simp) p4 (plain_toString_int _),
    step _ _ _ " Version" _ (by simp) p5 (plain_toString_int _)]
  have hnl : ("\n" : String).data = ['\n'] := rfl
  rw [tabwriter.Write_data, hnl, List.foldl_cons, List.foldl_nil,
    tabwriter.writeByte_newline _ (by simp)]
  simp [metaCells]

/-- The blank line after the metadata block flushes the five lines of the
block and the blank line. -/
theorem meta_flushed (md : MetadataInfo) :
    tabwriter.Writer.writeByte ⟨8, 8, 6, ' ', [], metaCells md, [], []⟩ '\n' =
      ⟨8, 8, 6, ' ', tabwriter.joinLines (metaLines md ++ [[]]) ++ ['\n'], [], [], []⟩ := by
  have hb : tabwriter.Writer.writeByte ⟨8, 8, 6, ' ', [], metaCells md, [], []⟩ '\n' =
      tabwriter.Writer.flushNoDefers ⟨8, 8, 6, ' ', [], metaCells md ++ [[[]]], [], []⟩ := by
    unfold tabwriter.Writer.writeByte tabwriter.Writer.terminateCell tabwriter.Writer.addLine
    simp
  rw [hb]
  unfold tabwriter.Writer.flushNoDefers tabwriter.Writer.format
  simp only [List.length_nil, gt_iff_lt, Nat.lt_irrefl, if_false]
  have hall : metaCells md ++ [[[]]] ++ [[]] = metaCells md ++ [[[]], []] := by simp
  have hout : metaLines md ++ [[], []] = (metaLines md ++ [[]]) ++ [[]] := by simp
  rw [hall, formatLines_meta, hout, tabwriter.joinLines_concat_nil _ (by simp)]
  simp

/-- The formatted lines of the table. -/
theorem formatLines_tableBuffer (ss : List typeStats) (offset : Int) :
    tabwriter.formatLines 8 6 ' ' (tabwriter.maxCells (tableBuffer ss offset)) []
        (tableBuffer ss offset) =
      tableLines (tableWidths ss offset).1 (tableWidths ss offset).2.1
        (tableWidths ss offset).2.2 ss offset := by
  have hfmt := tabwriter.formatLines_table
    ((headerCells :: dashCells :: ss.map rowCells) ++ [dashCells])
    (totalCells offset) (by simp)
    (by
      intro a ha
      simp only [List.cons_append, List.mem_cons, List.mem_append, List.mem_map,
        List.mem_singleton, List.not_mem_nil, or_false] at ha
      rcases ha with rfl | rfl | ⟨s, -, rfl⟩ | rfl <;> rfl)
    rfl
  unfold tableWidths tableBuffer
  rw [hfmt, writeCells_table]

/-- The text of the tabular renderer, for an identifier and names without
tab or line break: the five lines of the metadata block, a blank line and
the lines of the table, joined by newlines. -/
theorem Format_plain (sortSlice : SortSlice) (info : OutputFormat) (hID : plain info.Meta.ID)
    (hplain : ∀ s ∈ sortSlice info.Stats sumGreater, plain s.Name) :
    (prettyFormatter.Format sortSlice info).1.data =
      tabwriter.joinLines (metaLines info.Meta ++ [[]] ++
        tableLines (tableWidths (sortSlice info.Stats sumGreater) info.Offset).1
          (tableWidths (sortSlice info.Stats sumGreater) info.Offset).2.1
          (tableWidths (sortSlice info.Stats sumGreater) info.Offset).2.2
          (sortSlice info.Stats sumGreater) info.Offset) := by
  rw [Format_eq_written]
  unfold written
  simp only []
  rw [meta_written info.Meta hID,
    table_written_from _ _ (meta_flushed info.Meta) _ hplain info.Offset,
    formatLines_tableBuffer]
  exact (tabwriter.joinLines_append (metaLines info.Meta ++ [[]]) _ (by simp)
    (by simp [tableLines])).symm

theorem newline_not_mem_metaLine (label value : String) (hl : plain label)
    (hv : plain value) : '\n' ∉ metaLine label value := by
  have hsp : ('\n' : Char) ≠ ' ' := by decide
  have hpl : ∀ c : String, plain c → '\n' ∉ c.data := by
    intro c hc hmem
    have := hc _ hmem
    revert this; decide
  intro h
  unfold metaLine at h
  rcases List.mem_append.1 h with h | h
  · rcases mem_padCell _ _ _ h with h | h
    · rcases List.mem_cons.1 h with h | h
      · exact hsp h
      · exact hpl label hl h
    · exact hsp h
  · exact hpl value hv h

theorem newline_not_mem_metaLines (md : MetadataInfo) (hID : plain md.ID) :
    ∀ l ∈ metaLines md, '\n' ∉ l := by
  intro l hl
  unfold metaLines at hl
  simp only [List.mem_cons, List.mem_singleton, List.not_mem_nil, or_false] at hl
  rcases hl with rfl | rfl | rfl | rfl | rfl
  · exact newline_not_mem_metaLine _ _ (by decide) hID
  · exact newline_not_mem_metaLine _ _ (by decide) (plain_toString_int _)
  · exact newline_not_mem_metaLine _ _ (by decide) (plain_toString_int _)
  · exact newline_not_mem_metaLine _ _ (by decide) (plain_toString_int _)
  · exact newline_not_mem_metaLine _ _ (by decide) (plain_toString_int _)

/-- The lines of the text of the tabular renderer, for an identifier and
names without tab or line break. -/
theorem Format_plain_lines (sortSlice : SortSlice) (info : OutputFormat)
    (hID : plain info.Meta.ID)
    (hplain : ∀ s ∈ sortSlice info.Stats sumGreater, plain s.Name) :
    splitLines (prettyFormatter.Format sortSlice info).1.data =
      metaLines info.Meta ++ [[]] ++
        tableLines (tableWidths (sortSlice info.Stats sumGreater) info.Offset).1
          (tableWidths (sortSlice info.Stats sumGreater) info.Offset).2.1
          (tableWidths (sortSlice info.Stats sumGreater) info.Offset).2.2
          (sortSlice info.Stats sumGreater) info.Offset := by
  rw [Format_plain sortSlice info hID hplain]
  apply splitLines_joinLines _ (by simp [metaLines])
  intro l hl
  rcases List.mem_append.1 hl with h | h
  · rcases List.mem_append.1 h with h | h
    · exact newline_not_mem_metaLines _ hID l h
    · simp at h
      rw [h]
      simp
  · exact newline_not_mem_tableLines _ _ _ _ _ hplain l h

/-! ## The sections of the output -/

theorem Format_no_trailing_newline (sortSlice : SortSlice) (info : OutputFormat) :
    (prettyFormatter.Format sortSlice info).1.data.getLast? ≠ some '\n' := by
  obtain ⟨P, w0, w1, e⟩ := Format_last_line sortSlice info
  have hne : totalLine w0 w1 (ByteSize (uint64 info.Offset)) ≠ [] := by
    rw [totalLine_eq]
    have e3 : " Total".data = ' ' :: "Total".data := rfl
    rw [e3]
    simp
  have hno := newline_not_mem_totalLine w0 w1 _ (plain_ByteSize (uint64 info.Offset))
  rw [e, List.append_cons, List.getLast?_append_of_ne_nil _ hne]
  intro h
  exact hno (List.mem_of_getLast?_eq_some h)

theorem length_le_longest (cells : List (List Char)) :
    ∀ c ∈ cells, c.length ≤ longest cells := by
  unfold longest
  suffices h : ∀ (cells : List (List Char)) (m : Nat), ∀ c ∈ cells,
      c.length ≤ cells.foldl (fun m c => max m c.length) m from h cells 0
  intro cells
  induction cells with
  | nil => intro m c hc; exact absurd hc (List.not_mem_nil c)
  | cons x xs ih =>
    intro m c hc
    rw [List.foldl_cons]
    rcases List.mem_cons.1 hc with rfl | hc
    · exact Nat.le_trans (Nat.le_max_right _ _) (foldl_max_ge xs _)
    · exact ih _ c hc

theorem padCell_length (w : Nat) (text : List Char) (h : text.length ≤ w) :
    (padCell w text).length = w := by
  unfold padCell
  simp only [List.length_append, List.length_replicate]
  omega

/-- A padded cell of a column of width eight, or six more than the longest
cell, is as long as the column is wide. -/
theorem padCell_column (cells : List (List Char)) :
    ∀ c ∈ cells, (padCell (max 8 (6 + longest cells)) c).length = max 8 (6 + longest cells) := by
  intro c hc
  apply padCell_length
  have := length_le_longest cells c hc
  omega

theorem tableLine_getLast (w0 w1 w2 : Nat) (c0 c1 c2 : String) (h : c2.data.length < w2) :
    (tableLine w0 w1 w2 c0 c1 c2).getLast? = some ' ' := by
  obtain ⟨k, hk⟩ : ∃ k, w2 - c2.data.length = k + 1 := ⟨w2 - c2.data.length - 1, by omega⟩
  unfold tableLine
  have e : padCell w2 c2.data = (c2.data ++ List.replicate k ' ') ++ [' '] := by
    unfold padCell
    rw [hk, List.replicate_succ', List.append_assoc]
  rw [e, ← List.append_assoc, List.getLast?_concat]

namespace json

theorem skipSpace_append (ws cs : List Char) (h : ∀ c ∈ ws, isSpace c = true) :
    skipSpace (ws ++ cs) = skipSpace cs := by
  induction ws with
  | nil => rfl
  | cons w ws ih =>
    unfold skipSpace
    rw [List.cons_append, List.dropWhile_cons_of_pos (h w (List.mem_cons_self _ _))]
    exact ih (fun c hc => h c (List.mem_cons_of_mem _ hc))

theorem skipSpace_cons (c : Char) (cs : List Char) (h : isSpace c = false) :
    skipSpace (c :: cs) = c :: cs := by
  unfold skipSpace
  rw [List.dropWhile_cons_of_neg (by simp [h])]

theorem hexValue_hex (k : Nat) (h : k < 16) : hexValue (hex k) = some k := by
  interval_cases k <;> decide

theorem getu4_hex (a b c d : Nat) (ha : a < 16) (hb : b < 16) (hc : c < 16) (hd : d < 16)
    (rest : List Char) :
    getu4 (hex a :: hex b :: hex c :: hex d :: rest) =
      some (((a * 16 + b) * 16 + c) * 16 + d, rest) := by
  simp [getu4, hexValue_hex, ha, hb, hc, hd]

theorem toNat_ne (c d : Char) (h : c.toNat ≠ d.toNat) : c ≠ d := by
  intro e; exact h (by rw [e])

theorem unquote_cons (fuel : Nat) (c : Char) (cs : List Char) :
    unquote (fuel + 1) (c :: cs) =
      if c = '"' then some ([], cs)
      else if c = '\\' then
        match cs with
        | [] => none
        | e :: cs1 =>
          if e = 'u' then
            match getu4 cs1 with
            | none => none
            | some (rr, cs2) =>
              if 0xD800 ≤ rr ∧ rr < 0xE000 then
                match lowSurrogate rr cs2 with
                | some (ch, cs3) => (unquote fuel cs3).map (fun p => (ch :: p.1, p.2))
                | none => (unquote fuel cs2).map (fun p => (Char.ofNat 0xFFFD :: p.1, p.2))
              else (unquote fuel cs2).map (fun p => (Char.ofNat rr :: p.1, p.2))
          else
            match unescape e with
            | none => none
            | some d => (unquote fuel cs1).map (fun p => (d :: p.1, p.2))
      else if c.toNat < 0x20 then none
      else (unquote fuel cs).map (fun p => (c :: p.1, p.2)) := rfl

/-- Reading back what the encoder writes for one character. -/
theorem unquote_escape_one (fuel : Nat) (c : Char) (tail : List Char) :
    unquote (fuel + 1) (escape c ++ tail) =
      (unquote fuel tail).map (fun p => (c :: p.1, p.2)) := by
  unfold escape
  by_cases h80 : c.toNat < 0x80
  · rw [if_pos h80]
    by_cases hs : htmlSafe c = true
    · rw [if_pos hs]
      unfold htmlSafe at hs
      simp only [Bool.and_eq_true, decide_eq_true_eq, bne_iff_ne, ne_eq] at hs
      obtain ⟨⟨⟨⟨⟨h20, hq⟩, hb⟩, _⟩, _⟩, _⟩ := hs
      rw [List.singleton_append, unquote_cons, if_neg hq, if_neg hb, if_neg (by omega)]
    · rw [if_neg hs]
      by_cases hbq : c = '\\' ∨ c = '"'
      · rw [if_pos hbq]
        rcases hbq with h | h <;> subst h <;> simp [unquote, unescape]
      · rw [if_neg hbq]
        by_cases hn : c = '\n'
        · subst hn; simp [unquote, unescape]
        · rw [if_neg hn]
          by_cases hr : c = '\r'
          · subst hr; simp [unquote, unescape]
          · rw [if_neg hr]
            by_cases ht : c = '\t'
            · subst ht; simp [unquote, unescape]
            · rw [if_neg ht]
              have e0 : ('0' : Char) = hex 0 := by decide
              have hg := getu4_hex 0 0 (c.toNat / 16) (c.toNat % 16) (by decide) (by decide)
                (by omega) (by omega) tail
              have hv : ((0 * 16 + 0) * 16 + c.toNat / 16) * 16 + c.toNat % 16 = c.toNat := by
                omega
              rw [hv, ← e0] at hg
              simp only [List.cons_append, List.nil_append]
              rw [unquote_cons, if_neg (by decide), if_pos rfl]
              simp only []
              rw [if_pos trivial, hg]
              simp only []
              rw [if_neg (by omega), Char.ofNat_toNat]
  · rw [if_neg h80]
    by_cases hl : c.toNat = 0x2028 ∨ c.toNat = 0x2029
    · rw [if_pos hl]
      have e0 : ('0' : Char) = hex 0 := by decide
      have e2 : ('2' : Char) = hex 2 := by decide
      have hg := getu4_hex 2 0 2 (c.toNat % 16) (by decide) (by decide)
        (by decide) (by omega) tail
      have hv : ((2 * 16 + 0) * 16 + 2) * 16 + c.toNat % 16 = c.toNat := by
        omega
      rw [hv, ← e0, ← e2] at hg
      simp only [List.cons_append, List.nil_append]
      rw [unquote_cons, if_neg (by decide), if_pos rfl]
      simp only []
      rw [if_pos trivial, hg]
      simp only []
      rw [if_neg (by omega), Char.ofNat_toNat]
    · rw [if_neg hl]
      have hq : c ≠ '"' := toNat_ne _ _ (by
        have : ('"' : Char).toNat = 34 := by decide
        omega)
      have hb : c ≠ '\\' := toNat_ne _ _ (by
        have : ('\\' : Char).toNat = 92 := by decide
        omega)
      rw [List.singleton_append, unquote_cons, if_neg hq, if_neg hb, if_neg (by omega)]

/-- Reading back an encoded string: the decoder returns the characters of
the string and the text after the closing quote. -/
theorem unquote_escape (s : List Char) : ∀ (fuel : Nat) (rest : List Char), s.length < fuel →
    unquote fuel ((s.map escape).flatten ++ '"' :: rest) = some (s, rest) := by
  induction s with
  | nil =>
    intro fuel rest h
    obtain ⟨f, rfl⟩ : ∃ f, fuel = f + 1 := ⟨fuel - 1, by simp at h; omega⟩
    simp [unquote]
  | cons c s ih =>
    intro fuel rest h
    obtain ⟨f, rfl⟩ : ∃ f, fuel = f + 1 := ⟨fuel - 1, by simp at h; omega⟩
    rw [List.map_cons, List.flatten_cons, List.append_assoc, unquote_escape_one,
      ih f rest (by simp at h; omega)]
    rfl

theorem escape_ne_nil (c : Char) : 1 ≤ (escape c).length := by
  unfold escape
  split_ifs <;> simp

theorem length_le_escape (s : List Char) : s.length ≤ ((s.map escape).flatten).length := by
  induction s with
  | nil => simp
  | cons c s ih =>
    have := escape_ne_nil c
    simp only [List.map_cons, List.flatten_cons, List.length_append, List.length_cons]
    omega

/-- The decoder on the text after the opening quote of an encoded string,
with the length of that text as fuel. -/
theorem unquote_quote (s : String) (rest : List Char) :
    ∃ body, quote s ++ rest = '"' :: body ∧ unquote body.length body = some (s.data, rest) := by
  refine ⟨(s.data.map escape).flatten ++ '"' :: rest, by simp [quote], ?_⟩
  apply unquote_escape
  have := length_le_escape s.data
  simp only [List.length_append, List.length_cons]
  omega

end json

namespace json

theorem toDigitsCore_head (fuel : Nat) : ∀ (n : Nat) (ds : List Char), n < fuel → 0 < n →
    (Nat.toDigitsCore 10 fuel n ds).head? ≠ some '0' := by
  induction fuel with
  | zero => intro n ds h; exact absurd h (Nat.not_lt_zero _)
  | succ f ih =>
    intro n ds hn hpos
    simp only [Nat.toDigitsCore]
    split
    · rename_i h0
      have hlt : n < 10 := by omega
      have hmod : n % 10 = n := Nat.mod_eq_of_lt hlt
      simp only [List.head?_cons, ne_eq, Option.some.injEq]
      rw [hmod, digitChar_eq_zero n hlt]
      omega
    · rename_i h0
      exact ih (n / 10) _ (by omega) (by omega)

/-- A decimal numeral has no superfluous leading zero. -/
theorem repr_leading (n : Nat) :
    ¬ ((toString n).data.head? = some '0' ∧ 1 < (toString n).data.length) := by
  rintro ⟨h0, hl⟩
  rcases Nat.eq_zero_or_pos n with h | h
  · subst h
    revert hl
    decide
  · rw [repr_data] at h0
    exact toDigitsCore_head (n + 1) n [] (by omega) h h0

theorem takeWhile_isDigit (ds rest : List Char) (h : ∀ c ∈ ds, c.isDigit = true)
    (hr : endsNumber rest = true) :
    (ds ++ rest).takeWhile Char.isDigit = ds ∧ (ds ++ rest).dropWhile Char.isDigit = rest := by
  induction ds with
  | nil =>
    cases rest with
    | nil => simp
    | cons r rest =>
      have hr2 : r.isDigit = false := by
        unfold endsNumber at hr
        simp only [List.head?_cons, Bool.not_eq_true', Bool.or_eq_false_iff] at hr
        exact hr.1.1.1
      simp [hr2]
  | cons d ds ih =>
    have hd := h d (List.mem_cons_self _ _)
    obtain ⟨h1, h2⟩ := ih (fun c hc => h c (List.mem_cons_of_mem _ hc))
    rw [List.cons_append, List.takeWhile_cons_of_pos hd, List.dropWhile_cons_of_pos hd, h1, h2]
    exact ⟨rfl, rfl⟩

theorem endsNumber_head (rest : List Char) (hr : endsNumber rest = true) :
    ¬ (rest.head? = some '.' ∨ rest.head? = some 'e' ∨ rest.head? = some 'E') := by
  cases rest with
  | nil => simp
  | cons r rest =>
    unfold endsNumber at hr
    simp only [List.head?_cons, Bool.not_eq_true', Bool.or_eq_false_iff, beq_eq_false_iff_ne,
      ne_eq] at hr
    simp only [List.head?_cons, Option.some.injEq]
    tauto

theorem parseNumber_nat (m : Nat) (rest : List Char) (hr : endsNumber rest = true) :
    parseNumber ((toString m).data ++ rest) = some ((m : Int), rest) := by
  obtain ⟨d, ds, hds⟩ : ∃ d ds, (toString m).data = d :: ds := by
    cases h : (toString m).data with
    | nil => exact absurd h (repr_ne_nil m)
    | cons d ds => exact ⟨d, ds, rfl⟩
  have hdig := repr_isDigit m
  have hd : d ≠ '-' := isDigit_ne d '-' (hdig d (by rw [hds]; exact List.mem_cons_self _ _))
    (by decide)
  obtain ⟨h1, h2⟩ := takeWhile_isDigit (toString m).data rest hdig hr
  have hneg : ¬ (((toString m).data ++ rest).head? = some '-') := by
    rw [hds]; simpa using hd
  unfold parseNumber
  simp only [hneg, if_false, h1, h2, decide_False, Bool.false_eq_true]
  rw [if_neg (repr_ne_nil m), if_neg (repr_leading m), if_neg (endsNumber_head rest hr),
    decValue_toString]

theorem parseNumber_int (n : Int) (rest : List Char) (hr : endsNumber rest = true) :
    parseNumber (encodeInt n ++ rest) = some (n, rest) := by
  cases n with
  | ofNat m => exact parseNumber_nat m rest hr
  | negSucc m =>
    have hdig := repr_isDigit (m + 1)
    obtain ⟨h1, h2⟩ := takeWhile_isDigit (toString (m + 1)).data rest hdig hr
    have e : encodeInt (Int.negSucc m) ++ rest = '-' :: ((toString (m + 1)).data ++ rest) := rfl
    rw [e]
    unfold parseNumber
    simp only [List.head?_cons, if_true, List.drop_succ_cons, List.drop_zero, h1, h2,
      decide_True]
    rw [if_neg (repr_ne_nil (m + 1)), if_neg (repr_leading (m + 1)),
      if_neg (endsNumber_head rest hr), decValue_toString]
    rfl

end json

/-! ## The structured output: objects -/

namespace json

theorem isSpace_cases (c : Char) (h : isSpace c = true) :
    c = ' ' ∨ c = '\t' ∨ c = '\r' ∨ c = '\n' := by
  unfold isSpace at h
  simp only [Bool.or_eq_true, beq_iff_eq] at h
  tauto

theorem endsNumber_space (c : Char) (rest : List Char) (h : isSpace c = true) :
    endsNumber (c :: rest) = true := by
  rcases isSpace_cases c h with h | h | h | h <;> subst h <;> rfl

theorem endsNumber_append (ws : List Char) (c : Char) (rest : List Char)
    (hws : ∀ w ∈ ws, isSpace w = true) (hc : endsNumber (c :: rest) = true) :
    endsNumber (ws ++ c :: rest) = true := by
  cases ws with
  | nil => exact hc
  | cons w ws => exact endsNumber_space w _ (hws w (List.mem_cons_self _ _))

theorem skipSpace_to (ws : List Char) (c : Char) (rest : List Char)
    (hws : ∀ w ∈ ws, isSpace w = true) (hc : isSpace c = false) :
    skipSpace (ws ++ c :: rest) = c :: rest := by
  rw [skipSpace_append ws _ hws, skipSpace_cons c rest hc]

theorem membersWith_succ (pv : List Char → Option (Value × List Char)) (fuel : Nat)
    (cs : List Char) :
    membersWith pv (fuel + 1) cs =
      match skipSpace cs with
      | [] => none
      | q :: cs1 =>
        if q = '"' then
          match unquote cs1.length cs1 with
          | none => none
          | some (key, cs2) =>
            match skipSpace cs2 with
            | [] => none
            | d :: cs3 =>
              if d = ':' then
                match pv cs3 with
                | none => none
                | some (v, rest) =>
                  match skipSpace rest with
                  | [] => none
                  | c :: rest1 =>
                    if c = ',' then
                      (membersWith pv fuel rest1).map
                        (fun p => ((String.mk key, v) :: p.1, p.2))
                    else if c = '}' then some ([(String.mk key, v)], rest1)
                    else none
              else none
        else none := rfl

/-- The key of a member and its value, up to the text after the value. -/
theorem membersWith_member (pv : List Char → Option (Value × List Char)) (fuel : Nat)
    (ws : List Char) (key : String) (txt : List Char) (v : Value) (tail : List Char)
    (hws : ∀ w ∈ ws, isSpace w = true) (hv : Reads pv txt v)
    (ht : endsNumber tail = true) :
    membersWith pv (fuel + 1) (ws ++ encodeMember key txt ++ tail) =
      match skipSpace tail with
      | [] => none
      | c :: rest1 =>
        if c = ',' then
          (membersWith pv fuel rest1).map (fun p => ((key, v) :: p.1, p.2))
        else if c = '}' then some ([(key, v)], rest1)
        else none := by
  obtain ⟨body, hb, hu⟩ := unquote_quote key (':' :: ' ' :: (txt ++ tail))
  have e : ws ++ encodeMember key txt ++ tail = ws ++ '"' :: body := by
    rw [← hb]
    simp [encodeMember]
  have hvv : pv (' ' :: (txt ++ tail)) = some (v, tail) := by
    have := hv [' '] tail (by simp [isSpace]) ht
    simpa using this
  rw [e, membersWith_succ, skipSpace_to ws '"' body hws rfl]
  simp only [if_true]
  rw [hu]
  simp only []
  rw [skipSpace_cons ':' _ rfl]
  simp only [if_true]
  rw [hvv]

/-- The members of an indented object: the decoder returns the keys with
the values and the text after the closing bracket. -/
theorem membersWith_items (pv : List Char → Option (Value × List Char))
    (ws1 ws0 rest : List Char)
    (h1 : ∀ w ∈ ws1, isSpace w = true) (h0 : ∀ w ∈ ws0, isSpace w = true) :
    ∀ (items : List (String × List Char × Value)), items ≠ [] →
      (∀ it ∈ items, Reads pv it.2.1 it.2.2) →
      ∀ fuel, items.length ≤ fuel →
        membersWith pv fuel
            (ws1 ++ joinItems (',' :: ws1) (items.map (fun it => encodeMember it.1 it.2.1)) ++
              ws0 ++ '}' :: rest) =
          some (items.map (fun it => (it.1, it.2.2)), rest) := by
  intro items
  induction items with
  | nil => intro h; exact absurd rfl h
  | cons it items ih =>
    intro _ hall fuel hfuel
    obtain ⟨f, rfl⟩ : ∃ f, fuel = f + 1 := ⟨fuel - 1, by simp at hfuel; omega⟩
    have hit := hall it (List.mem_cons_self _ _)
    cases items with
    | nil =>
      have e : ws1 ++ joinItems (',' :: ws1)
            (List.map (fun it => encodeMember it.1 it.2.1) [it]) ++ ws0 ++ '}' :: rest =
          ws1 ++ encodeMember it.1 it.2.1 ++ (ws0 ++ '}' :: rest) := by
        simp [joinItems]
      rw [e, membersWith_member pv f ws1 it.1 it.2.1 it.2.2 _ h1 hit
        (endsNumber_append ws0 '}' rest h0 rfl), skipSpace_to ws0 '}' rest h0 rfl]
      simp only [if_true]
      rw [if_neg (by decide)]
      rfl
    | cons it2 more =>
      have e : ws1 ++ joinItems (',' :: ws1)
            (List.map (fun it => encodeMember it.1 it.2.1) (it :: it2 :: more)) ++ ws0 ++
            '}' :: rest =
          ws1 ++ encodeMember it.1 it.2.1 ++ ',' :: (ws1 ++ joinItems (',' :: ws1)
            (List.map (fun it => encodeMember it.1 it.2.1) (it2 :: more)) ++ ws0 ++
            '}' :: rest) := by
        simp [joinItems]
      rw [e, membersWith_member pv f ws1 it.1 it.2.1 it.2.2
          (',' :: (ws1 ++ joinItems (',' :: ws1)
            (List.map (fun it => encodeMember it.1 it.2.1) (it2 :: more)) ++ ws0 ++
            '}' :: rest)) h1 hit rfl,
        skipSpace_cons ',' _ rfl]
      simp only [if_true]
      rw [ih (by simp) (fun x hx => hall x (List.mem_cons_of_mem _ hx)) f
          (by simp at hfuel ⊢; omega)]
      rfl

end json

/-! ## The structured output: values -/

namespace json

theorem parseValue_succ (depth : Nat) (cs : List Char) :
    parseValue (depth + 1) cs =
      match skipSpace cs with
      | [] => none
      | c :: cs1 =>
        if c = '{' then
          if (skipSpace cs1).head? = some '}' then
            some (Value.object [], (skipSpace cs1).drop 1)
          else (membersWith (parseValue depth) cs1.length cs1).map
            (fun p => (Value.object p.1, p.2))
        else if c = '[' then
          if (skipSpace cs1).head? = some ']' then
            some (Value.array [], (skipSpace cs1).drop 1)
          else (elementsWith (parseValue depth) cs1.length cs1).map
            (fun p => (Value.array p.1, p.2))
        else if c = '"' then
          (unquote cs1.length cs1).map (fun p => (Value.string (String.mk p.1), p.2))
        else if c = '-' ∨ c.isDigit = true then
          (parseNumber (c :: cs1)).map (fun p => (Value.number p.1, p.2))
        else if (c :: cs1).take 4 = "null".data then some (Value.null, (c :: cs1).drop 4)
        else if (c :: cs1).take 4 = "true".data then some (Value.bool true, (c :: cs1).drop 4)
        else if (c :: cs1).take 5 = "false".data then
          some (Value.bool false, (c :: cs1).drop 5)
        else none := rfl

/-- The decoder reads an encoded string as that string. -/
theorem reads_string (depth : Nat) (s : String) :
    Reads (parseValue (depth + 1)) (quote s) (Value.string s) := by
  intro ws rest hws _
  obtain ⟨body, hb, hu⟩ := unquote_quote s rest
  rw [List.append_assoc, hb, parseValue_succ, skipSpace_to ws '"' body hws rfl]
  simp only [if_true]
  rw [hu]
  rfl

theorem encodeInt_head (n : Int) :
    ∃ c cs, encodeInt n = c :: cs ∧ (c = '-' ∨ c.isDigit = true) := by
  cases n with
  | ofNat m =>
    cases h : (toString m).data with
    | nil => exact absurd h (repr_ne_nil m)
    | cons d ds =>
      refine ⟨d, ds, h, Or.inr ?_⟩
      exact repr_isDigit m d (by rw [h]; exact List.mem_cons_self _ _)
  | negSucc m => exact ⟨'-', (toString (m + 1)).data, rfl, Or.inl rfl⟩

theorem number_head (c : Char) (h : c = '-' ∨ c.isDigit = true) :
    isSpace c = false ∧ c ≠ '{' ∧ c ≠ '[' ∧ c ≠ '"' := by
  rcases h with h | h
  · subst h; decide
  · refine ⟨?_, isDigit_ne c _ h (by decide), isDigit_ne c _ h (by decide),
      isDigit_ne c _ h (by decide)⟩
    cases hs : isSpace c with
    | false => rfl
    | true =>
      exfalso
      rcases isSpace_cases c hs with e | e | e | e <;> subst e <;> exact absurd h (by decide)

/-- The decoder reads an encoded integer as that integer. -/
theorem reads_int (depth : Nat) (n : Int) :
    Reads (parseValue (depth + 1)) (encodeInt n) (Value.number n) := by
  intro ws rest hws hr
  obtain ⟨c, cs, hc, hcc⟩ := encodeInt_head n
  obtain ⟨h1, h2, h3, h4⟩ := number_head c hcc
  have hp := parseNumber_int n rest hr
  rw [hc, List.cons_append] at hp
  rw [List.append_assoc, hc, List.cons_append, parseValue_succ, skipSpace_to ws c _ hws h1]
  simp only []
  rw [if_neg h2, if_neg h3, if_neg h4, if_pos hcc, hp]
  rfl

theorem joinItems_length (c : Char) (sep : List Char) : ∀ ts : List (List Char),
    ts.length ≤ (joinItems (c :: sep) ts).length + 1 := by
  intro ts
  induction ts with
  | nil => simp
  | cons t ts ih =>
    cases ts with
    | nil => simp
    | cons t2 more =>
      simp only [joinItems, List.length_append, List.length_cons] at ih ⊢
      omega

theorem joinItems_head (sep t : List Char) (ts : List (List Char)) :
    ∃ tl, joinItems sep (t :: ts) = t ++ tl := by
  cases ts with
  | nil => exact ⟨[], by simp [joinItems]⟩
  | cons t2 more => exact ⟨sep ++ joinItems sep (t2 :: more), by simp [joinItems]⟩

theorem newline_space (pre ind : String) (hpre : ∀ c ∈ pre.data, isSpace c = true)
    (hind : ∀ c ∈ ind.data, isSpace c = true) (depth : Nat) :
    ∀ c ∈ newline pre ind depth, isSpace c = true := by
  intro c hc
  unfold newline at hc
  simp only [List.cons_append, List.mem_cons, List.mem_append, List.mem_flatten,
    List.mem_replicate] at hc
  rcases hc with h | h | ⟨l, ⟨_, hl⟩, hcl⟩
  · subst h; rfl
  · exact hpre c h
  · subst hl; exact hind c hcl

/-- The decoder reads an indented object with members as the object of the
keys with the values that it reads for the encoded values. -/
theorem reads_object (depth : Nat) (pre ind : String)
    (hpre : ∀ c ∈ pre.data, isSpace c = true) (hind : ∀ c ∈ ind.data, isSpace c = true)
    (d : Nat) (items : List (String × List Char × Value)) (hne : items ≠ [])
    (hall : ∀ it ∈ items, Reads (parseValue depth) it.2.1 it.2.2) :
    Reads (parseValue (depth + 1))
      (encodeList '{' '}' pre ind d (items.map (fun it => encodeMember it.1 it.2.1)))
      (Value.object (items.map (fun it => (it.1, it.2.2)))) := by
  intro ws rest hws _
  have h1 := newline_space pre ind hpre hind (d + 1)
  have h0 := newline_space pre ind hpre hind d
  obtain ⟨it, more, rfl⟩ : ∃ it more, items = it :: more := by
    cases items with
    | nil => exact absurd rfl hne
    | cons it more => exact ⟨it, more, rfl⟩
  obtain ⟨tl, htl⟩ := joinItems_head (',' :: newline pre ind (d + 1))
    (encodeMember it.1 it.2.1) (more.map (fun it => encodeMember it.1 it.2.1))
  have hlen := joinItems_length ',' (newline pre ind (d + 1))
    ((it :: more).map (fun it => encodeMember it.1 it.2.1))
  have e : ws ++ encodeList '{' '}' pre ind d
        ((it :: more).map (fun it => encodeMember it.1 it.2.1)) ++ rest =
      ws ++ '{' :: (newline pre ind (d + 1) ++ joinItems (',' :: newline pre ind (d + 1))
        ((it :: more).map (fun it => encodeMember it.1 it.2.1)) ++ newline pre ind d ++
        '}' :: rest) := by
    simp [encodeList]
  have hq : skipSpace (newline pre ind (d + 1) ++ joinItems (',' :: newline pre ind (d + 1))
        ((it :: more).map (fun it => encodeMember it.1 it.2.1)) ++ newline pre ind d ++
        '}' :: rest) =
      '"' :: ((it.1.data.map escape).flatten ++ '"' :: ':' :: ' ' :: it.2.1 ++ tl ++
        newline pre ind d ++ '}' :: rest) := by
    rw [List.map_cons, htl, List.append_assoc, List.append_assoc, skipSpace_append _ _ h1]
    simp only [encodeMember, quote, List.cons_append, List.append_assoc, List.nil_append]
    exact skipSpace_cons '"' _ rfl
  rw [e, parseValue_succ, skipSpace_to ws '{' _ hws rfl]
  simp only [if_true]
  rw [hq, if_neg (by simp),
    membersWith_items (parseValue depth) _ _ rest h1 h0 (it :: more) hne hall _
      (by simp only [List.length_append, List.length_cons, List.length_map] at hlen ⊢; omega)]
  rfl

/-- The decoder reads the encoding of an object without members as the
object without members. -/
theorem reads_object_nil (depth : Nat) (pre ind : String) (d : Nat) :
    Reads (parseValue (depth + 1)) (encodeList '{' '}' pre ind d []) (Value.object []) := by
  intro ws rest hws _
  have e : ws ++ encodeList '{' '}' pre ind d [] ++ rest = ws ++ '{' :: ('}' :: rest) := by
    simp [encodeList]
  rw [e, parseValue_succ, skipSpace_to ws '{' _ hws rfl]
  simp only [if_true]
  rw [skipSpace_cons '}' rest rfl]
  simp

end json

/-! ## The structured output: the report -/

namespace json

theorem reads_typeStats (depth : Nat) (pre ind : String)
    (hpre : ∀ c ∈ pre.data, isSpace c = true) (hind : ∀ c ∈ ind.data, isSpace c = true)
    (d : Nat) (s : typeStats) :
    Reads (parseValue (depth + 2)) (encodeTypeStats pre ind d s) (valueOfTypeStats s) := by
  refine reads_object (depth + 1) pre ind hpre hind d
    [("Name", quote s.Name, Value.string s.Name), ("Sum", encodeInt s.Sum, Value.number s.Sum),
      ("Count", encodeInt s.Count, Value.number s.Count)] (by simp) ?_
  intro it hit
  simp only [List.mem_cons, List.mem_singleton, List.not_mem_nil, or_false] at hit
  rcases hit with rfl | rfl | rfl
  · exact reads_string depth _
  · exact reads_int depth _
  · exact reads_int depth _

theorem reads_metadataInfo (depth : Nat) (pre ind : String)
    (hpre : ∀ c ∈ pre.data, isSpace c = true) (hind : ∀ c ∈ ind.data, isSpace c = true)
    (d : Nat) (m : MetadataInfo) :
    Reads (parseValue (depth + 2)) (encodeMetadataInfo pre ind d m) (valueOfMetadataInfo m) := by
  refine reads_object (depth + 1) pre ind hpre hind d
    [("ID", quote m.ID, Value.string m.ID), ("Size", encodeInt m.Size, Value.number m.Size),
      ("Index", encodeInt m.Index, Value.number m.Index),
      ("Term", encodeInt m.Term, Value.number m.Term),
      ("Version", encodeInt m.Version, Value.number m.Version)] (by simp) ?_
  intro it hit
  simp only [List.mem_cons, List.mem_singleton, List.not_mem_nil, or_false] at hit
  rcases hit with rfl | rfl | rfl | rfl | rfl
  · exact reads_string depth _
  · exact reads_int depth _
  · exact reads_int depth _
  · exact reads_int depth _
  · exact reads_int depth _

theorem reads_stats (depth : Nat) (pre ind : String)
    (hpre : ∀ c ∈ pre.data, isSpace c = true) (hind : ∀ c ∈ ind.data, isSpace c = true)
    (d : Nat) (ss : List typeStats) :
    Reads (parseValue (depth + 3)) (encodeStats pre ind d ss)
      (Value.object ((insertionSortSlice ss keyLess).map
        (fun s => (s.Name, valueOfTypeStats s)))) := by
  unfold encodeStats
  cases hso : insertionSortSlice ss keyLess with
  | nil => exact reads_object_nil (depth + 2) pre ind d
  | cons s so =>
    have h := reads_object (depth + 2) pre ind hpre hind d
      ((s :: so).map (fun s => (s.Name, encodeTypeStats pre ind (d + 1) s, valueOfTypeStats s)))
      (by simp)
      (by
        intro it hit
        obtain ⟨x, _, rfl⟩ := List.mem_map.mp hit
        exact reads_typeStats depth pre ind hpre hind (d + 1) x)
    simp only [List.map_map, Function.comp_def] at h
    exact h

/-- The decoder reads the encoding of a report as the JSON value of the
report. -/
theorem reads_outputFormat (depth : Nat) (pre ind : String)
    (hpre : ∀ c ∈ pre.data, isSpace c = true) (hind : ∀ c ∈ ind.data, isSpace c = true)
    (info : OutputFormat) :
    Reads (parseValue (depth + 4)) (encodeOutputFormat pre ind info)
      (valueOfOutputFormat info) := by
  refine reads_object (depth + 3) pre ind hpre hind 0
    [("Meta", encodeMetadataInfo pre ind 1 info.Meta, valueOfMetadataInfo info.Meta),
      ("Stats", encodeStats pre ind 1 info.Stats,
        Value.object ((insertionSortSlice info.Stats keyLess).map
          (fun s => (s.Name, valueOfTypeStats s)))),
      ("Offset", encodeInt info.Offset, Value.number info.Offset)] (by simp) ?_
  intro it hit
  simp only [List.mem_cons, List.mem_singleton, List.not_mem_nil, or_false] at hit
  rcases hit with rfl | rfl | rfl
  · exact reads_metadataInfo (depth + 1) pre ind hpre hind 1 _
  · exact reads_stats depth pre ind hpre hind 1 _
  · exact reads_int (depth + 2) _

theorem decodeTypeStats_value (s : typeStats) : decodeTypeStats (valueOfTypeStats s) = some s := by
  cases s
  simp [decodeTypeStats, valueOfTypeStats, lookup, decodeString, decodeInt]

theorem store_new (key : String) (s : typeStats) : ∀ acc : List (String × typeStats),
    key ∉ acc.map Prod.fst → store key s acc = acc ++ [(key, s)] := by
  intro acc
  induction acc with
  | nil => intro _; rfl
  | cons kt acc ih =>
    intro h
    simp only [List.map_cons, List.mem_cons, not_or] at h
    rw [store, if_neg (fun e => h.1 e.symm), ih h.2]
    rfl

/-- Decoding the members written for entries with distinct names stores
every entry. -/
theorem decodeMembers_entries : ∀ (l : List typeStats) (acc : List (String × typeStats)),
    (l.map (fun s => s.Name)).Nodup → (∀ s ∈ l, s.Name ∉ acc.map Prod.fst) →
    decodeMembers (l.map (fun s => (s.Name, valueOfTypeStats s))) acc =
      some (acc ++ l.map (fun s => (s.Name, s))) := by
  intro l
  induction l with
  | nil => intro acc _ _; simp [decodeMembers]
  | cons s l ih =>
    intro acc hnd hacc
    rw [List.map_cons, List.nodup_cons] at hnd
    obtain ⟨hs, hl⟩ := hnd
    rw [List.map_cons, decodeMembers]
    simp only [decodeTypeStats_value]
    rw [store_new s.Name s acc (hacc s (List.mem_cons_self _ _)), ih _ hl]
    · simp
    · intro t ht hmem
      simp only [List.map_append, List.map_cons, List.map_nil, List.mem_append,
        List.mem_singleton] at hmem
      rcases hmem with h | h
      · exact hacc t (List.mem_cons_of_mem _ ht) h
      · exact hs (h ▸ List.mem_map_of_mem (fun s => s.Name) ht)

theorem insertionSortSlice_perm (less : typeStats → typeStats → Bool) (ss : List typeStats) :
    (insertionSortSlice ss less).Perm ss := by
  unfold insertionSortSlice
  induction ss with
  | nil => exact List.Perm.refl _
  | cons x xs ih =>
    rw [List.foldr_cons]
    exact (insertBy_perm _ x _).trans (List.Perm.cons x ih)

theorem decodeMetadataInfo_value (m : MetadataInfo) :
    decodeMetadataInfo (some (valueOfMetadataInfo m)) = some m := by
  cases m
  simp [decodeMetadataInfo, valueOfMetadataInfo, lookup, decodeString, decodeInt]

/-- Decoding the JSON value of a report whose entries have distinct names
gives the report with the entries in the order of their keys. -/
theorem decodeOutputFormat_value (info : OutputFormat)
    (hnames : (info.Stats.map (fun s => s.Name)).Nodup) :
    decodeOutputFormat (valueOfOutputFormat info) =
      some { Meta := info.Meta, Stats := insertionSortSlice info.Stats keyLess,
             Offset := info.Offset } := by
  have hp := insertionSortSlice_perm keyLess info.Stats
  have hnd : ((insertionSortSlice info.Stats keyLess).map (fun s => s.Name)).Nodup :=
    (List.Perm.nodup_iff (hp.map _)).2 hnames
  have hm := decodeMembers_entries (insertionSortSlice info.Stats keyLess) [] hnd (by simp)
  simp [decodeOutputFormat, valueOfOutputFormat, lookup, decodeInt, decodeStats,
    decodeMetadataInfo_value, hm, Function.comp_def]

/-- Decoding the indented encoding of a report whose entries have distinct
names gives the report with the entries in the order of their keys, for
every prefix and indent made of white space. -/
theorem Unmarshal_encode (pre ind : String)
    (hpre : ∀ c ∈ pre.data, isSpace c = true) (hind : ∀ c ∈ ind.data, isSpace c = true)
    (info : OutputFormat) (hnames : (info.Stats.map (fun s => s.Name)).Nodup) :
    Unmarshal (String.mk (encodeOutputFormat pre ind info)) =
      some { Meta := info.Meta, Stats := insertionSortSlice info.Stats keyLess,
             Offset := info.Offset } := by
  have h := reads_outputFormat 9996 pre ind hpre hind info [] [] (by simp) rfl
  simp only [List.nil_append, List.append_nil] at h
  unfold Unmarshal
  simp only []
  rw [h]
  simp only []
  rw [if_pos (show skipSpace ([] : List Char) = [] from rfl)]
  exact decodeOutputFormat_value info hnames

end json

end inspect
